import Mathlib

/-!
# MyPromise (src/promise.js): a shallow embedding

The class `MyPromise` is embedded as operations on an explicit world:
a heap of instances (fields `state`, `value`, `resolveFns`, `rejectFns`),
the cells of the `resolvedPromiseCount` variables captured by `all`, and a
trace of the calls made to caller-supplied functions.

Closures created by the class are defunctionalised (`Fn`): each constructor
of `Fn` names one function literal of the source together with the variables
it captures.  Calling a function is `call`, which takes fuel because the two
settle capabilities call the queued handlers, which call settle capabilities
again.
-/

namespace MyPromise

/-- Identity of a `MyPromise` instance: its index in the heap. -/
abbrev PId := Nat

/-- JavaScript values, as far as the class can tell them apart. -/
inductive Val where
  | undefined
  | null
  | bool (b : Bool)
  | num (n : Int)
  | str (s : String)
  | obj (o : Nat)
  | promise (p : PId)
  | typeError
  deriving DecidableEq, Repr

/-- The three strings stored in `this.state`. -/
inductive St where
  | pending
  | resolved
  | rejected
  deriving DecidableEq, Repr

/-- What one call of a caller-supplied function does: return a value, throw,
or return `MyPromise.resolve(v)` / `MyPromise.reject(v)`. -/
inductive Outcome where
  | ret (v : Val)
  | raise (v : Val)
  | retResolve (v : Val)
  | retReject (v : Val)

/-- Functions (and non-functions) that reach the class.
* `notFn`: a value whose `typeof` is not `'function'` (`undefined`, `null`);
* `user id body`: a caller-supplied function, `id` identifies it in the trace;
* `resolve p`, `reject p`: the arrows of lines 9 and 28 bound to instance `p`;
* `ident`: the defaults of lines 64 and 67;
* `onResolve cb q`, `onReject cb q`: the arrows pushed at lines 76 and 100,
  capturing the continuation and the capabilities of the new instance `q`;
* `finThen fin`, `finCatch fin`: the arrows of lines 130 and 136;
* `konst v`: the arrows of lines 133 and 139;
* `allThen i len agg cnt`, `allCatch agg`: the arrows of lines 166 and 174. -/
inductive Fn where
  | notFn
  | user (id : Nat) (body : List Val → Outcome)
  | resolve (p : PId)
  | reject (p : PId)
  | ident
  | onResolve (cb : Fn) (q : PId)
  | onReject (cb : Fn) (q : PId)
  | finThen (fin : Fn)
  | finCatch (fin : Fn)
  | konst (v : Val)
  | allThen (i : Nat) (len : Nat) (agg : PId) (cnt : Nat)
  | allCatch (agg : PId)

/-- Reading `typeof f === 'function'`. -/
def Fn.isFunction : Fn → Bool
  | .notFn => false
  | _ => true

/-- Fields of one instance (constructor, lines 4, 7, 47, 48). -/
structure Promise where
  state : St
  value : Val
  resolveFns : List Fn
  rejectFns : List Fn

/-- The heap of instances, the `resolvedPromiseCount` cells, and the trace of
calls to caller-supplied functions (function id, actual arguments). -/
structure World where
  heap : List Promise
  counts : List Nat
  log : List (Nat × List Val)

/-- Result of a call: normal completion with a value, or a thrown value. -/
inductive Res where
  | ret (v : Val)
  | throw (e : Val)
  deriving DecidableEq, Repr

/-- The empty world. -/
def World.empty : World := ⟨[], [], []⟩

/-- First actual argument, `undefined` when absent. -/
def arg0 (args : List Val) : Val := args.headD .undefined

/-- Reading `x instanceof MyPromise`. -/
def Val.asPromise : Val → Option PId
  | .promise p => some p
  | _ => none

/-- Whether a property can be created on the value in strict mode (a class
body is strict code): objects yes, primitives no. -/
def Val.isObject : Val → Bool
  | .obj _ => true
  | .promise _ => true
  | .typeError => true
  | _ => false

/-- Reading `this.state` of instance `p`. -/
def stateOf (p : PId) (w : World) : Option St := (w.heap[p]?).map Promise.state

/-- Reading `this.value` of instance `p`. -/
def valueOf (p : PId) (w : World) : Val := ((w.heap[p]?).map Promise.value).getD .undefined

/-- Constructor, lines 4, 7, 47, 48: a new pending instance with empty queues. -/
def alloc (w : World) : PId × World :=
  (w.heap.length, { w with heap := w.heap ++ [⟨.pending, .undefined, [], []⟩] })

/-- The statement `this.resolveFns.push(f)` on instance `p`. -/
def pushResolveFn (p : PId) (f : Fn) (w : World) : World :=
  match w.heap[p]? with
  | none => w
  | some pr => { w with heap := w.heap.set p { pr with resolveFns := pr.resolveFns ++ [f] } }

/-- The statement `this.rejectFns.push(f)` on instance `p`. -/
def pushRejectFn (p : PId) (f : Fn) (w : World) : World :=
  match w.heap[p]? with
  | none => w
  | some pr => { w with heap := w.heap.set p { pr with rejectFns := pr.rejectFns ++ [f] } }

/-- Method `then`, lines 61-115: default the non-function arguments, construct
the new instance, whose executor pushes one handler on each queue of the
receiver.  Nothing is called and the executor cannot throw. -/
def then_ (self : PId) (onResolveFn onRejectFn : Fn) (w : World) : PId × World :=
  let onRes := if onResolveFn.isFunction then onResolveFn else Fn.ident
  let onRej := if onRejectFn.isFunction then onRejectFn else Fn.ident
  let q := (alloc w).1
  let w1 := (alloc w).2
  let w2 := pushResolveFn self (.onResolve onRes q) w1
  let w3 := pushRejectFn self (.onReject onRej q) w2
  (q, w3)

/-- Method `catch`, lines 118-120. -/
def catch_ (self : PId) (onRejectFn : Fn) (w : World) : PId × World :=
  then_ self .notFn onRejectFn w

/-- Method `finally`, lines 125-141. -/
def finally_ (self : PId) (finallyFn : Fn) (w : World) : PId × World :=
  then_ self (.finThen finallyFn) (.finCatch finallyFn) w

/-- The assignments `this.state = st; this.value = v` (lines 14-15, 33-34) on
instance `p`, whose fields were `pr`. -/
def assign (p : PId) (pr : Promise) (st : St) (v : Val) (w : World) : World :=
  { w with heap := w.heap.set p { pr with state := st, value := v } }

/-- Tracing one call of the caller-supplied function `id`. -/
def trace (id : Nat) (args : List Val) (w : World) : World :=
  { w with log := w.log ++ [(id, args)] }

/-- The `forEach` of lines 18-24 and 37-43 over the queue `fs` of instance `p`:
non-functions are skipped, each function is called with `this.value`; a throw
leaves the loop.  Only `push` ever changes a queue, so the elements visited are
those present when the loop starts. -/
def forEachFn (callf : Fn → List Val → World → Option (Res × World)) (p : PId) :
    List Fn → World → Option (Res × World)
  | [], w => some (.ret .undefined, w)
  | f :: fs, w =>
    if f.isFunction then
      match callf f [valueOf p w] w with
      | none => none
      | some (.throw e, w1) => some (.throw e, w1)
      | some (.ret _, w1) => forEachFn callf p fs w1
    else forEachFn callf p fs w

/-- The capabilities `resolve` (lines 9-26, `st = resolved`) and `reject`
(lines 28-44, `st = rejected`) of instance `p`. -/
def settle (callf : Fn → List Val → World → Option (Res × World)) (st : St) (p : PId)
    (v : Val) (w : World) : Option (Res × World) :=
  match w.heap[p]? with
  | none => some (.ret .undefined, w)
  | some pr =>
    if pr.state ≠ .pending then some (.ret .undefined, w)
    else
      forEachFn callf p (if st = .resolved then pr.resolveFns else pr.rejectFns)
        (assign p pr st v w)

/-- The capability of instance `p` that stores `st`. -/
def capOf (st : St) (p : PId) : Fn :=
  if st = .resolved then .resolve p else .reject p

/-- Static `resolve` (lines 144-148) and `reject` (lines 151-155): construct an
instance whose executor calls one capability; the constructor catches a throw
of the executor and calls `reject` with it (lines 53-58). -/
def staticSettle (callf : Fn → List Val → World → Option (Res × World)) (st : St)
    (v : Val) (w : World) : Option (Except Val PId × World) :=
  match callf (capOf st (alloc w).1) [v] (alloc w).2 with
  | none => none
  | some (.ret _, w2) => some (.ok (alloc w).1, w2)
  | some (.throw e, w2) =>
    match callf (.reject (alloc w).1) [e] w2 with
    | none => none
    | some (.ret _, w3) => some (.ok (alloc w).1, w3)
    | some (.throw e2, w3) => some (.error e2, w3)

/-- The handlers pushed by `then` (lines 76-98 and 100-113): call the
continuation; a returned instance gets `then(resolve, reject)`; another value
resolves the new instance; a throw anywhere in the `try` rejects it. -/
def handler (callf : Fn → List Val → World → Option (Res × World)) (cb : Fn) (q : PId)
    (x0 : Val) (w : World) : Option (Res × World) :=
  match callf cb [x0] w with
  | none => none
  | some (.throw err, w1) => callf (.reject q) [err] w1
  | some (.ret x, w1) =>
    match x.asPromise with
    | some xp => some (.ret .undefined, (then_ xp (.resolve q) (.reject q) w1).2)
    | none =>
      match callf (.resolve q) [x] w1 with
      | none => none
      | some (.throw err, w2) => callf (.reject q) [err] w2
      | some (.ret _, w2) => some (.ret .undefined, w2)

/-- The arrows of `finally` (lines 130-134 with `st = resolved`, lines 136-140
with `st = rejected`): `this.constructor.resolve(finallyFn()).then(() => value)`,
respectively `this.constructor.reject(finallyFn()).then(() => error)`. -/
def finArrow (callf : Fn → List Val → World → Option (Res × World)) (st : St) (fin : Fn)
    (value : Val) (w : World) : Option (Res × World) :=
  match callf fin [] w with
  | none => none
  | some (.throw e, w1) => some (.throw e, w1)
  | some (.ret r, w1) =>
    match staticSettle callf st r w1 with
    | none => none
    | some (.error e, w2) => some (.throw e, w2)
    | some (.ok x, w2) => some (.ret (.promise (then_ x (.konst value) .notFn w2).1),
        (then_ x (.konst value) .notFn w2).2)

/-- The statement `resolvedPromiseCount++` on cell `cnt`. -/
def bump (cnt : Nat) (w : World) : World :=
  { w with counts := w.counts.set cnt (w.counts.getD cnt 0 + 1) }

/-- The arrow of lines 166-173.  Its parameter `result` shadows the array of
line 160, so `result[i] = result` creates a property on the argument: a
TypeError for a primitive, no change of any field of the class for an object. -/
def allArrow (callf : Fn → List Val → World → Option (Res × World)) (len agg cnt : Nat)
    (result : Val) (w : World) : Option (Res × World) :=
  if result.isObject then
    if (bump cnt w).counts.getD cnt 0 = len then
      match callf (.resolve agg) [result] (bump cnt w) with
      | none => none
      | some (.throw e, w2) => some (.throw e, w2)
      | some (.ret _, w2) => some (.ret .undefined, w2)
    else some (.ret .undefined, bump cnt w)
  else some (.throw .typeError, bump cnt w)

/-- The arrow of lines 174-176: `(e) => { reject(e) }`. -/
def allCatchArrow (callf : Fn → List Val → World → Option (Res × World)) (agg : PId)
    (e : Val) (w : World) : Option (Res × World) :=
  match callf (.reject agg) [e] w with
  | none => none
  | some (.throw e2, w1) => some (.throw e2, w1)
  | some (.ret _, w1) => some (.ret .undefined, w1)

/-- Calling a caller-supplied function: the call is traced, then the function
returns, throws, or returns a statically constructed instance. -/
def userCall (callf : Fn → List Val → World → Option (Res × World)) (id : Nat)
    (body : List Val → Outcome) (args : List Val) (w : World) : Option (Res × World) :=
  match body args with
  | .ret v => some (.ret v, trace id args w)
  | .raise v => some (.throw v, trace id args w)
  | .retResolve v =>
    match staticSettle callf .resolved v (trace id args w) with
    | none => none
    | some (.ok x, w2) => some (.ret (.promise x), w2)
    | some (.error e, w2) => some (.throw e, w2)
  | .retReject v =>
    match staticSettle callf .rejected v (trace id args w) with
    | none => none
    | some (.ok x, w2) => some (.ret (.promise x), w2)
    | some (.error e, w2) => some (.throw e, w2)

/-- Calling `f` with the actual arguments `args`; `none` when the fuel is
used up.  Calling a non-function throws a TypeError. -/
def call : Nat → Fn → List Val → World → Option (Res × World)
  | 0, _, _, _ => none
  | fuel + 1, f, args, w =>
    match f with
    | .notFn => some (.throw .typeError, w)
    | .user id body => userCall (call fuel) id body args w
    | .resolve p => settle (call fuel) .resolved p (arg0 args) w
    | .reject p => settle (call fuel) .rejected p (arg0 args) w
    | .ident => some (.ret (arg0 args), w)
    | .onResolve cb q => handler (call fuel) cb q (arg0 args) w
    | .onReject cb q => handler (call fuel) cb q (arg0 args) w
    | .finThen fin => finArrow (call fuel) .resolved fin (arg0 args) w
    | .finCatch fin => finArrow (call fuel) .rejected fin (arg0 args) w
    | .konst v => some (.ret v, w)
    | .allThen _ len agg cnt => allArrow (call fuel) len agg cnt (arg0 args) w
    | .allCatch agg => allCatchArrow (call fuel) agg (arg0 args) w

/-- The `forEach` of lines 162-178 from index `i` on: an entry that is an
instance gets `.then(...).catch(...)`, any other entry is skipped. -/
def allEach (len agg cnt : Nat) : Nat → List Val → World → World
  | _, [], w => w
  | i, item :: rest, w =>
    match item.asPromise with
    | some p =>
      allEach len agg cnt (i + 1) rest
        (catch_ (then_ p (.allThen i len agg cnt) .notFn w).1 (.allCatch agg)
          (then_ p (.allThen i len agg cnt) .notFn w).2).2
    | none => allEach len agg cnt (i + 1) rest w

/-- Static `all`, lines 157-180: the executor allocates the counter
`resolvedPromiseCount` and runs the `forEach`; nothing is called. -/
def all (promiseArr : List Val) (w : World) : PId × World :=
  ((alloc w).1,
    allEach promiseArr.length (alloc w).1 (alloc w).2.counts.length 0 promiseArr
      { (alloc w).2 with counts := (alloc w).2.counts ++ [0] })

/-- Static `resolve` with fuel. -/
def staticResolve (fuel : Nat) (v : Val) (w : World) : Option (Except Val PId × World) :=
  staticSettle (call fuel) .resolved v w

/-- Static `reject` with fuel. -/
def staticReject (fuel : Nat) (v : Val) (w : World) : Option (Except Val PId × World) :=
  staticSettle (call fuel) .rejected v w



/-! ## Auxiliary definitions for the proofs -/

/-- Pointwise order on interpreters: `c2` returns whatever `c1` returns. -/
def Le (c1 c2 : Fn → List Val → World → Option (Res × World)) : Prop :=
  ∀ f a w r, c1 f a w = some r → c2 f a w = some r

/-- Functions that complete normally whenever they return: the capabilities
and the handlers pushed by `then`. -/
def Fn.isGuarded : Fn → Bool
  | .resolve _ => true
  | .reject _ => true
  | .onResolve _ _ => true
  | .onReject _ _ => true
  | _ => false

/-- Conditions under which every call of a function of class `A`, started in
a world satisfying `I`, keeps `I`, relates the two worlds by `R`, and (for a
function of class `N`) completes normally. -/
structure Rule (A N : Fn → Prop) (I : World → Prop) (R : World → World → Prop) : Prop where
  refl : ∀ w, R w w
  trans : ∀ w1 w2 w3, R w1 w2 → R w2 w3 → R w1 w3
  sub_onResolve : ∀ cb q, A (.onResolve cb q) → A cb ∧ A (.resolve q) ∧ A (.reject q)
  sub_onReject : ∀ cb q, A (.onReject cb q) → A cb ∧ A (.resolve q) ∧ A (.reject q)
  sub_finThen : ∀ fin, A (.finThen fin) → A fin
  sub_finCatch : ∀ fin, A (.finCatch fin) → A fin
  sub_allThen : ∀ i len agg cnt, A (.allThen i len agg cnt) → A (.resolve agg)
  sub_allCatch : ∀ agg, A (.allCatch agg) → A (.reject agg)
  fresh : ∀ w, I w → A (.resolve w.heap.length) ∧ A (.reject w.heap.length)
  step_trace : ∀ id body args w, A (.user id body) → I w →
    I (trace id args w) ∧ R w (trace id args w)
  step_alloc : ∀ w, I w → I (alloc w).2 ∧ R w (alloc w).2
  step_link : ∀ q x w, A (.resolve q) → A (.reject q) → I w →
    I (then_ x (.resolve q) (.reject q) w).2 ∧ R w (then_ x (.resolve q) (.reject q) w).2
  step_fin : ∀ x v w, I w →
    I (then_ x (.konst v) .notFn w).2 ∧ R w (then_ x (.konst v) .notFn w).2
  step_bump : ∀ cnt w, I w → I (bump cnt w) ∧ R w (bump cnt w)
  step_assign : ∀ st p v w pr, A (capOf st p) → I w → w.heap[p]? = some pr →
    pr.state = .pending → I (assign p pr st v w) ∧ R w (assign p pr st v w)
  queue : ∀ st p w pr, A (capOf st p) → I w → w.heap[p]? = some pr → pr.state = .pending →
    ∀ h ∈ (if st = .resolved then pr.resolveFns else pr.rejectFns), h.isFunction = true →
      A h ∧ (N (capOf st p) → N h)
  guarded : ∀ f, N f → f.isGuarded = true
  guard_onResolve : ∀ cb q, N (.onResolve cb q) → N (.reject q)
  guard_onReject : ∀ cb q, N (.onReject cb q) → N (.reject q)

/-- What the rule concludes about an interpreter. -/
def Sound (A N : Fn → Prop) (I : World → Prop) (R : World → World → Prop)
    (c : Fn → List Val → World → Option (Res × World)) : Prop :=
  ∀ f a w r w1, A f → I w → c f a w = some (r, w1) →
    I w1 ∧ R w w1 ∧ (N f → ∃ v, r = .ret v)

/-- Fields of a freshly constructed instance. -/
def Promise.fresh : Promise := ⟨.pending, .undefined, [], []⟩

/-- The continuation that `then` stores for an argument: the argument itself
when it is a function, the identity otherwise (lines 63-68). -/
def orIdent (f : Fn) : Fn := if f.isFunction then f else Fn.ident

/-- The second world extends the first: instances persist, a settled instance
keeps its state and value, queues and the trace only grow at the end. -/
def Grows (w w1 : World) : Prop :=
  w.heap.length ≤ w1.heap.length ∧
  (∀ (p : PId) (pr : Promise), w.heap[p]? = some pr → ∃ pr1 : Promise, w1.heap[p]? = some pr1 ∧
    (pr.state ≠ .pending → pr1.state = pr.state ∧ pr1.value = pr.value) ∧
    (∃ l, pr1.resolveFns = pr.resolveFns ++ l) ∧ (∃ l, pr1.rejectFns = pr.rejectFns ++ l)) ∧
  (∃ l, w1.log = w.log ++ l)

/-- Whether a call of the function can return a `MyPromise` instance. -/
def Fn.mayReturnInstance : Fn → Bool
  | .notFn => false
  | .resolve _ => false
  | .reject _ => false
  | .allThen _ _ _ _ => false
  | .allCatch _ => false
  | _ => true

/-- A bound on the work one call of the function does by itself, the queues
it fills included. -/
def Fn.size : Fn → Nat
  | .notFn => 1
  | .user _ _ => 1
  | .resolve _ => 1
  | .reject _ => 1
  | .ident => 1
  | .onResolve cb _ => cb.size + (if cb.mayReturnInstance then 8 else 2)
  | .onReject cb _ => cb.size + (if cb.mayReturnInstance then 8 else 2)
  | .finThen fin => fin.size + 20
  | .finCatch fin => fin.size + 20
  | .konst _ => 1
  | .allThen _ _ _ _ => 2
  | .allCatch _ => 2

/-- Work still queued on one instance: nothing once it is settled. -/
def Promise.pot (pr : Promise) : Nat :=
  if pr.state = .pending then
    1 + (pr.resolveFns.map Fn.size).sum + (pr.rejectFns.map Fn.size).sum
  else 0

/-- Work still queued in the whole heap. -/
def potential (w : World) : Nat := (w.heap.map Promise.pot).sum

/-- With a bound `m` on queued work plus size: the call returns and leaves
less queued work than that. -/
def Terminates (m : Nat) : Prop :=
  ∀ f a w, potential w + Fn.size f ≤ m →
    ∃ n r w1, call n f a w = some (r, w1) ∧ potential w1 + 1 ≤ potential w + f.size

/-- The world after `MyPromise.resolve(v)` or `MyPromise.reject(v)`: one more
instance, already settled, with empty queues. -/
def settledNew (st : St) (v : Val) (w : World) : World :=
  assign w.heap.length Promise.fresh st v (alloc w).2

/-- Every queued function is a capability or a handler pushed by `then`. -/
def Safe (w : World) : Prop :=
  ∀ (p : PId) (pr : Promise), w.heap[p]? = some pr →
    ∀ h ∈ pr.resolveFns ++ pr.rejectFns, h.isGuarded = true

/-- The function captures no capability of instance `q0`. -/
def Fn.avoids (q0 : PId) : Fn → Bool
  | .notFn => true
  | .user _ _ => true
  | .resolve p => decide (p ≠ q0)
  | .reject p => decide (p ≠ q0)
  | .ident => true
  | .onResolve cb q => cb.avoids q0 && decide (q ≠ q0)
  | .onReject cb q => cb.avoids q0 && decide (q ≠ q0)
  | .finThen fin => fin.avoids q0
  | .finCatch fin => fin.avoids q0
  | .konst _ => true
  | .allThen _ _ agg _ => decide (agg ≠ q0)
  | .allCatch agg => decide (agg ≠ q0)

/-- Instance `q0` exists and no function queued on a pending instance
captures a capability of `q0`. -/
def Unreached (q0 : PId) (w : World) : Prop :=
  q0 < w.heap.length ∧
  ∀ (p : PId) (pr : Promise), w.heap[p]? = some pr → pr.state = .pending →
    ∀ h ∈ pr.resolveFns ++ pr.rejectFns, h.avoids q0 = true

/-- Instance `q0` has the same state and value in both worlds. -/
def SameStatus (q0 : PId) (w w1 : World) : Prop :=
  stateOf q0 w1 = stateOf q0 w ∧ valueOf q0 w1 = valueOf q0 w

/-- The function contains no caller-supplied function and captures only
capabilities of instances created after instance `b`. -/
def Fn.above (b : PId) : Fn → Bool
  | .notFn => true
  | .user _ _ => false
  | .resolve p => decide (b < p)
  | .reject p => decide (b < p)
  | .ident => true
  | .onResolve cb q => cb.above b && decide (b < q)
  | .onReject cb q => cb.above b && decide (b < q)
  | .finThen fin => fin.above b
  | .finCatch fin => fin.above b
  | .konst _ => true
  | .allThen _ _ agg _ => decide (b < agg)
  | .allCatch agg => decide (b < agg)

/-- Instance `b` exists, and the queues of the instances created after it
hold only guarded functions that are above `b`. -/
def Quiet (b : PId) (w : World) : Prop :=
  b < w.heap.length ∧
  ∀ (p : PId) (pr : Promise), b < p → w.heap[p]? = some pr →
    ∀ h ∈ pr.resolveFns ++ pr.rejectFns, h.above b = true ∧ h.isGuarded = true

/-- Both worlds have the same trace. -/
def SameLog (w w1 : World) : Prop := w1.log = w.log

/-- The state stored by a settle capability: `resolve` (`true`) stores
`'resolved'`, `reject` (`false`) stores `'rejected'`. -/
def kindSt (k : Bool) : St := if k then .resolved else .rejected

/-- The settle capability of kind `k` of instance `p`. -/
def cap (k : Bool) (p : PId) : Fn := if k then .resolve p else .reject p

/-- A sequence of calls to the settle capabilities of instance `p`, each given
by its kind and its argument; a throw of one call does not stop the sequence. -/
def runCalls (fuel : Nat) (p : PId) : List (Bool × Val) → World → Option World
  | [], w => some w
  | (k, v) :: cs, w =>
    match call fuel (cap k p) [v] w with
    | none => none
    | some (_, w1) => runCalls fuel p cs w1

/-- The world after `MyPromise.resolve(1)`, `MyPromise.resolve(2)`,
`MyPromise.resolve(3)` in the empty world: instances 0, 1, 2. -/
def worldResolved123 : World :=
  settledNew .resolved (.num 3) (settledNew .resolved (.num 2)
    (settledNew .resolved (.num 1) World.empty))

/-- The world after `MyPromise.resolve(1)`, `MyPromise.reject("e")`,
`MyPromise.resolve(3)` in the empty world: instances 0, 1, 2. -/
def worldResolved1e3 : World :=
  settledNew .resolved (.num 3) (settledNew .rejected (.str "e")
    (settledNew .resolved (.num 1) World.empty))

/-- The world with three pending instances 0, 1, 2. -/
def worldPending3 : World := (alloc (alloc (alloc World.empty).2).2).2

/-- A caller-supplied function that returns `undefined`. -/
def noop (id : Nat) : Fn := .user id (fun _ => .ret .undefined)

/-- Calls `then` on `p` once for each pair of arguments, in order. -/
def thenEach (p : PId) : List (Fn × Fn) → World → World
  | [], w => w
  | fg :: rest, w => thenEach p rest (then_ p fg.1 fg.2 w).2

/-- The arguments of the `then` call that registers the caller-supplied
function `(id, body)` for outcome `k` and `other` for the opposite outcome. -/
def regArgs (k : Bool) (r : Nat × (List Val → Outcome) × Fn) : Fn × Fn :=
  if k then (.user r.1 r.2.1, r.2.2) else (r.2.2, .user r.1 r.2.1)

/-- The queue that the capability of kind `k` drains. -/
def queueOf (k : Bool) (pr : Promise) : List Fn := if k then pr.resolveFns else pr.rejectFns

/-- The handler that `then` pushes on the queue of kind `k`. -/
def mkHandler (k : Bool) (cb : Fn) (q : PId) : Fn :=
  if k then .onResolve cb q else .onReject cb q

/-- Every capability captured by the function belongs to an instance with an
identity below `n`. -/
def Fn.capturesBelow (n : Nat) : Fn → Bool
  | .notFn => true
  | .user _ _ => true
  | .resolve p => decide (p < n)
  | .reject p => decide (p < n)
  | .ident => true
  | .onResolve cb q => cb.capturesBelow n && decide (q < n)
  | .onReject cb q => cb.capturesBelow n && decide (q < n)
  | .finThen fin => fin.capturesBelow n
  | .finCatch fin => fin.capturesBelow n
  | .konst _ => true
  | .allThen _ _ agg _ => decide (agg < n)
  | .allCatch agg => decide (agg < n)

/-- Every queued function captures capabilities of existing instances only. -/
def WellFormed (w : World) : Prop :=
  ∀ (p : PId) (pr : Promise), w.heap[p]? = some pr →
    ∀ h ∈ pr.resolveFns ++ pr.rejectFns, h.capturesBelow w.heap.length = true

/-- The continuation that `then(f, g)` stores for outcome `k`. -/
def contOf (k : Bool) (f g : Fn) : Fn := orIdent (if k then f else g)

/-- A world with a pending instance 0 on which `then(f)` was called already
(successor: instance 1). -/
def worldChained : World := (then_ 0 (noop 3) .notFn (alloc World.empty).2).2

/-- The constructor, lines 2-59, for a setup routine `exec` given as a function
of the identity of the new instance, whose two capabilities it receives: the
fields are initialised (lines 4, 7, 47, 48), the routine runs inside the `try`
(line 55), and a throw of the routine is passed to `reject` (line 57). -/
def construct (callf : Fn → List Val → World → Option (Res × World))
    (exec : PId → World → Option (Res × World)) (w : World) :
    Option (Except Val PId × World) :=
  match exec (alloc w).1 (alloc w).2 with
  | none => none
  | some (.ret _, w1) => some (.ok (alloc w).1, w1)
  | some (.throw e, w1) =>
    match callf (.reject (alloc w).1) [e] w1 with
    | none => none
    | some (.ret _, w2) => some (.ok (alloc w).1, w2)
    | some (.throw e2, w2) => some (.error e2, w2)

/-- A caller-supplied setup routine: it calls the capabilities it received,
each call given by its kind and its argument, and then throws `raises` when
that is a value. -/
structure Executor where
  calls : List (Bool × Val)
  raises : Option Val

/-- The calls of the capabilities of instance `q` made by a setup routine, in
order; a throw of one of them leaves the routine. -/
def runCapCalls (callf : Fn → List Val → World → Option (Res × World)) (q : PId) :
    List (Bool × Val) → World → Option (Res × World)
  | [], w => some (.ret .undefined, w)
  | kv :: cs, w =>
    match callf (cap kv.1 q) [kv.2] w with
    | none => none
    | some (.throw e, w1) => some (.throw e, w1)
    | some (.ret _, w1) => runCapCalls callf q cs w1

/-- Running a caller-supplied setup routine with the capabilities of `q`. -/
def runExecutor (callf : Fn → List Val → World → Option (Res × World)) (ex : Executor)
    (q : PId) (w : World) : Option (Res × World) :=
  match runCapCalls callf q ex.calls w with
  | none => none
  | some (.throw e, w1) => some (.throw e, w1)
  | some (.ret _, w1) =>
    match ex.raises with
    | some b => some (.throw b, w1)
    | none => some (.ret .undefined, w1)

/-- The setup routine that `then` passes to the constructor (lines 71-114):
two pushes on the queues of the receiver. -/
def thenExecutor (self : PId) (onResolveFn onRejectFn : Fn) (q : PId) (w : World) :
    Option (Res × World) :=
  some (.ret .undefined,
    pushRejectFn self (.onReject (orIdent onRejectFn) q)
      (pushResolveFn self (.onResolve (orIdent onResolveFn) q) w))

/-- The setup routine that `all` passes to the constructor (lines 159-179). -/
def allExecutor (promiseArr : List Val) (agg : PId) (w : World) : Option (Res × World) :=
  some (.ret .undefined,
    allEach promiseArr.length agg w.counts.length 0 promiseArr
      { w with counts := w.counts ++ [0] })

/-- A registration on instance `self` by a caller that holds it. -/
inductive Reg where
  | then_ (self : PId) (f g : Fn)
  | catch_ (self : PId) (g : Fn)
  | finally_ (self : PId) (fin : Fn)

/-- The world after one registration. -/
def Reg.run : Reg → World → World
  | .then_ self f g, w => (MyPromise.then_ self f g w).2
  | .catch_ self g, w => (MyPromise.catch_ self g w).2
  | .finally_ self fin, w => (MyPromise.finally_ self fin w).2

/-- The world after a sequence of registrations. -/
def runRegs : List Reg → World → World
  | [], w => w
  | r :: rs, w => runRegs rs (r.run w)

/-- The spec's reading of `catch(onFailure)`: `then(undefined, onFailure)`.  The
source passes `null`; both are values that are not functions. -/
def catchSpec (self : PId) (onFailure : Fn) (w : World) : PId × World :=
  then_ self .notFn onFailure w

/-- The world `worldChained` with one more pending instance, 2. -/
def worldThree : World := (alloc worldChained).2

/-- Number of caller-supplied functions inside `f` whose identity is tracked
by `T`. -/
def Fn.uses (T : Nat → Bool) : Fn → Nat
  | .notFn => 0
  | .user id _ => if T id then 1 else 0
  | .resolve _ => 0
  | .reject _ => 0
  | .ident => 0
  | .onResolve cb _ => cb.uses T
  | .onReject cb _ => cb.uses T
  | .finThen fin => fin.uses T
  | .finCatch fin => fin.uses T
  | .konst _ => 0
  | .allThen _ _ _ _ => 0
  | .allCatch _ => 0

/-- Weight, under `W`, of what a pending instance can still cause: one of its
two queues is drained, never both. -/
def Promise.owed (W : Fn → Nat) (pr : Promise) : Nat :=
  if pr.state = .pending then
    max (pr.resolveFns.map W).sum (pr.rejectFns.map W).sum
  else 0

/-- Weight, under `W`, of what the queues of the heap can still cause. -/
def owed (W : Fn → Nat) (w : World) : Nat := (w.heap.map (Promise.owed W)).sum

/-- Number of calls of tracked functions in the trace. -/
def hits (T : Nat → Bool) (w : World) : Nat := (w.log.filter (fun e => T e.1)).length

/-- Calls of tracked functions made so far plus those still possible. -/
def budget (T : Nat → Bool) (w : World) : Nat := hits T w + owed (Fn.uses T) w

/-- Conditions on a weight `W` of functions and a measure `Φ` of worlds under
which every call adds to the measure at most the weight of the function
called: a handler weighs at least what it calls, and each step of the
interpreter adds at most the weight it is given. -/
structure Meter (W : Fn → Nat) (Φ : World → Nat) : Prop where
  w_ident : W .ident = 0
  w_konst : ∀ v, W (.konst v) = 0
  w_onResolve : ∀ cb q, W cb + W (.resolve q) + W (.reject q) ≤ W (.onResolve cb q)
  w_onReject : ∀ cb q, W cb + W (.resolve q) + W (.reject q) ≤ W (.onReject cb q)
  w_finThen : ∀ fin, W fin ≤ W (.finThen fin)
  w_finCatch : ∀ fin, W fin ≤ W (.finCatch fin)
  w_allThen : ∀ i len agg cnt, W (.resolve agg) ≤ W (.allThen i len agg cnt)
  w_allCatch : ∀ agg, W (.reject agg) ≤ W (.allCatch agg)
  step_trace : ∀ id body args w, Φ (trace id args w) ≤ Φ w + W (.user id body)
  step_alloc : ∀ w,
    Φ (alloc w).2 + 2 * max (W (.resolve w.heap.length)) (W (.reject w.heap.length)) ≤ Φ w
  step_bump : ∀ cnt w, Φ (bump cnt w) ≤ Φ w
  step_counts : ∀ (w : World) cs, Φ { w with counts := cs } ≤ Φ w
  step_then : ∀ x f g w, Φ (then_ x f g w).2 ≤ Φ w + max (W (orIdent f)) (W (orIdent g))
  step_assign : ∀ k p v w pr, w.heap[p]? = some pr → pr.state = .pending →
    Φ (assign p pr (kindSt k) v w) + ((queueOf k pr).map W).sum ≤ Φ w + W (cap k p)

/-- The interpreter adds to the measure at most the weight of the function it
is asked to call. -/
def Metered (W : Fn → Nat) (Φ : World → Nat)
    (c : Fn → List Val → World → Option (Res × World)) : Prop :=
  ∀ f a w r w1, c f a w = some (r, w1) → Φ w1 ≤ Φ w + W f

/-- A credit kept for instance `p` while the call of a tracked function on its
queue of kind `!k` is not due: `p` does not exist yet, or is pending with no
more tracked functions on that queue than on the queue of kind `k`, or is
settled with kind `k`. -/
def bonus (T : Nat → Bool) (k : Bool) (p : PId) (w : World) : Nat :=
  match w.heap[p]? with
  | none => 1
  | some pr =>
    if pr.state = .pending then
      (if ((queueOf (!k) pr).map (Fn.uses T)).sum ≤ ((queueOf k pr).map (Fn.uses T)).sum
        then 1 else 0)
    else if pr.state = kindSt k then 1 else 0

/-- The budget plus the credit of instance `p`. -/
def budgetFor (T : Nat → Bool) (k : Bool) (p : PId) (w : World) : Nat :=
  budget T w + bonus T k p w

/-- One operation of a caller: a call of a function (a settle capability, for
one), a registration, an aggregation, or a static construction. -/
inductive Op where
  | call (f : Fn) (args : List Val)
  | reg (r : Reg)
  | all (items : List Val)
  | static (k : Bool) (v : Val)

/-- Weight of the functions that a registration hands in. -/
def Reg.weight (W : Fn → Nat) : Reg → Nat
  | .then_ _ f g => W f + W g
  | .catch_ _ g => W g
  | .finally_ _ fin => W (.finThen fin) + W (.finCatch fin)

/-- Weight of the functions that an operation hands in. -/
def Op.weight (W : Fn → Nat) : Op → Nat
  | .call f _ => W f
  | .reg r => r.weight W
  | .all _ => 0
  | .static _ _ => 0

/-- The world after one operation; `none` when the fuel is used up. -/
def Op.run (fuel : Nat) : Op → World → Option World
  | .call f args, w => (MyPromise.call fuel f args w).map Prod.snd
  | .reg r, w => some (r.run w)
  | .all items, w => some (MyPromise.all items w).2
  | .static k v, w => (staticSettle (MyPromise.call fuel) (kindSt k) v w).map Prod.snd

/-- The world after a sequence of operations. -/
def runOps (fuel : Nat) : List Op → World → Option World
  | [], w => some w
  | o :: os, w =>
    match o.run fuel w with
    | none => none
    | some w1 => runOps fuel os w1

/-- The handlers that `all` would push for an aggregate not created before the
heap had `n` instances weigh nothing. -/
def Unborn (W : Fn → Nat) (n : Nat) : Prop :=
  ∀ a, n ≤ a → ∀ i len cnt, W (.allThen i len a cnt) = 0 ∧ W (.allCatch a) = 0

/-- Tracks the two functions with the identities `a` and `b`. -/
def tracksTwo (a b : Nat) : Nat → Bool := fun i => i == a || i == b

/-- Tracks the function with the identity `a`. -/
def tracksOne (a : Nat) : Nat → Bool := fun i => i == a

/-- Number of calls of the caller-supplied function `id` in the trace. -/
def calls (id : Nat) (w : World) : Nat := hits (tracksOne id) w

/-- Weight of the capabilities of instance `q0` inside a function: each
capability counts once, and a handler pushed by `then` counts its successor
twice, for the two capabilities of it that the handler may call. -/
def Fn.reach (q0 : Nat) : Fn → Nat
  | .notFn => 0
  | .user _ _ => 0
  | .resolve p => if p = q0 then 1 else 0
  | .reject p => if p = q0 then 1 else 0
  | .ident => 0
  | .onResolve cb q => cb.reach q0 + (if q = q0 then 2 else 0)
  | .onReject cb q => cb.reach q0 + (if q = q0 then 2 else 0)
  | .finThen fin => fin.reach q0
  | .finCatch fin => fin.reach q0
  | .konst _ => 0
  | .allThen _ _ agg _ => if agg = q0 then 1 else 0
  | .allCatch agg => if agg = q0 then 1 else 0

/-- Zero while instance `q0` is pending, one once it is settled, two while it
does not exist yet. -/
def mark (q0 : Nat) (w : World) : Nat :=
  match w.heap[q0]? with
  | none => 2
  | some pr => if pr.state = .pending then 0 else 1

/-- What the queues of pending instances hold of the capabilities of `q0`,
plus the mark of `q0`. -/
def exposure (q0 : Nat) (w : World) : Nat := owed (Fn.reach q0) w + mark q0 w

/-! ## Fuel monotonicity -/

theorem forEachFn_mono {c1 c2} (h : Le c1 c2) (p : PId) (fs : List Fn) (w : World)
    (r : Res × World) (hr : forEachFn c1 p fs w = some r) : forEachFn c2 p fs w = some r := by
  induction fs generalizing w with
  | nil => simpa [forEachFn] using hr
  | cons f fs ih =>
    simp only [forEachFn] at hr ⊢
    split at hr
    · rename_i hf
      simp only [hf, if_true]
      cases hc : c1 f [valueOf p w] w with
      | none => simp [hc] at hr
      | some x =>
        rw [h _ _ _ _ hc]
        rw [hc] at hr
        obtain ⟨rr, w1⟩ := x
        cases rr with
        | ret v => simp only at hr ⊢; exact ih _ hr
        | throw e => simpa using hr
    · rename_i hf
      simp only [hf]
      exact ih _ hr

theorem settle_mono {c1 c2} (h : Le c1 c2) (st : St) (p : PId) (v : Val) (w : World)
    (r : Res × World) (hr : settle c1 st p v w = some r) : settle c2 st p v w = some r := by
  unfold settle at hr ⊢
  cases hp : w.heap[p]? with
  | none => rw [hp] at hr; exact hr
  | some pr =>
    rw [hp] at hr
    simp only at hr ⊢
    by_cases hs : pr.state = .pending
    · simp only [hs, ne_eq, not_true_eq_false, if_false] at hr ⊢
      exact forEachFn_mono h _ _ _ _ hr
    · simp only [hs, ne_eq, not_false_eq_true, if_true] at hr ⊢
      exact hr

theorem staticSettle_mono {c1 c2} (h : Le c1 c2) (st : St) (v : Val) (w : World)
    (r : Except Val PId × World) (hr : staticSettle c1 st v w = some r) :
    staticSettle c2 st v w = some r := by
  unfold staticSettle at hr ⊢
  cases hc : c1 (capOf st (alloc w).1) [v] (alloc w).2 with
  | none => simp [hc] at hr
  | some x =>
    rw [hc] at hr; rw [h _ _ _ _ hc]
    obtain ⟨rr, w1⟩ := x
    cases rr with
    | ret v => exact hr
    | throw e =>
      simp only at hr ⊢
      cases hc2 : c1 (.reject (alloc w).1) [e] w1 with
      | none => simp [hc2] at hr
      | some y => rw [hc2] at hr; rw [h _ _ _ _ hc2]; exact hr

theorem handler_mono {c1 c2} (h : Le c1 c2) (cb : Fn) (q : PId) (x0 : Val) (w : World)
    (r : Res × World) (hr : handler c1 cb q x0 w = some r) : handler c2 cb q x0 w = some r := by
  unfold handler at hr ⊢
  cases hc : c1 cb [x0] w with
  | none => simp [hc] at hr
  | some x =>
    rw [hc] at hr; rw [h _ _ _ _ hc]
    obtain ⟨rr, w1⟩ := x
    cases rr with
    | throw e => exact h _ _ _ _ hr
    | ret x =>
      simp only at hr ⊢
      cases hx : x.asPromise with
      | some xp => rw [hx] at hr; exact hr
      | none =>
        rw [hx] at hr
        simp only at hr ⊢
        cases hc2 : c1 (.resolve q) [x] w1 with
        | none => simp [hc2] at hr
        | some y =>
          rw [hc2] at hr; rw [h _ _ _ _ hc2]
          obtain ⟨rr2, w2⟩ := y
          cases rr2 with
          | ret _ => exact hr
          | throw e => exact h _ _ _ _ hr

theorem finArrow_mono {c1 c2} (h : Le c1 c2) (st : St) (fin : Fn) (value : Val) (w : World)
    (r : Res × World) (hr : finArrow c1 st fin value w = some r) :
    finArrow c2 st fin value w = some r := by
  unfold finArrow at hr ⊢
  cases hc : c1 fin [] w with
  | none => simp [hc] at hr
  | some x =>
    rw [hc] at hr; rw [h _ _ _ _ hc]
    obtain ⟨rr, w1⟩ := x
    cases rr with
    | throw e => exact hr
    | ret x =>
      simp only at hr ⊢
      cases hs : staticSettle c1 st x w1 with
      | none => simp [hs] at hr
      | some y => rw [hs] at hr; rw [staticSettle_mono h _ _ _ _ hs]; exact hr

theorem allArrow_mono {c1 c2} (h : Le c1 c2) (len agg cnt : Nat) (result : Val) (w : World)
    (r : Res × World) (hr : allArrow c1 len agg cnt result w = some r) :
    allArrow c2 len agg cnt result w = some r := by
  unfold allArrow at hr ⊢
  split
  · rename_i ho
    simp only [ho, if_true] at hr
    split
    · rename_i hl
      simp only [hl, if_true] at hr
      cases hc : c1 (.resolve agg) [result] (bump cnt w) with
      | none => simp [hc] at hr
      | some y => rw [hc] at hr; rw [h _ _ _ _ hc]; exact hr
    · rename_i hl
      simp only [hl, if_false] at hr
      exact hr
  · rename_i ho
    simp only [ho] at hr
    exact hr

theorem allCatchArrow_mono {c1 c2} (h : Le c1 c2) (agg : PId) (e : Val) (w : World)
    (r : Res × World) (hr : allCatchArrow c1 agg e w = some r) :
    allCatchArrow c2 agg e w = some r := by
  unfold allCatchArrow at hr ⊢
  cases hc : c1 (.reject agg) [e] w with
  | none => simp [hc] at hr
  | some y => rw [hc] at hr; rw [h _ _ _ _ hc]; exact hr

theorem userCall_mono {c1 c2} (h : Le c1 c2) (id : Nat) (body : List Val → Outcome)
    (args : List Val) (w : World) (r : Res × World)
    (hr : userCall c1 id body args w = some r) : userCall c2 id body args w = some r := by
  unfold userCall at hr ⊢
  cases hb : body args with
  | ret v => rw [hb] at hr; exact hr
  | raise v => rw [hb] at hr; exact hr
  | retResolve v =>
    rw [hb] at hr
    simp only at hr ⊢
    cases hs : staticSettle c1 .resolved v (trace id args w) with
    | none => simp [hs] at hr
    | some y => rw [hs] at hr; rw [staticSettle_mono h _ _ _ _ hs]; exact hr
  | retReject v =>
    rw [hb] at hr
    simp only at hr ⊢
    cases hs : staticSettle c1 .rejected v (trace id args w) with
    | none => simp [hs] at hr
    | some y => rw [hs] at hr; rw [staticSettle_mono h _ _ _ _ hs]; exact hr

theorem call_mono_succ (n : Nat) : Le (call n) (call (n + 1)) := by
  induction n with
  | zero => intro f a w r hr; simp [call] at hr
  | succ n ih =>
    intro f a w r hr
    cases f with
    | notFn => exact hr
    | user id body => exact userCall_mono ih _ _ _ _ _ hr
    | resolve p => exact settle_mono ih _ _ _ _ _ hr
    | reject p => exact settle_mono ih _ _ _ _ _ hr
    | ident => exact hr
    | onResolve cb q => exact handler_mono ih _ _ _ _ _ hr
    | onReject cb q => exact handler_mono ih _ _ _ _ _ hr
    | finThen fin => exact finArrow_mono ih _ _ _ _ _ hr
    | finCatch fin => exact finArrow_mono ih _ _ _ _ _ hr
    | konst v => exact hr
    | allThen i len agg cnt => exact allArrow_mono ih _ _ _ _ _ _ hr
    | allCatch agg => exact allCatchArrow_mono ih _ _ _ _ hr

theorem call_mono {n m : Nat} (hnm : n ≤ m) : Le (call n) (call m) := by
  induction hnm with
  | refl => intro f a w r hr; exact hr
  | step _ ih => intro f a w r hr; exact call_mono_succ _ _ _ _ _ (ih _ _ _ _ hr)

/-! ## A proof rule for `call` -/

section rule
variable {A N : Fn → Prop} {I : World → Prop} {R : World → World → Prop}
variable {c : Fn → List Val → World → Option (Res × World)}

theorem forEachFn_sound (S : Rule A N I R) (hc : Sound A N I R c) (NN : Prop) (p : PId)
    (fs : List Fn) (hfs : ∀ h ∈ fs, h.isFunction = true → A h ∧ (NN → N h))
    (w : World) (hI : I w) (r : Res) (w1 : World)
    (hr : forEachFn c p fs w = some (r, w1)) :
    I w1 ∧ R w w1 ∧ (NN → ∃ v, r = .ret v) := by
  induction fs generalizing w with
  | nil =>
    simp only [forEachFn, Option.some.injEq, Prod.mk.injEq] at hr
    obtain ⟨rfl, rfl⟩ := hr
    exact ⟨hI, S.refl _, fun _ => ⟨_, rfl⟩⟩
  | cons f fs ih =>
    have hfs2 : ∀ h ∈ fs, h.isFunction = true → A h ∧ (NN → N h) :=
      fun h hh => hfs h (List.mem_cons_of_mem _ hh)
    simp only [forEachFn] at hr
    by_cases hf : f.isFunction = true
    · simp only [hf, if_true] at hr
      obtain ⟨hA, hN⟩ := hfs f (List.mem_cons_self _ _) hf
      cases hcall : c f [valueOf p w] w with
      | none => simp [hcall] at hr
      | some x =>
        rw [hcall] at hr
        obtain ⟨rr, w2⟩ := x
        obtain ⟨hI2, hR2, hN2⟩ := hc _ _ _ _ _ hA hI hcall
        cases rr with
        | throw e =>
          simp only [Option.some.injEq, Prod.mk.injEq] at hr
          obtain ⟨rfl, rfl⟩ := hr
          refine ⟨hI2, hR2, fun hn => ?_⟩
          exact hN2 (hN hn)
        | ret v =>
          simp only at hr
          obtain ⟨hI3, hR3, hN3⟩ := ih hfs2 w2 hI2 hr
          exact ⟨hI3, S.trans _ _ _ hR2 hR3, hN3⟩
    · simp only [hf] at hr
      exact ih hfs2 w hI hr

theorem settle_sound (S : Rule A N I R) (hc : Sound A N I R c) (st : St) (p : PId) (v : Val)
    (w : World) (hA : A (capOf st p)) (hI : I w) (r : Res) (w1 : World)
    (hr : settle c st p v w = some (r, w1)) :
    I w1 ∧ R w w1 ∧ (N (capOf st p) → ∃ v, r = .ret v) := by
  unfold settle at hr
  cases hp : w.heap[p]? with
  | none =>
    rw [hp] at hr
    simp only [Option.some.injEq, Prod.mk.injEq] at hr
    obtain ⟨rfl, rfl⟩ := hr
    exact ⟨hI, S.refl _, fun _ => ⟨_, rfl⟩⟩
  | some pr =>
    rw [hp] at hr
    simp only at hr
    by_cases hs : pr.state = .pending
    · simp only [hs, ne_eq, not_true_eq_false, if_false] at hr
      obtain ⟨hI2, hR2⟩ := S.step_assign st p v w pr hA hI hp hs
      obtain ⟨hI3, hR3, hN3⟩ := forEachFn_sound S hc (N (capOf st p)) p _
        (S.queue st p w pr hA hI hp hs) _ hI2 r w1 hr
      exact ⟨hI3, S.trans _ _ _ hR2 hR3, hN3⟩
    · simp only [hs, ne_eq, not_false_eq_true, if_true, Option.some.injEq, Prod.mk.injEq] at hr
      obtain ⟨rfl, rfl⟩ := hr
      exact ⟨hI, S.refl _, fun _ => ⟨_, rfl⟩⟩

theorem capOf_resolved (p : PId) : capOf .resolved p = .resolve p := rfl

theorem capOf_rejected (p : PId) : capOf .rejected p = .reject p := rfl

theorem capOf_cases (st : St) (p : PId) : capOf st p = .resolve p ∨ capOf st p = .reject p := by
  cases st <;> simp [capOf]

theorem alloc_fst (w : World) : (alloc w).1 = w.heap.length := rfl

theorem staticSettle_sound (S : Rule A N I R) (hc : Sound A N I R c) (st : St) (v : Val)
    (w : World) (hI : I w) (x : Except Val PId) (w1 : World)
    (hr : staticSettle c st v w = some (x, w1)) : I w1 ∧ R w w1 := by
  unfold staticSettle at hr
  obtain ⟨hI0, hR0⟩ := S.step_alloc w hI
  obtain ⟨hA1, hA2⟩ := S.fresh w hI
  have hcap : A (capOf st (alloc w).1) := by
    rcases capOf_cases st (alloc w).1 with h | h <;> rw [h, alloc_fst] <;> assumption
  cases hcall : c (capOf st (alloc w).1) [v] (alloc w).2 with
  | none => simp [hcall] at hr
  | some y =>
    rw [hcall] at hr
    obtain ⟨rr, w2⟩ := y
    obtain ⟨hI2, hR2, -⟩ := hc _ _ _ _ _ hcap hI0 hcall
    cases rr with
    | ret v1 =>
      simp only [Option.some.injEq, Prod.mk.injEq] at hr
      obtain ⟨-, rfl⟩ := hr
      exact ⟨hI2, S.trans _ _ _ hR0 hR2⟩
    | throw e =>
      simp only at hr
      cases hcall2 : c (.reject (alloc w).1) [e] w2 with
      | none => simp [hcall2] at hr
      | some z =>
        rw [hcall2] at hr
        obtain ⟨rr2, w3⟩ := z
        obtain ⟨hI3, hR3, -⟩ := hc _ _ _ _ _ (by rw [alloc_fst]; exact hA2) hI2 hcall2
        have hR : R w w3 := S.trans _ _ _ hR0 (S.trans _ _ _ hR2 hR3)
        cases rr2 with
        | ret v2 =>
          simp only [Option.some.injEq, Prod.mk.injEq] at hr
          obtain ⟨-, rfl⟩ := hr
          exact ⟨hI3, hR⟩
        | throw e2 =>
          simp only [Option.some.injEq, Prod.mk.injEq] at hr
          obtain ⟨-, rfl⟩ := hr
          exact ⟨hI3, hR⟩

theorem handler_sound (S : Rule A N I R) (hc : Sound A N I R c) (cb : Fn) (q : PId) (x0 : Val)
    (w : World) (hcb : A cb) (hres : A (.resolve q)) (hrej : A (.reject q)) (hI : I w)
    (r : Res) (w1 : World) (hr : handler c cb q x0 w = some (r, w1)) :
    I w1 ∧ R w w1 ∧ (N (.reject q) → ∃ v, r = .ret v) := by
  unfold handler at hr
  cases hcall : c cb [x0] w with
  | none => simp [hcall] at hr
  | some y =>
    rw [hcall] at hr
    obtain ⟨rr, w2⟩ := y
    obtain ⟨hI2, hR2, -⟩ := hc _ _ _ _ _ hcb hI hcall
    cases rr with
    | throw e =>
      simp only at hr
      obtain ⟨hI3, hR3, hN3⟩ := hc _ _ _ _ _ hrej hI2 hr
      exact ⟨hI3, S.trans _ _ _ hR2 hR3, hN3⟩
    | ret x =>
      simp only at hr
      cases hx : x.asPromise with
      | some xp =>
        rw [hx] at hr
        simp only [Option.some.injEq, Prod.mk.injEq] at hr
        obtain ⟨rfl, rfl⟩ := hr
        obtain ⟨hI3, hR3⟩ := S.step_link q xp w2 hres hrej hI2
        exact ⟨hI3, S.trans _ _ _ hR2 hR3, fun _ => ⟨_, rfl⟩⟩
      | none =>
        rw [hx] at hr
        simp only at hr
        cases hcall2 : c (.resolve q) [x] w2 with
        | none => simp [hcall2] at hr
        | some z =>
          rw [hcall2] at hr
          obtain ⟨rr2, w3⟩ := z
          obtain ⟨hI3, hR3, -⟩ := hc _ _ _ _ _ hres hI2 hcall2
          cases rr2 with
          | ret v2 =>
            simp only [Option.some.injEq, Prod.mk.injEq] at hr
            obtain ⟨rfl, rfl⟩ := hr
            exact ⟨hI3, S.trans _ _ _ hR2 hR3, fun _ => ⟨_, rfl⟩⟩
          | throw e =>
            simp only at hr
            obtain ⟨hI4, hR4, hN4⟩ := hc _ _ _ _ _ hrej hI3 hr
            exact ⟨hI4, S.trans _ _ _ hR2 (S.trans _ _ _ hR3 hR4), hN4⟩

theorem finArrow_sound (S : Rule A N I R) (hc : Sound A N I R c) (st : St) (fin : Fn)
    (value : Val) (w : World) (hfin : A fin) (hI : I w) (r : Res) (w1 : World)
    (hr : finArrow c st fin value w = some (r, w1)) : I w1 ∧ R w w1 := by
  unfold finArrow at hr
  cases hcall : c fin [] w with
  | none => simp [hcall] at hr
  | some y =>
    rw [hcall] at hr
    obtain ⟨rr, w2⟩ := y
    obtain ⟨hI2, hR2, -⟩ := hc _ _ _ _ _ hfin hI hcall
    cases rr with
    | throw e =>
      simp only [Option.some.injEq, Prod.mk.injEq] at hr
      obtain ⟨-, rfl⟩ := hr
      exact ⟨hI2, hR2⟩
    | ret x =>
      simp only at hr
      cases hs : staticSettle c st x w2 with
      | none => simp [hs] at hr
      | some z =>
        rw [hs] at hr
        obtain ⟨ex, w3⟩ := z
        obtain ⟨hI3, hR3⟩ := staticSettle_sound S hc _ _ _ hI2 _ _ hs
        cases ex with
        | error e =>
          simp only [Option.some.injEq, Prod.mk.injEq] at hr
          obtain ⟨-, rfl⟩ := hr
          exact ⟨hI3, S.trans _ _ _ hR2 hR3⟩
        | ok xp =>
          simp only [Option.some.injEq, Prod.mk.injEq] at hr
          obtain ⟨-, rfl⟩ := hr
          obtain ⟨hI4, hR4⟩ := S.step_fin xp value w3 hI3
          exact ⟨hI4, S.trans _ _ _ hR2 (S.trans _ _ _ hR3 hR4)⟩

theorem allArrow_sound (S : Rule A N I R) (hc : Sound A N I R c) (len agg cnt : Nat)
    (result : Val) (w : World) (hagg : A (.resolve agg)) (hI : I w) (r : Res) (w1 : World)
    (hr : allArrow c len agg cnt result w = some (r, w1)) : I w1 ∧ R w w1 := by
  unfold allArrow at hr
  obtain ⟨hI1, hR1⟩ := S.step_bump cnt w hI
  by_cases ho : result.isObject = true
  · simp only [ho, if_true] at hr
    by_cases hl : (bump cnt w).counts.getD cnt 0 = len
    · simp only [hl, if_true] at hr
      cases hcall : c (.resolve agg) [result] (bump cnt w) with
      | none => simp [hcall] at hr
      | some y =>
        rw [hcall] at hr
        obtain ⟨rr, w2⟩ := y
        obtain ⟨hI2, hR2, -⟩ := hc _ _ _ _ _ hagg hI1 hcall
        cases rr <;>
        · simp only [Option.some.injEq, Prod.mk.injEq] at hr
          obtain ⟨-, rfl⟩ := hr
          exact ⟨hI2, S.trans _ _ _ hR1 hR2⟩
    · simp only [hl, if_false, Option.some.injEq, Prod.mk.injEq] at hr
      obtain ⟨-, rfl⟩ := hr
      exact ⟨hI1, hR1⟩
  · simp only [ho, Option.some.injEq, Prod.mk.injEq] at hr
    obtain ⟨-, rfl⟩ := hr
    exact ⟨hI1, hR1⟩

theorem allCatchArrow_sound (hc : Sound A N I R c) (agg : PId) (e : Val)
    (w : World) (hagg : A (.reject agg)) (hI : I w) (r : Res) (w1 : World)
    (hr : allCatchArrow c agg e w = some (r, w1)) : I w1 ∧ R w w1 := by
  unfold allCatchArrow at hr
  cases hcall : c (.reject agg) [e] w with
  | none => simp [hcall] at hr
  | some y =>
    rw [hcall] at hr
    obtain ⟨rr, w2⟩ := y
    obtain ⟨hI2, hR2, -⟩ := hc _ _ _ _ _ hagg hI hcall
    cases rr <;>
    · simp only [Option.some.injEq, Prod.mk.injEq] at hr
      obtain ⟨-, rfl⟩ := hr
      exact ⟨hI2, hR2⟩

theorem userCall_sound (S : Rule A N I R) (hc : Sound A N I R c) (id : Nat)
    (body : List Val → Outcome) (args : List Val) (w : World) (hA : A (.user id body))
    (hI : I w) (r : Res) (w1 : World)
    (hr : userCall c id body args w = some (r, w1)) : I w1 ∧ R w w1 := by
  unfold userCall at hr
  obtain ⟨hI1, hR1⟩ := S.step_trace id body args w hA hI
  cases hb : body args with
  | ret v =>
    rw [hb] at hr
    simp only [Option.some.injEq, Prod.mk.injEq] at hr
    obtain ⟨-, rfl⟩ := hr
    exact ⟨hI1, hR1⟩
  | raise v =>
    rw [hb] at hr
    simp only [Option.some.injEq, Prod.mk.injEq] at hr
    obtain ⟨-, rfl⟩ := hr
    exact ⟨hI1, hR1⟩
  | retResolve v =>
    rw [hb] at hr
    simp only at hr
    cases hs : staticSettle c .resolved v (trace id args w) with
    | none => simp [hs] at hr
    | some z =>
      rw [hs] at hr
      obtain ⟨ex, w3⟩ := z
      obtain ⟨hI3, hR3⟩ := staticSettle_sound S hc _ _ _ hI1 _ _ hs
      cases ex <;>
      · simp only [Option.some.injEq, Prod.mk.injEq] at hr
        obtain ⟨-, rfl⟩ := hr
        exact ⟨hI3, S.trans _ _ _ hR1 hR3⟩
  | retReject v =>
    rw [hb] at hr
    simp only at hr
    cases hs : staticSettle c .rejected v (trace id args w) with
    | none => simp [hs] at hr
    | some z =>
      rw [hs] at hr
      obtain ⟨ex, w3⟩ := z
      obtain ⟨hI3, hR3⟩ := staticSettle_sound S hc _ _ _ hI1 _ _ hs
      cases ex <;>
      · simp only [Option.some.injEq, Prod.mk.injEq] at hr
        obtain ⟨-, rfl⟩ := hr
        exact ⟨hI3, S.trans _ _ _ hR1 hR3⟩

end rule

/-- The proof rule: every call that returns satisfies the rule's conclusion. -/
theorem call_sound {A N : Fn → Prop} {I : World → Prop} {R : World → World → Prop}
    (S : Rule A N I R) (n : Nat) : Sound A N I R (call n) := by
  induction n with
  | zero => intro f a w r w1 _ _ hr; simp [call] at hr
  | succ n ih =>
    intro f a w r w1 hA hI hr
    cases f with
    | notFn =>
      simp only [call, Option.some.injEq, Prod.mk.injEq] at hr
      obtain ⟨-, rfl⟩ := hr
      exact ⟨hI, S.refl _, fun hN => absurd (S.guarded _ hN) (by simp [Fn.isGuarded])⟩
    | user id body =>
      obtain ⟨h1, h2⟩ := userCall_sound S ih _ _ _ _ hA hI _ _ hr
      exact ⟨h1, h2, fun hN => absurd (S.guarded _ hN) (by simp [Fn.isGuarded])⟩
    | resolve p => exact settle_sound S ih .resolved p _ w hA hI r w1 hr
    | reject p => exact settle_sound S ih .rejected p _ w hA hI r w1 hr
    | ident =>
      simp only [call, Option.some.injEq, Prod.mk.injEq] at hr
      obtain ⟨-, rfl⟩ := hr
      exact ⟨hI, S.refl _, fun hN => absurd (S.guarded _ hN) (by simp [Fn.isGuarded])⟩
    | onResolve cb q =>
      obtain ⟨h1, h2, h3⟩ := S.sub_onResolve cb q hA
      obtain ⟨k1, k2, k3⟩ := handler_sound S ih cb q _ w h1 h2 h3 hI r w1 hr
      exact ⟨k1, k2, fun hN => k3 (S.guard_onResolve cb q hN)⟩
    | onReject cb q =>
      obtain ⟨h1, h2, h3⟩ := S.sub_onReject cb q hA
      obtain ⟨k1, k2, k3⟩ := handler_sound S ih cb q _ w h1 h2 h3 hI r w1 hr
      exact ⟨k1, k2, fun hN => k3 (S.guard_onReject cb q hN)⟩
    | finThen fin =>
      obtain ⟨h1, h2⟩ := finArrow_sound S ih _ fin _ w (S.sub_finThen fin hA) hI r w1 hr
      exact ⟨h1, h2, fun hN => absurd (S.guarded _ hN) (by simp [Fn.isGuarded])⟩
    | finCatch fin =>
      obtain ⟨h1, h2⟩ := finArrow_sound S ih _ fin _ w (S.sub_finCatch fin hA) hI r w1 hr
      exact ⟨h1, h2, fun hN => absurd (S.guarded _ hN) (by simp [Fn.isGuarded])⟩
    | konst v =>
      simp only [call, Option.some.injEq, Prod.mk.injEq] at hr
      obtain ⟨-, rfl⟩ := hr
      exact ⟨hI, S.refl _, fun hN => absurd (S.guarded _ hN) (by simp [Fn.isGuarded])⟩
    | allThen i len agg cnt =>
      obtain ⟨h1, h2⟩ := allArrow_sound S ih len agg cnt _ w (S.sub_allThen _ _ _ _ hA) hI r w1 hr
      exact ⟨h1, h2, fun hN => absurd (S.guarded _ hN) (by simp [Fn.isGuarded])⟩
    | allCatch agg =>
      obtain ⟨h1, h2⟩ := allCatchArrow_sound ih agg _ w (S.sub_allCatch _ hA) hI r w1 hr
      exact ⟨h1, h2, fun hN => absurd (S.guarded _ hN) (by simp [Fn.isGuarded])⟩

/-! ## Heap lookups after the primitive updates -/

theorem lt_of_get {α : Type} (l : List α) (i : Nat) (a : α) (h : l[i]? = some a) :
    i < l.length := by
  by_contra hc
  rw [List.getElem?_eq_none (by omega)] at h
  exact absurd h (by simp)

theorem heap_alloc (w : World) : (alloc w).2.heap = w.heap ++ [Promise.fresh] := rfl

theorem get_alloc_old (w : World) (i : Nat) (pr : Promise) (h : w.heap[i]? = some pr) :
    (alloc w).2.heap[i]? = some pr := by
  rw [heap_alloc]
  have hi : i < w.heap.length := lt_of_get _ _ _ h
  rw [List.getElem?_append_left hi]
  exact h

theorem get_alloc_new (w : World) : (alloc w).2.heap[w.heap.length]? = some Promise.fresh := by
  rw [heap_alloc]
  simp

theorem get_alloc (w : World) (i : Nat) (pr : Promise) (h : (alloc w).2.heap[i]? = some pr) :
    w.heap[i]? = some pr ∨ (i = w.heap.length ∧ pr = Promise.fresh) := by
  rw [heap_alloc] at h
  by_cases hi : i < w.heap.length
  · rw [List.getElem?_append_left hi] at h
    exact Or.inl h
  · by_cases he : i = w.heap.length
    · subst he
      simp at h
      exact Or.inr ⟨rfl, h.symm⟩
    · rw [List.getElem?_eq_none (by simp; omega)] at h
      exact absurd h (by simp)

theorem get_pushResolveFn (p : PId) (f : Fn) (w : World) (i : Nat) :
    (pushResolveFn p f w).heap[i]? =
      (w.heap[i]?).map (fun pr =>
        if i = p then { pr with resolveFns := pr.resolveFns ++ [f] } else pr) := by
  unfold pushResolveFn
  cases hp : w.heap[p]? with
  | none =>
    simp only
    by_cases hip : i = p
    · subst hip; simp [hp]
    · simp [hip]
  | some pr =>
    simp only [List.getElem?_set]
    by_cases hip : i = p
    · subst hip
      have hi : i < w.heap.length := lt_of_get _ _ _ hp
      simp [hi, hp]
    · have : ¬ p = i := fun h => hip h.symm
      simp [hip, this]

theorem get_pushRejectFn (p : PId) (f : Fn) (w : World) (i : Nat) :
    (pushRejectFn p f w).heap[i]? =
      (w.heap[i]?).map (fun pr =>
        if i = p then { pr with rejectFns := pr.rejectFns ++ [f] } else pr) := by
  unfold pushRejectFn
  cases hp : w.heap[p]? with
  | none =>
    simp only
    by_cases hip : i = p
    · subst hip; simp [hp]
    · simp [hip]
  | some pr =>
    simp only [List.getElem?_set]
    by_cases hip : i = p
    · subst hip
      have hi : i < w.heap.length := lt_of_get _ _ _ hp
      simp [hi, hp]
    · have : ¬ p = i := fun h => hip h.symm
      simp [hip, this]

theorem then_fst (x : PId) (f g : Fn) (w : World) : (then_ x f g w).1 = w.heap.length := rfl

theorem then_snd (x : PId) (f g : Fn) (w : World) :
    (then_ x f g w).2 =
      pushRejectFn x (.onReject (orIdent g) w.heap.length)
        (pushResolveFn x (.onResolve (orIdent f) w.heap.length) (alloc w).2) := rfl

theorem get_then (x : PId) (f g : Fn) (w : World) (i : Nat) :
    (then_ x f g w).2.heap[i]? =
      ((alloc w).2.heap[i]?).map (fun pr =>
        if i = x then
          { pr with resolveFns := pr.resolveFns ++ [.onResolve (orIdent f) w.heap.length],
                    rejectFns := pr.rejectFns ++ [.onReject (orIdent g) w.heap.length] }
        else pr) := by
  rw [then_snd, get_pushRejectFn, get_pushResolveFn]
  cases (alloc w).2.heap[i]? with
  | none => rfl
  | some pr =>
    by_cases hix : i = x <;> simp [hix]

theorem get_assign (p : PId) (pr : Promise) (st : St) (v : Val) (w : World)
    (hp : w.heap[p]? = some pr) (i : Nat) :
    (assign p pr st v w).heap[i]? =
      if i = p then some { pr with state := st, value := v } else w.heap[i]? := by
  unfold assign
  simp only [List.getElem?_set]
  have hi : p < w.heap.length := lt_of_get _ _ _ hp
  by_cases hip : i = p
  · subst hip; simp [hi]
  · have : ¬ p = i := fun h => hip h.symm
    simp [hip, this]

theorem length_then (x : PId) (f g : Fn) (w : World) :
    (then_ x f g w).2.heap.length = w.heap.length + 1 := by
  rw [then_snd]
  unfold pushRejectFn pushResolveFn
  split <;> split <;> simp [heap_alloc]

theorem length_assign (p : PId) (pr : Promise) (st : St) (v : Val) (w : World) :
    (assign p pr st v w).heap.length = w.heap.length := by
  simp [assign]

/-! ## Settled instances never change -/

theorem Grows.refl (w : World) : Grows w w :=
  ⟨le_refl _, fun _ pr h => ⟨pr, h, fun _ => ⟨rfl, rfl⟩, ⟨[], by simp⟩, ⟨[], by simp⟩⟩,
    ⟨[], by simp⟩⟩

theorem Grows.trans (w1 w2 w3 : World) (h12 : Grows w1 w2) (h23 : Grows w2 w3) :
    Grows w1 w3 := by
  obtain ⟨a1, b1, l1, c1⟩ := h12
  obtain ⟨a2, b2, l2, c2⟩ := h23
  refine ⟨le_trans a1 a2, ?_, ⟨l1 ++ l2, by rw [c2, c1, List.append_assoc]⟩⟩
  intro p pr hp
  obtain ⟨pr1, hp1, hs1, ⟨m1, hm1⟩, ⟨k1, hk1⟩⟩ := b1 p pr hp
  obtain ⟨pr2, hp2, hs2, ⟨m2, hm2⟩, ⟨k2, hk2⟩⟩ := b2 p pr1 hp1
  refine ⟨pr2, hp2, ?_, ⟨m1 ++ m2, by rw [hm2, hm1, List.append_assoc]⟩,
    ⟨k1 ++ k2, by rw [hk2, hk1, List.append_assoc]⟩⟩
  intro hne
  obtain ⟨e1, e2⟩ := hs1 hne
  have hne1 : pr1.state ≠ .pending := by rw [e1]; exact hne
  obtain ⟨e3, e4⟩ := hs2 hne1
  exact ⟨e3.trans e1, e4.trans e2⟩

theorem grows_trace (id : Nat) (args : List Val) (w : World) : Grows w (trace id args w) :=
  ⟨le_refl _, fun _ pr h => ⟨pr, h, fun _ => ⟨rfl, rfl⟩, ⟨[], by simp⟩, ⟨[], by simp⟩⟩,
    ⟨[(id, args)], rfl⟩⟩

theorem grows_bump (cnt : Nat) (w : World) : Grows w (bump cnt w) :=
  ⟨le_refl _, fun _ pr h => ⟨pr, h, fun _ => ⟨rfl, rfl⟩, ⟨[], by simp⟩, ⟨[], by simp⟩⟩,
    ⟨[], by simp [bump]⟩⟩

theorem grows_alloc (w : World) : Grows w (alloc w).2 :=
  ⟨by simp [heap_alloc],
    fun p pr h => ⟨pr, get_alloc_old w p pr h, fun _ => ⟨rfl, rfl⟩, ⟨[], by simp⟩, ⟨[], by simp⟩⟩,
    ⟨[], by simp [alloc]⟩⟩

theorem grows_then (x : PId) (f g : Fn) (w : World) : Grows w (then_ x f g w).2 := by
  refine ⟨by rw [length_then]; omega, ?_, ⟨[], by simp [then_snd, pushRejectFn, pushResolveFn, alloc]; split <;> split <;> rfl⟩⟩
  intro p pr hp
  rw [get_then, get_alloc_old w p pr hp]
  by_cases hpx : p = x
  · simp only [Option.map_some', hpx, if_true]
    exact ⟨_, rfl, fun _ => ⟨rfl, rfl⟩, ⟨_, rfl⟩, ⟨_, rfl⟩⟩
  · simp only [Option.map_some', hpx, if_false]
    exact ⟨_, rfl, fun _ => ⟨rfl, rfl⟩, ⟨[], by simp⟩, ⟨[], by simp⟩⟩

theorem grows_assign (p : PId) (pr : Promise) (st : St) (v : Val) (w : World)
    (hp : w.heap[p]? = some pr) (hs : pr.state = .pending) : Grows w (assign p pr st v w) := by
  refine ⟨by rw [length_assign], ?_, ⟨[], by simp [assign]⟩⟩
  intro i pi hi
  rw [get_assign p pr st v w hp]
  by_cases hip : i = p
  · subst hip
    rw [hp] at hi
    cases hi
    simp only [if_true]
    exact ⟨_, rfl, fun hne => absurd hs hne, ⟨[], by simp⟩, ⟨[], by simp⟩⟩
  · simp only [hip, if_false]
    exact ⟨pi, hi, fun _ => ⟨rfl, rfl⟩, ⟨[], by simp⟩, ⟨[], by simp⟩⟩

theorem rule_grows : Rule (fun _ => True) (fun _ => False) (fun _ => True) Grows where
  refl := Grows.refl
  trans := Grows.trans
  sub_onResolve := fun _ _ _ => ⟨trivial, trivial, trivial⟩
  sub_onReject := fun _ _ _ => ⟨trivial, trivial, trivial⟩
  sub_finThen := fun _ _ => trivial
  sub_finCatch := fun _ _ => trivial
  sub_allThen := fun _ _ _ _ _ => trivial
  sub_allCatch := fun _ _ => trivial
  fresh := fun _ _ => ⟨trivial, trivial⟩
  step_trace := fun id _ args w _ _ => ⟨trivial, grows_trace id args w⟩
  step_alloc := fun w _ => ⟨trivial, grows_alloc w⟩
  step_link := fun q x w _ _ _ => ⟨trivial, grows_then x _ _ w⟩
  step_fin := fun x v w _ => ⟨trivial, grows_then x _ _ w⟩
  step_bump := fun cnt w _ => ⟨trivial, grows_bump cnt w⟩
  step_assign := fun st p v w pr _ _ hp hs => ⟨trivial, grows_assign p pr st v w hp hs⟩
  queue := fun _ _ _ _ _ _ _ _ _ _ _ => ⟨trivial, fun h => h.elim⟩
  guarded := fun _ h => h.elim
  guard_onResolve := fun _ _ h => h.elim
  guard_onReject := fun _ _ h => h.elim

/-- Every call that returns leaves a world that extends the one it started in. -/
theorem call_grows (n : Nat) (f : Fn) (a : List Val) (w : World) (r : Res) (w1 : World)
    (h : call n f a w = some (r, w1)) : Grows w w1 :=
  (call_sound rule_grows n f a w r w1 trivial trivial h).2.1

/-! ## Every call returns -/

theorem Fn.size_pos (f : Fn) : 1 ≤ f.size := by
  cases f <;> simp [Fn.size] <;> split <;> omega

theorem sum_map_set {α : Type} (g : α → Nat) (l : List α) (i : Nat) (a b : α)
    (h : l[i]? = some a) : ((l.set i b).map g).sum + g a = (l.map g).sum + g b := by
  induction l generalizing i with
  | nil => simp at h
  | cons x xs ih =>
    cases i with
    | zero =>
      simp only [List.getElem?_cons_zero, Option.some.injEq] at h
      subst h
      simp only [List.set_cons_zero, List.map_cons, List.sum_cons]
      omega
    | succ i =>
      simp only [List.getElem?_cons_succ] at h
      have := ih i h
      simp only [List.set_cons_succ, List.map_cons, List.sum_cons]
      omega

theorem potential_trace (id : Nat) (args : List Val) (w : World) :
    potential (trace id args w) = potential w := rfl

theorem potential_bump (cnt : Nat) (w : World) : potential (bump cnt w) = potential w := rfl

theorem potential_alloc (w : World) : potential (alloc w).2 = potential w + 1 := by
  simp [potential, heap_alloc, Promise.pot, Promise.fresh]

theorem potential_pushResolveFn (x : PId) (h : Fn) (w : World) :
    potential (pushResolveFn x h w) ≤ potential w + h.size := by
  unfold pushResolveFn
  cases hx : w.heap[x]? with
  | none => simp
  | some pr =>
    simp only [potential]
    have := sum_map_set Promise.pot w.heap x pr
      { pr with resolveFns := pr.resolveFns ++ [h] } hx
    have h2 : Promise.pot { pr with resolveFns := pr.resolveFns ++ [h] } ≤
        Promise.pot pr + h.size := by
      simp only [Promise.pot]
      split <;> simp <;> omega
    omega

theorem potential_pushRejectFn (x : PId) (h : Fn) (w : World) :
    potential (pushRejectFn x h w) ≤ potential w + h.size := by
  unfold pushRejectFn
  cases hx : w.heap[x]? with
  | none => simp
  | some pr =>
    simp only [potential]
    have := sum_map_set Promise.pot w.heap x pr
      { pr with rejectFns := pr.rejectFns ++ [h] } hx
    have h2 : Promise.pot { pr with rejectFns := pr.rejectFns ++ [h] } ≤
        Promise.pot pr + h.size := by
      simp only [Promise.pot]
      split <;> simp <;> omega
    omega

theorem potential_then (x : PId) (f g : Fn) (w : World) :
    potential (then_ x f g w).2 ≤
      potential w + 1 + (orIdent f).size + (orIdent g).size +
        (if (orIdent f).mayReturnInstance then 8 else 2) +
        (if (orIdent g).mayReturnInstance then 8 else 2) := by
  rw [then_snd]
  have h1 := potential_pushRejectFn x (.onReject (orIdent g) w.heap.length)
    (pushResolveFn x (.onResolve (orIdent f) w.heap.length) (alloc w).2)
  have h2 := potential_pushResolveFn x (.onResolve (orIdent f) w.heap.length) (alloc w).2
  have h3 := potential_alloc w
  simp only [Fn.size] at h1 h2
  omega

theorem potential_assign (p : PId) (pr : Promise) (st : St) (v : Val) (w : World)
    (hp : w.heap[p]? = some pr) (hs : pr.state = .pending) (hst : st ≠ .pending) :
    potential (assign p pr st v w) + 1 + (pr.resolveFns.map Fn.size).sum +
      (pr.rejectFns.map Fn.size).sum = potential w := by
  have := sum_map_set Promise.pot w.heap p pr { pr with state := st, value := v } hp
  simp only [potential, assign]
  have h1 : Promise.pot { pr with state := st, value := v } = 0 := by
    simp [Promise.pot, hst]
  have h2 : Promise.pot pr = 1 + (pr.resolveFns.map Fn.size).sum +
      (pr.rejectFns.map Fn.size).sum := by
    simp [Promise.pot, hs]
  omega

theorem forEachFn_ret {c : Fn → List Val → World → Option (Res × World)} (p : PId)
    (fs : List Fn) (w : World) (x : Val) (w1 : World)
    (h : forEachFn c p fs w = some (.ret x, w1)) : x = .undefined := by
  induction fs generalizing w with
  | nil =>
    simp only [forEachFn, Option.some.injEq, Prod.mk.injEq, Res.ret.injEq] at h
    exact h.1.symm
  | cons f fs ih =>
    simp only [forEachFn] at h
    by_cases hf : f.isFunction = true
    · simp only [hf, if_true] at h
      cases hc : c f [valueOf p w] w with
      | none => simp [hc] at h
      | some y =>
        rw [hc] at h
        obtain ⟨rr, w2⟩ := y
        cases rr with
        | throw e => simp at h
        | ret v => exact ih _ h
    · simp only [hf] at h
      exact ih _ h

theorem settle_ret {c : Fn → List Val → World → Option (Res × World)} (st : St) (p : PId)
    (v : Val) (w : World) (x : Val) (w1 : World)
    (h : settle c st p v w = some (.ret x, w1)) : x = .undefined := by
  unfold settle at h
  cases hp : w.heap[p]? with
  | none =>
    rw [hp] at h
    simp only [Option.some.injEq, Prod.mk.injEq, Res.ret.injEq] at h
    exact h.1.symm
  | some pr =>
    rw [hp] at h
    simp only at h
    by_cases hs : pr.state = .pending
    · simp only [hs, ne_eq, not_true_eq_false, if_false] at h
      exact forEachFn_ret _ _ _ _ _ h
    · simp only [hs, ne_eq, not_false_eq_true, if_true, Option.some.injEq, Prod.mk.injEq,
        Res.ret.injEq] at h
      exact h.1.symm

theorem ret_undefined_of_not_mayReturnInstance (n : Nat) (cb : Fn) (a : List Val) (w : World)
    (x : Val) (w1 : World) (hcb : cb.mayReturnInstance = false)
    (h : call n cb a w = some (.ret x, w1)) : x = .undefined := by
  cases n with
  | zero => simp [call] at h
  | succ n =>
    cases cb with
    | notFn => simp [call] at h
    | resolve p => exact settle_ret _ _ _ _ _ _ h
    | reject p => exact settle_ret _ _ _ _ _ _ h
    | allThen i len agg cnt =>
      simp only [call, allArrow] at h
      split at h
      · split at h
        · split at h
          · simp at h
          · simp at h
          · simp only [Option.some.injEq, Prod.mk.injEq, Res.ret.injEq] at h
            exact h.1.symm
        · simp only [Option.some.injEq, Prod.mk.injEq, Res.ret.injEq] at h
          exact h.1.symm
      · simp at h
    | allCatch agg =>
      simp only [call, allCatchArrow] at h
      split at h
      · simp at h
      · simp at h
      · simp only [Option.some.injEq, Prod.mk.injEq, Res.ret.injEq] at h
        exact h.1.symm
    | user id body => simp [Fn.mayReturnInstance] at hcb
    | ident => simp [Fn.mayReturnInstance] at hcb
    | onResolve cb q => simp [Fn.mayReturnInstance] at hcb
    | onReject cb q => simp [Fn.mayReturnInstance] at hcb
    | finThen fin => simp [Fn.mayReturnInstance] at hcb
    | finCatch fin => simp [Fn.mayReturnInstance] at hcb
    | konst v => simp [Fn.mayReturnInstance] at hcb

theorem forEach_terminates (m : Nat) (IH : Terminates m) (p : PId) (fs : List Fn) (w : World)
    (h : potential w + (fs.map Fn.size).sum ≤ m) :
    ∃ n r w1, forEachFn (call n) p fs w = some (r, w1) ∧
      potential w1 ≤ potential w + (fs.map Fn.size).sum := by
  induction fs generalizing w with
  | nil => exact ⟨0, .ret .undefined, w, rfl, by simp⟩
  | cons f fs ih =>
    simp only [List.map_cons, List.sum_cons] at h ⊢
    by_cases hf : f.isFunction = true
    · obtain ⟨n1, r1, w1, hc1, hp1⟩ := IH f [valueOf p w] w (by omega)
      cases r1 with
      | throw e =>
        refine ⟨n1, .throw e, w1, ?_, by omega⟩
        simp only [forEachFn, hf, if_true, hc1]
      | ret v =>
        obtain ⟨n2, r2, w2, hc2, hp2⟩ := ih w1 (by omega)
        refine ⟨max n1 n2, r2, w2, ?_, by omega⟩
        simp only [forEachFn, hf, if_true, call_mono (le_max_left n1 n2) _ _ _ _ hc1]
        exact forEachFn_mono (call_mono (le_max_right n1 n2)) _ _ _ _ hc2
    · obtain ⟨n2, r2, w2, hc2, hp2⟩ := ih w (by omega)
      refine ⟨n2, r2, w2, ?_, by omega⟩
      simp only [forEachFn, hf]
      exact hc2

theorem settle_terminates (m : Nat) (IH : Terminates m) (st : St) (hst : st ≠ .pending)
    (p : PId) (v : Val) (w : World) (h : potential w ≤ m) :
    ∃ n r w1, settle (call n) st p v w = some (r, w1) ∧ potential w1 ≤ potential w := by
  unfold settle
  cases hp : w.heap[p]? with
  | none => exact ⟨0, _, _, rfl, le_refl _⟩
  | some pr =>
    simp only
    by_cases hs : pr.state = .pending
    · simp only [hs, ne_eq, not_true_eq_false, if_false]
      have hpot := potential_assign p pr st v w hp hs hst
      have hle : ((if st = .resolved then pr.resolveFns else pr.rejectFns).map Fn.size).sum ≤
          (pr.resolveFns.map Fn.size).sum + (pr.rejectFns.map Fn.size).sum := by
        split <;> omega
      obtain ⟨n, r, w1, hc, hp1⟩ := forEach_terminates m IH p
        (if st = .resolved then pr.resolveFns else pr.rejectFns) (assign p pr st v w) (by omega)
      exact ⟨n, r, w1, hc, by omega⟩
    · simp only [hs, ne_eq, not_false_eq_true, if_true]
      exact ⟨0, _, _, rfl, le_refl _⟩

theorem call_capOf (n : Nat) (st : St) (hst : st ≠ .pending) (p : PId) (a : List Val)
    (w : World) : call (n + 1) (capOf st p) a w = settle (call n) st p (arg0 a) w := by
  cases st with
  | pending => exact absurd rfl hst
  | resolved => rfl
  | rejected => rfl

theorem settle_fresh (c : Fn → List Val → World → Option (Res × World)) (st : St) (v : Val)
    (w : World) : settle c st w.heap.length v (alloc w).2 =
      some (.ret .undefined, settledNew st v w) := by
  unfold settle
  rw [get_alloc_new]
  simp only [Promise.fresh, ne_eq, not_true_eq_false, if_false, ite_self, forEachFn]
  rfl

theorem staticSettle_fresh (n : Nat) (st : St) (hst : st ≠ .pending) (v : Val) (w : World) :
    staticSettle (call (n + 1)) st v w = some (.ok w.heap.length, settledNew st v w) := by
  unfold staticSettle
  rw [call_capOf n st hst, alloc_fst, settle_fresh]
  rfl

theorem potential_settledNew (st : St) (hst : st ≠ .pending) (v : Val) (w : World) :
    potential (settledNew st v w) = potential w := by
  have := potential_assign w.heap.length Promise.fresh st v (alloc w).2 (get_alloc_new w) rfl hst
  have h2 := potential_alloc w
  simp only [Promise.fresh, List.map_nil, List.sum_nil] at this
  unfold settledNew
  simp only [Promise.fresh]
  omega

theorem handler_terminates (m : Nat) (IH : Terminates m) (cb : Fn) (q : PId) (x0 : Val)
    (w : World)
    (h : potential w + cb.size + (if cb.mayReturnInstance then 8 else 2) ≤ m + 1) :
    ∃ n r w1, handler (call n) cb q x0 w = some (r, w1) ∧
      potential w1 + 1 ≤ potential w + cb.size + (if cb.mayReturnInstance then 8 else 2) := by
  have hK : 2 ≤ (if cb.mayReturnInstance then 8 else 2) := by split <;> omega
  obtain ⟨n1, r1, w1, hc1, hp1⟩ := IH cb [x0] w (by omega)
  cases r1 with
  | throw e =>
    obtain ⟨n2, r2, w2, hc2, hp2⟩ := IH (.reject q) [e] w1 (by simp only [Fn.size]; omega)
    simp only [Fn.size] at hp2
    refine ⟨max n1 n2, r2, w2, ?_, by omega⟩
    unfold handler
    rw [call_mono (le_max_left n1 n2) _ _ _ _ hc1]
    exact call_mono (le_max_right n1 n2) _ _ _ _ hc2
  | ret x =>
    cases hx : x.asPromise with
    | some xp =>
      have hmay : cb.mayReturnInstance = true := by
        by_contra hne
        have := ret_undefined_of_not_mayReturnInstance n1 cb [x0] w x w1 (by simpa using hne) hc1
        rw [this] at hx
        simp [Val.asPromise] at hx
      have hpt := potential_then xp (.resolve q) (.reject q) w1
      simp only [orIdent, Fn.isFunction, if_true, Fn.size, Fn.mayReturnInstance] at hpt
      refine ⟨n1, .ret .undefined, (then_ xp (.resolve q) (.reject q) w1).2, ?_, ?_⟩
      · unfold handler
        rw [hc1]
        simp only [hx]
      · simp only [hmay, if_true] at h ⊢
        simp only [Bool.false_eq_true, if_false] at hpt
        omega
    | none =>
      obtain ⟨n2, r2, w2, hc2, hp2⟩ := IH (.resolve q) [x] w1 (by simp only [Fn.size]; omega)
      simp only [Fn.size] at hp2
      cases r2 with
      | ret v2 =>
        refine ⟨max n1 n2, .ret .undefined, w2, ?_, by omega⟩
        unfold handler
        rw [call_mono (le_max_left n1 n2) _ _ _ _ hc1]
        simp only [hx]
        rw [call_mono (le_max_right n1 n2) _ _ _ _ hc2]
      | throw e =>
        obtain ⟨n3, r3, w3, hc3, hp3⟩ := IH (.reject q) [e] w2 (by simp only [Fn.size]; omega)
        simp only [Fn.size] at hp3
        refine ⟨max n1 (max n2 n3), r3, w3, ?_, by omega⟩
        unfold handler
        rw [call_mono (le_max_left n1 _) _ _ _ _ hc1]
        simp only [hx]
        rw [call_mono (le_trans (le_max_left n2 n3) (le_max_right n1 _)) _ _ _ _ hc2]
        exact call_mono (le_trans (le_max_right n2 n3) (le_max_right n1 _)) _ _ _ _ hc3

theorem finArrow_terminates (m : Nat) (IH : Terminates m) (st : St) (hst : st ≠ .pending)
    (fin : Fn) (value : Val) (w : World) (h : potential w + fin.size + 20 ≤ m + 1) :
    ∃ n r w1, finArrow (call n) st fin value w = some (r, w1) ∧
      potential w1 + 1 ≤ potential w + fin.size + 20 := by
  obtain ⟨n1, r1, w1, hc1, hp1⟩ := IH fin [] w (by omega)
  cases r1 with
  | throw e =>
    refine ⟨n1, .throw e, w1, ?_, by omega⟩
    unfold finArrow
    rw [hc1]
  | ret x =>
    have hpt := potential_then w1.heap.length (.konst value) .notFn (settledNew st x w1)
    simp only [orIdent, Fn.isFunction, if_true, Fn.size, Fn.mayReturnInstance,
      Bool.false_eq_true, if_false] at hpt
    rw [potential_settledNew st hst] at hpt
    refine ⟨n1 + 1,
      .ret (.promise (then_ w1.heap.length (.konst value) .notFn (settledNew st x w1)).1),
      (then_ w1.heap.length (.konst value) .notFn (settledNew st x w1)).2, ?_, by omega⟩
    unfold finArrow
    rw [call_mono (Nat.le_succ n1) _ _ _ _ hc1]
    simp only [staticSettle_fresh n1 st hst]

theorem allArrow_terminates (m : Nat) (IH : Terminates m) (len agg cnt : Nat) (result : Val)
    (w : World) (h : potential w + 2 ≤ m + 1) :
    ∃ n r w1, allArrow (call n) len agg cnt result w = some (r, w1) ∧
      potential w1 + 1 ≤ potential w + 2 := by
  unfold allArrow
  by_cases ho : result.isObject = true
  · simp only [ho, if_true]
    by_cases hl : (bump cnt w).counts.getD cnt 0 = len
    · simp only [hl, if_true]
      obtain ⟨n1, r1, w1, hc1, hp1⟩ := IH (.resolve agg) [result] (bump cnt w)
        (by simp only [Fn.size, potential_bump]; omega)
      simp only [Fn.size, potential_bump] at hp1
      cases r1 with
      | throw e => exact ⟨n1, .throw e, w1, by rw [hc1], by omega⟩
      | ret v => exact ⟨n1, .ret .undefined, w1, by rw [hc1], by omega⟩
    · simp only [hl, if_false]
      exact ⟨0, _, _, rfl, by rw [potential_bump]; omega⟩
  · simp only [ho]
    exact ⟨0, _, _, rfl, by rw [potential_bump]; omega⟩

theorem allCatchArrow_terminates (m : Nat) (IH : Terminates m) (agg : PId) (e : Val)
    (w : World) (h : potential w + 2 ≤ m + 1) :
    ∃ n r w1, allCatchArrow (call n) agg e w = some (r, w1) ∧
      potential w1 + 1 ≤ potential w + 2 := by
  unfold allCatchArrow
  obtain ⟨n1, r1, w1, hc1, hp1⟩ := IH (.reject agg) [e] w (by simp only [Fn.size]; omega)
  simp only [Fn.size] at hp1
  cases r1 with
  | throw e => exact ⟨n1, .throw e, w1, by rw [hc1], by omega⟩
  | ret v => exact ⟨n1, .ret .undefined, w1, by rw [hc1], by omega⟩

theorem userCall_terminates (id : Nat) (body : List Val → Outcome) (args : List Val)
    (w : World) :
    ∃ r w1, userCall (call 1) id body args w = some (r, w1) ∧ potential w1 = potential w := by
  unfold userCall
  cases hb : body args with
  | ret v => exact ⟨_, _, rfl, potential_trace _ _ _⟩
  | raise v => exact ⟨_, _, rfl, potential_trace _ _ _⟩
  | retResolve v =>
    simp only [staticSettle_fresh 0 .resolved (by decide)]
    exact ⟨_, _, rfl, by rw [potential_settledNew _ (by decide), potential_trace]⟩
  | retReject v =>
    simp only [staticSettle_fresh 0 .rejected (by decide)]
    exact ⟨_, _, rfl, by rw [potential_settledNew _ (by decide), potential_trace]⟩

theorem terminates_all (m : Nat) : Terminates m := by
  induction m with
  | zero =>
    intro f a w h
    have := f.size_pos
    omega
  | succ m IH =>
    intro f a w h
    cases f with
    | notFn => exact ⟨1, _, _, rfl, by simp [Fn.size]⟩
    | ident => exact ⟨1, _, _, rfl, by simp [Fn.size]⟩
    | konst v => exact ⟨1, _, _, rfl, by simp [Fn.size]⟩
    | user id body =>
      obtain ⟨r, w1, hc, hp⟩ := userCall_terminates id body a w
      exact ⟨2, r, w1, hc, by simp [Fn.size, hp]⟩
    | resolve p =>
      simp only [Fn.size] at h ⊢
      obtain ⟨n, r, w1, hc, hp⟩ := settle_terminates m IH .resolved (by decide) p (arg0 a) w
        (by omega)
      exact ⟨n + 1, r, w1, hc, by omega⟩
    | reject p =>
      simp only [Fn.size] at h ⊢
      obtain ⟨n, r, w1, hc, hp⟩ := settle_terminates m IH .rejected (by decide) p (arg0 a) w
        (by omega)
      exact ⟨n + 1, r, w1, hc, by omega⟩
    | onResolve cb q =>
      simp only [Fn.size] at h ⊢
      obtain ⟨n, r, w1, hc, hp⟩ := handler_terminates m IH cb q (arg0 a) w (by omega)
      exact ⟨n + 1, r, w1, hc, by omega⟩
    | onReject cb q =>
      simp only [Fn.size] at h ⊢
      obtain ⟨n, r, w1, hc, hp⟩ := handler_terminates m IH cb q (arg0 a) w (by omega)
      exact ⟨n + 1, r, w1, hc, by omega⟩
    | finThen fin =>
      simp only [Fn.size] at h ⊢
      obtain ⟨n, r, w1, hc, hp⟩ := finArrow_terminates m IH .resolved (by decide) fin (arg0 a) w
        (by omega)
      exact ⟨n + 1, r, w1, hc, by omega⟩
    | finCatch fin =>
      simp only [Fn.size] at h ⊢
      obtain ⟨n, r, w1, hc, hp⟩ := finArrow_terminates m IH .rejected (by decide) fin (arg0 a) w
        (by omega)
      exact ⟨n + 1, r, w1, hc, by omega⟩
    | allThen i len agg cnt =>
      simp only [Fn.size] at h ⊢
      obtain ⟨n, r, w1, hc, hp⟩ := allArrow_terminates m IH len agg cnt (arg0 a) w (by omega)
      exact ⟨n + 1, r, w1, hc, by omega⟩
    | allCatch agg =>
      simp only [Fn.size] at h ⊢
      obtain ⟨n, r, w1, hc, hp⟩ := allCatchArrow_terminates m IH agg (arg0 a) w (by omega)
      exact ⟨n + 1, r, w1, hc, by omega⟩

/-- Every call returns, given enough fuel. -/
theorem call_terminates (f : Fn) (a : List Val) (w : World) :
    ∃ n r w1, call n f a w = some (r, w1) := by
  obtain ⟨n, r, w1, h, -⟩ := terminates_all (potential w + f.size) f a w (le_refl _)
  exact ⟨n, r, w1, h⟩

/-! ## Queues hold guarded functions only -/

theorem safe_alloc (w : World) (h : Safe w) : Safe (alloc w).2 := by
  intro p pr hp
  rcases get_alloc w p pr hp with h1 | ⟨-, h2⟩
  · exact h p pr h1
  · subst h2; simp [Promise.fresh]

theorem safe_then (x : PId) (f g : Fn) (w : World) (h : Safe w) : Safe (then_ x f g w).2 := by
  intro p pr hp
  rw [get_then] at hp
  cases ha : (alloc w).2.heap[p]? with
  | none => simp [ha] at hp
  | some pa =>
    rw [ha] at hp
    have hsa := safe_alloc w h p pa ha
    simp only [Option.map_some', Option.some.injEq] at hp
    subst hp
    intro k hk
    by_cases hpx : p = x
    · simp only [hpx, if_true, List.mem_append, List.mem_singleton] at hk
      rcases hk with (hk | hk) | (hk | hk)
      · exact hsa k (List.mem_append_left _ hk)
      · subst hk; rfl
      · exact hsa k (List.mem_append_right _ hk)
      · subst hk; rfl
    · simp only [hpx, if_false] at hk
      exact hsa k hk

theorem safe_assign (p : PId) (pr : Promise) (st : St) (v : Val) (w : World)
    (hp : w.heap[p]? = some pr) (h : Safe w) : Safe (assign p pr st v w) := by
  intro i pi hi
  rw [get_assign p pr st v w hp] at hi
  by_cases hip : i = p
  · simp only [hip, if_true, Option.some.injEq] at hi
    subst hi
    exact h p pr hp
  · simp only [hip, if_false] at hi
    exact h i pi hi

theorem rule_safe :
    Rule (fun _ => True) (fun f => f.isGuarded = true) Safe (fun _ _ => True) where
  refl := fun _ => trivial
  trans := fun _ _ _ _ _ => trivial
  sub_onResolve := fun _ _ _ => ⟨trivial, trivial, trivial⟩
  sub_onReject := fun _ _ _ => ⟨trivial, trivial, trivial⟩
  sub_finThen := fun _ _ => trivial
  sub_finCatch := fun _ _ => trivial
  sub_allThen := fun _ _ _ _ _ => trivial
  sub_allCatch := fun _ _ => trivial
  fresh := fun _ _ => ⟨trivial, trivial⟩
  step_trace := fun _ _ _ _ _ h => ⟨h, trivial⟩
  step_alloc := fun w h => ⟨safe_alloc w h, trivial⟩
  step_link := fun _ x w _ _ h => ⟨safe_then x _ _ w h, trivial⟩
  step_fin := fun x _ w h => ⟨safe_then x _ _ w h, trivial⟩
  step_bump := fun _ _ h => ⟨h, trivial⟩
  step_assign := fun st p v w pr _ h hp _ => ⟨safe_assign p pr st v w hp h, trivial⟩
  queue := by
    intro st p w pr _ hI hp _ k hk _
    refine ⟨trivial, fun _ => hI p pr hp k ?_⟩
    split at hk
    · exact List.mem_append_left _ hk
    · exact List.mem_append_right _ hk
  guarded := fun _ h => h
  guard_onResolve := fun _ _ _ => rfl
  guard_onReject := fun _ _ _ => rfl

/-- In a world whose queues are safe, a capability or a handler that returns
completes normally, and the queues stay safe. -/
theorem call_safe (n : Nat) (f : Fn) (a : List Val) (w : World) (r : Res) (w1 : World)
    (hs : Safe w) (h : call n f a w = some (r, w1)) :
    Safe w1 ∧ (f.isGuarded = true → ∃ v, r = .ret v) :=
  ⟨(call_sound rule_safe n f a w r w1 trivial hs h).1,
    (call_sound rule_safe n f a w r w1 trivial hs h).2.2⟩

/-! ## An instance no queued function can reach keeps its status -/

theorem unreached_alloc (q0 : PId) (w : World) (h : Unreached q0 w) :
    Unreached q0 (alloc w).2 := by
  refine ⟨by rw [heap_alloc, List.length_append]; exact Nat.lt_add_right _ h.1, ?_⟩
  intro p pr hp hs
  rcases get_alloc w p pr hp with h1 | ⟨-, h2⟩
  · exact h.2 p pr h1 hs
  · subst h2; simp [Promise.fresh]

theorem get_of_lt (w : World) (i : Nat) (h : i < w.heap.length) :
    ∃ pr, w.heap[i]? = some pr := ⟨w.heap[i], List.getElem?_eq_getElem h⟩

theorem sameStatus_alloc (q0 : PId) (w : World) (h : q0 < w.heap.length) :
    SameStatus q0 w (alloc w).2 := by
  obtain ⟨pr, hpr⟩ := get_of_lt w q0 h
  simp [SameStatus, stateOf, valueOf, get_alloc_old w q0 pr hpr, hpr]

theorem sameStatus_then (q0 x : PId) (f g : Fn) (w : World) (h : q0 < w.heap.length) :
    SameStatus q0 w (then_ x f g w).2 := by
  obtain ⟨pr, hpr⟩ := get_of_lt w q0 h
  simp only [SameStatus, stateOf, valueOf, get_then, get_alloc_old w q0 pr hpr, hpr]
  by_cases hx : q0 = x <;> simp [hx]

theorem unreached_then (q0 x : PId) (f g : Fn) (w : World) (h : Unreached q0 w)
    (hf : (orIdent f).avoids q0 = true) (hg : (orIdent g).avoids q0 = true) :
    Unreached q0 (then_ x f g w).2 := by
  refine ⟨by rw [length_then]; exact Nat.lt_succ_of_lt h.1, ?_⟩
  intro p pr hp hs
  rw [get_then] at hp
  have hne : w.heap.length ≠ q0 := Nat.ne_of_gt h.1
  cases ha : (alloc w).2.heap[p]? with
  | none => simp [ha] at hp
  | some pa =>
    rw [ha] at hp
    simp only [Option.map_some', Option.some.injEq] at hp
    subst hp
    intro k hk
    by_cases hpx : p = x
    · simp only [hpx, if_true] at hs
      have hsa := (unreached_alloc q0 w h).2 p pa ha hs
      simp only [hpx, if_true, List.mem_append, List.mem_singleton] at hk
      rcases hk with (hk | hk) | (hk | hk)
      · exact hsa k (List.mem_append_left _ hk)
      · subst hk; simp [Fn.avoids, hf, hne]
      · exact hsa k (List.mem_append_right _ hk)
      · subst hk; simp [Fn.avoids, hg, hne]
    · simp only [hpx, if_false] at hk hs
      exact (unreached_alloc q0 w h).2 p pa ha hs k hk

theorem unreached_assign (q0 p : PId) (pr : Promise) (st : St) (v : Val) (w : World)
    (hp : w.heap[p]? = some pr) (h : Unreached q0 w) (hs : pr.state = .pending) :
    Unreached q0 (assign p pr st v w) := by
  refine ⟨by rw [length_assign]; exact h.1, ?_⟩
  intro i pi hi hsi
  rw [get_assign p pr st v w hp] at hi
  by_cases hip : i = p
  · simp only [hip, if_true, Option.some.injEq] at hi
    subst hi
    exact h.2 p pr hp hs
  · simp only [hip, if_false] at hi
    exact h.2 i pi hi hsi

theorem sameStatus_assign (q0 p : PId) (pr : Promise) (st : St) (v : Val) (w : World)
    (hp : w.heap[p]? = some pr) (hne : p ≠ q0) : SameStatus q0 w (assign p pr st v w) := by
  have : ¬ q0 = p := fun h => hne h.symm
  simp [SameStatus, stateOf, valueOf, get_assign p pr st v w hp, this]

theorem rule_unreached (q0 : PId) :
    Rule (fun f => f.avoids q0 = true) (fun _ => False) (Unreached q0) (SameStatus q0) where
  refl := fun _ => ⟨rfl, rfl⟩
  trans := fun _ _ _ h1 h2 => ⟨h2.1.trans h1.1, h2.2.trans h1.2⟩
  sub_onResolve := by
    intro cb q h
    simp only [Fn.avoids, Bool.and_eq_true] at h
    exact ⟨h.1, by simpa [Fn.avoids] using h.2, by simpa [Fn.avoids] using h.2⟩
  sub_onReject := by
    intro cb q h
    simp only [Fn.avoids, Bool.and_eq_true] at h
    exact ⟨h.1, by simpa [Fn.avoids] using h.2, by simpa [Fn.avoids] using h.2⟩
  sub_finThen := fun _ h => h
  sub_finCatch := fun _ h => h
  sub_allThen := fun _ _ _ _ h => h
  sub_allCatch := fun _ h => h
  fresh := by
    intro w h
    have hne : w.heap.length ≠ q0 := Nat.ne_of_gt h.1
    simp [Fn.avoids, hne]
  step_trace := fun _ _ _ _ _ h => ⟨h, rfl, rfl⟩
  step_alloc := fun w h => ⟨unreached_alloc q0 w h, sameStatus_alloc q0 w h.1⟩
  step_link := fun q x w h1 h2 h =>
    ⟨unreached_then q0 x _ _ w h (by simpa [orIdent, Fn.isFunction] using h1)
      (by simpa [orIdent, Fn.isFunction] using h2), sameStatus_then q0 x _ _ w h.1⟩
  step_fin := fun x v w h =>
    ⟨unreached_then q0 x _ _ w h (by simp [orIdent, Fn.isFunction, Fn.avoids])
      (by simp [orIdent, Fn.isFunction, Fn.avoids]), sameStatus_then q0 x _ _ w h.1⟩
  step_bump := fun _ _ h => ⟨h, rfl, rfl⟩
  step_assign := by
    intro st p v w pr hA h hp hs
    have hne : p ≠ q0 := by
      rcases capOf_cases st p with hc | hc <;> rw [hc] at hA <;> simpa [Fn.avoids] using hA
    exact ⟨unreached_assign q0 p pr st v w hp h hs, sameStatus_assign q0 p pr st v w hp hne⟩
  queue := by
    intro st p w pr _ hI hp hs k hk _
    refine ⟨hI.2 p pr hp hs k ?_, fun h => h.elim⟩
    split at hk
    · exact List.mem_append_left _ hk
    · exact List.mem_append_right _ hk
  guarded := fun _ h => h.elim
  guard_onResolve := fun _ _ h => h.elim
  guard_onReject := fun _ _ h => h.elim

/-! ## Calls that reach no caller-supplied function leave the trace alone -/

theorem quiet_alloc (b : PId) (w : World) (h : Quiet b w) : Quiet b (alloc w).2 := by
  refine ⟨by rw [heap_alloc, List.length_append]; exact Nat.lt_add_right _ h.1, ?_⟩
  intro p pr hb hp
  rcases get_alloc w p pr hp with h1 | ⟨-, h2⟩
  · exact h.2 p pr hb h1
  · subst h2; simp [Promise.fresh]

theorem quiet_then (b x : PId) (f g : Fn) (w : World) (h : Quiet b w)
    (hf : (orIdent f).above b = true) (hg : (orIdent g).above b = true) :
    Quiet b (then_ x f g w).2 := by
  refine ⟨by rw [length_then]; exact Nat.lt_succ_of_lt h.1, ?_⟩
  intro p pr hb hp
  rw [get_then] at hp
  cases ha : (alloc w).2.heap[p]? with
  | none => simp [ha] at hp
  | some pa =>
    rw [ha] at hp
    simp only [Option.map_some', Option.some.injEq] at hp
    subst hp
    have hsa := (quiet_alloc b w h).2 p pa hb ha
    intro k hk
    by_cases hpx : p = x
    · simp only [hpx, if_true, List.mem_append, List.mem_singleton] at hk
      rcases hk with (hk | hk) | (hk | hk)
      · exact hsa k (List.mem_append_left _ hk)
      · subst hk; simp [Fn.above, Fn.isGuarded, hf, h.1]
      · exact hsa k (List.mem_append_right _ hk)
      · subst hk; simp [Fn.above, Fn.isGuarded, hg, h.1]
    · simp only [hpx, if_false] at hk
      exact hsa k hk

theorem quiet_assign (b p : PId) (pr : Promise) (st : St) (v : Val) (w : World)
    (hp : w.heap[p]? = some pr) (h : Quiet b w) : Quiet b (assign p pr st v w) := by
  refine ⟨by rw [length_assign]; exact h.1, ?_⟩
  intro i pi hb hi
  rw [get_assign p pr st v w hp] at hi
  by_cases hip : i = p
  · simp only [hip, if_true, Option.some.injEq] at hi
    subst hi
    exact h.2 p pr (hip ▸ hb) hp
  · simp only [hip, if_false] at hi
    exact h.2 i pi hb hi

theorem log_then (x : PId) (f g : Fn) (w : World) : (then_ x f g w).2.log = w.log := by
  rw [then_snd]
  unfold pushRejectFn pushResolveFn
  split <;> split <;> rfl

theorem rule_quiet (b : PId) :
    Rule (fun f => f.above b = true) (fun f => f.isGuarded = true) (Quiet b) SameLog where
  refl := fun _ => rfl
  trans := fun _ _ _ h1 h2 => by unfold SameLog at *; rw [h2, h1]
  sub_onResolve := by
    intro cb q h
    simp only [Fn.above, Bool.and_eq_true] at h
    exact ⟨h.1, by simpa [Fn.above] using h.2, by simpa [Fn.above] using h.2⟩
  sub_onReject := by
    intro cb q h
    simp only [Fn.above, Bool.and_eq_true] at h
    exact ⟨h.1, by simpa [Fn.above] using h.2, by simpa [Fn.above] using h.2⟩
  sub_finThen := fun _ h => h
  sub_finCatch := fun _ h => h
  sub_allThen := fun _ _ _ _ h => h
  sub_allCatch := fun _ h => h
  fresh := by
    intro w h
    simp [Fn.above, h.1]
  step_trace := by
    intro id body args w h
    simp [Fn.above] at h
  step_alloc := fun w h => ⟨quiet_alloc b w h, rfl⟩
  step_link := fun q x w h1 h2 h =>
    ⟨quiet_then b x _ _ w h (by simpa [orIdent, Fn.isFunction] using h1)
      (by simpa [orIdent, Fn.isFunction] using h2), log_then x _ _ w⟩
  step_fin := fun x v w h =>
    ⟨quiet_then b x _ _ w h (by simp [orIdent, Fn.isFunction, Fn.above])
      (by simp [orIdent, Fn.isFunction, Fn.above]), log_then x _ _ w⟩
  step_bump := fun _ _ h => ⟨h, rfl⟩
  step_assign := fun st p v w pr _ h hp _ => ⟨quiet_assign b p pr st v w hp h, rfl⟩
  queue := by
    intro st p w pr hA hI hp _ k hk _
    have hb : b < p := by
      rcases capOf_cases st p with hc | hc <;> rw [hc] at hA <;> simpa [Fn.above] using hA
    have hmem : k ∈ pr.resolveFns ++ pr.rejectFns := by
      split at hk
      · exact List.mem_append_left _ hk
      · exact List.mem_append_right _ hk
    exact ⟨(hI.2 p pr hb hp k hmem).1, fun _ => (hI.2 p pr hb hp k hmem).2⟩
  guarded := fun _ h => h
  guard_onResolve := fun _ _ _ => rfl
  guard_onReject := fun _ _ _ => rfl

/-! ## C1: single transition -/

theorem kindSt_ne (k : Bool) : kindSt k ≠ .pending := by
  cases k <;> simp [kindSt]

theorem call_cap (n : Nat) (k : Bool) (p : PId) (a : List Val) (w : World) :
    call (n + 1) (cap k p) a w = settle (call n) (kindSt k) p (arg0 a) w := by
  cases k <;> rfl

theorem settle_effect (n : Nat) (st : St) (hst : st ≠ .pending) (p : PId) (v : Val)
    (w : World) (pr : Promise) (hp : w.heap[p]? = some pr) (hs : pr.state = .pending)
    (r : Res) (w1 : World) (h : settle (call n) st p v w = some (r, w1)) :
    ∃ pr1, w1.heap[p]? = some pr1 ∧ pr1.state = st ∧ pr1.value = v := by
  unfold settle at h
  rw [hp] at h
  simp only [hs, ne_eq, not_true_eq_false, if_false] at h
  have hg := (forEachFn_sound rule_grows (call_sound rule_grows n) False p _
    (fun _ _ _ => ⟨trivial, fun hf => hf.elim⟩) _ trivial r w1 h).2.1
  have hget : (assign p pr st v w).heap[p]? = some { pr with state := st, value := v } := by
    rw [get_assign p pr st v w hp]; simp
  obtain ⟨pr1, hp1, hst1, -⟩ := hg.2.1 p _ hget
  exact ⟨pr1, hp1, (hst1 hst).1, (hst1 hst).2⟩

theorem settle_noop (c : Fn → List Val → World → Option (Res × World)) (st : St) (p : PId)
    (v : Val) (w : World) (h : ∀ pr, w.heap[p]? = some pr → pr.state ≠ .pending) :
    settle c st p v w = some (.ret .undefined, w) := by
  unfold settle
  cases hp : w.heap[p]? with
  | none => rfl
  | some pr => simp [h pr hp]

theorem settle_settled (n : Nat) (st : St) (hst : st ≠ .pending) (p : PId) (v : Val)
    (w : World) (r : Res) (w1 : World) (h : settle (call n) st p v w = some (r, w1)) :
    ∀ pr1, w1.heap[p]? = some pr1 → pr1.state ≠ .pending := by
  intro pr1 hp1
  cases hp : w.heap[p]? with
  | none =>
    rw [settle_noop _ st p v w (by simp [hp])] at h
    simp only [Option.some.injEq, Prod.mk.injEq] at h
    rw [← h.2, hp] at hp1
    exact absurd hp1 (by simp)
  | some pr =>
    by_cases hs : pr.state = .pending
    · obtain ⟨pr2, hp2, hs2, -⟩ := settle_effect n st hst p v w pr hp hs r w1 h
      rw [hp2] at hp1
      cases hp1
      rw [hs2]; exact hst
    · rw [settle_noop _ st p v w (by intro q hq; rw [hp] at hq; cases hq; exact hs)] at h
      simp only [Option.some.injEq, Prod.mk.injEq] at h
      rw [← h.2, hp] at hp1
      cases hp1
      exact hs

theorem runCalls_noop (m : Nat) (p : PId) (cs : List (Bool × Val)) (w : World)
    (h : ∀ pr, w.heap[p]? = some pr → pr.state ≠ .pending) :
    runCalls (m + 1) p cs w = some w := by
  induction cs with
  | nil => rfl
  | cons c cs ih =>
    obtain ⟨k, v⟩ := c
    simp only [runCalls, call_cap, settle_noop _ _ p _ w h]
    exact ih

/-- C1 (single transition): for every world, instance `p` and sequence of calls
to the two settle capabilities of `p`, the first call returns, and running the
whole sequence leaves exactly the world the first call alone leaves, so the
later calls change no state or value and call no continuation.  When `p` was
pending its state and value are those given by the first call; when it was
settled already the first call changes nothing either. -/
theorem C1_single_transition (w : World) (p : PId) (k : Bool) (v : Val)
    (cs : List (Bool × Val)) :
    ∃ n w1, runCalls n p [(k, v)] w = some w1 ∧ runCalls n p ((k, v) :: cs) w = some w1 ∧
      (∀ pr, w.heap[p]? = some pr → pr.state = .pending →
        stateOf p w1 = some (kindSt k) ∧ valueOf p w1 = v) ∧
      (∀ pr, w.heap[p]? = some pr → pr.state ≠ .pending → w1 = w) := by
  obtain ⟨n, r, w1, h⟩ := call_terminates (cap k p) [v] w
  cases n with
  | zero => simp [call] at h
  | succ n =>
    have hset := h
    rw [call_cap] at hset
    have hdone := settle_settled n (kindSt k) (kindSt_ne k) p _ w r w1 hset
    refine ⟨n + 1, w1, ?_, ?_, ?_, ?_⟩
    · simp only [runCalls, h]
    · simp only [runCalls, h]
      exact runCalls_noop n p cs w1 hdone
    · intro pr hp hs
      obtain ⟨pr1, hp1, hs1, hv1⟩ := settle_effect n _ (kindSt_ne k) p _ w pr hp hs r w1 hset
      simp [stateOf, valueOf, hp1, hs1, hv1, arg0]
    · intro pr hp hs
      rw [settle_noop _ _ p _ w (by intro q hq; rw [hp] at hq; cases hq; exact hs)] at hset
      simp only [Option.some.injEq, Prod.mk.injEq] at hset
      exact hset.2.symm

/-! ## C2, C4, C6, C7, C8: registrations on an instance that is already settled -/

/-- C2 (post-settlement registration), evaluated on `MyPromise.resolve(v).then(f, g)`
in the empty world: the static constructor returns instance 0, resolved with
`v`; the `then` call returns with an empty trace, so `f` was not called, and
the successor is pending; no later call of a settle capability of instance 0
changes anything, so `f` is never called. -/
theorem C2_late_registration_never_called (n : Nat) (v : Val) (id : Nat)
    (body : List Val → Outcome) (g : Fn) :
    ∃ w1, staticResolve (n + 1) v World.empty = some (.ok 0, w1) ∧
      stateOf 0 w1 = some .resolved ∧ valueOf 0 w1 = v ∧
      (then_ 0 (.user id body) g w1).1 = 1 ∧
      (then_ 0 (.user id body) g w1).2.log = [] ∧
      stateOf 1 (then_ 0 (.user id body) g w1).2 = some .pending ∧
      ∀ m cs, runCalls (m + 1) 0 cs (then_ 0 (.user id body) g w1).2 =
        some (then_ 0 (.user id body) g w1).2 := by
  refine ⟨settledNew .resolved v World.empty, staticSettle_fresh n .resolved (by decide) v _,
    rfl, rfl, rfl, rfl, rfl, ?_⟩
  intro m cs
  apply runCalls_noop
  intro pr hp
  have : pr.state = .resolved := by
    simp [get_then, settledNew, World.empty, alloc, assign, Promise.fresh] at hp
    rw [← hp]
  rw [this]
  decide

/-- C4 (flattening), evaluated with `f = () => MyPromise.resolve(v)`.
First `MyPromise.resolve(1).then(f)`: `f` is not called and the successor
(instance 1) stays pending.  Then a pending instance 0 with `then(f)`, resolved
afterwards with 1: `f` is called once, the instance it returns (2) is resolved
with `v`, and the successor (1) is still pending, with undefined value. -/
theorem C4_successor_stays_pending (n : Nat) (v : Val) :
    (∃ w1, staticResolve (n + 1) (.num 1) World.empty = some (.ok 0, w1) ∧
      (then_ 0 (.user 7 (fun _ => .retResolve v)) .notFn w1).1 = 1 ∧
      (then_ 0 (.user 7 (fun _ => .retResolve v)) .notFn w1).2.log = [] ∧
      stateOf 1 (then_ 0 (.user 7 (fun _ => .retResolve v)) .notFn w1).2 = some .pending) ∧
    (∃ w2, call (n + 4) (.resolve 0) [.num 1]
        (then_ 0 (.user 7 (fun _ => .retResolve v)) .notFn (alloc World.empty).2).2 =
          some (.ret .undefined, w2) ∧
      w2.log = [(7, [.num 1])] ∧
      stateOf 2 w2 = some .resolved ∧ valueOf 2 w2 = v ∧
      stateOf 1 w2 = some .pending ∧ valueOf 1 w2 = .undefined) :=
  ⟨⟨_, staticSettle_fresh n .resolved (by decide) _ _, rfl, rfl, rfl⟩,
    ⟨_, rfl, rfl, rfl, rfl, rfl, rfl⟩⟩

/-- C6 (aggregation success), evaluated on
`MyPromise.all([resolve(1), resolve(2), resolve(3)])`: the three entries are
resolved with 1, 2, 3; `all` returns instance 3, which is pending with
undefined value, and no call of a settle capability of an entry changes that. -/
theorem C6_all_of_resolved_stays_pending :
    stateOf 0 worldResolved123 = some .resolved ∧ valueOf 0 worldResolved123 = .num 1 ∧
    stateOf 1 worldResolved123 = some .resolved ∧ valueOf 1 worldResolved123 = .num 2 ∧
    stateOf 2 worldResolved123 = some .resolved ∧ valueOf 2 worldResolved123 = .num 3 ∧
    (all [.promise 0, .promise 1, .promise 2] worldResolved123).1 = 3 ∧
    stateOf 3 (all [.promise 0, .promise 1, .promise 2] worldResolved123).2 = some .pending ∧
    valueOf 3 (all [.promise 0, .promise 1, .promise 2] worldResolved123).2 = .undefined ∧
    ∀ (p : Fin 3) (k : Bool) (x : Val) (m : Nat),
      call (m + 1) (cap k p.val) [x] (all [.promise 0, .promise 1, .promise 2] worldResolved123).2 =
        some (.ret .undefined, (all [.promise 0, .promise 1, .promise 2] worldResolved123).2) := by
  refine ⟨rfl, rfl, rfl, rfl, rfl, rfl, rfl, rfl, rfl, ?_⟩
  intro p k x m
  rw [call_cap]
  apply settle_noop
  intro pr hp
  fin_cases p <;> cases hp <;> decide

/-- C7 (aggregation short-circuit), evaluated on
`MyPromise.all([resolve(1), reject("e"), resolve(3)])`: entry 1 is rejected with
`"e"`, and `all` returns instance 3, which is pending.  Also with three entries
that are pending when `all` is called: rejecting entry 1 with `"e"` afterwards
returns normally and leaves the aggregate (instance 3) pending, because the
successor of `then` (instance 6) is resolved with `"e"`. -/
theorem C7_all_with_rejected_stays_pending (n : Nat) :
    (stateOf 1 worldResolved1e3 = some .rejected ∧ valueOf 1 worldResolved1e3 = .str "e" ∧
      (all [.promise 0, .promise 1, .promise 2] worldResolved1e3).1 = 3 ∧
      stateOf 3 (all [.promise 0, .promise 1, .promise 2] worldResolved1e3).2 =
        some .pending) ∧
    (∃ w2, (all [.promise 0, .promise 1, .promise 2] worldPending3).1 = 3 ∧
      call (n + 6) (.reject 1) [.str "e"]
        (all [.promise 0, .promise 1, .promise 2] worldPending3).2 =
          some (.ret .undefined, w2) ∧
      stateOf 1 w2 = some .rejected ∧ valueOf 1 w2 = .str "e" ∧
      stateOf 6 w2 = some .resolved ∧ valueOf 6 w2 = .str "e" ∧
      stateOf 3 w2 = some .pending) :=
  ⟨⟨rfl, rfl, rfl, rfl⟩, ⟨_, rfl, rfl, rfl, rfl, rfl, rfl, rfl⟩⟩

/-- C8 (`finally` preserves the outcome), evaluated with `f = () => undefined`.
On `MyPromise.resolve(7).finally(f)` and on `MyPromise.reject("x").finally(f)`
the successor (instance 1) is pending and `f` is not called.  On a pending
instance 0 with `finally(f)` that is resolved with 7 afterwards, `f` is called
once, with no arguments, and the successor (instance 1) is still pending; the
same when instance 0 is rejected with `"x"`. -/
theorem C8_finally_successor_stays_pending (n : Nat) :
    (stateOf 0 (settledNew .resolved (.num 7) World.empty) = some .resolved ∧
      (finally_ 0 (noop 9) (settledNew .resolved (.num 7) World.empty)).1 = 1 ∧
      (finally_ 0 (noop 9) (settledNew .resolved (.num 7) World.empty)).2.log = [] ∧
      stateOf 1 (finally_ 0 (noop 9) (settledNew .resolved (.num 7) World.empty)).2 =
        some .pending) ∧
    (stateOf 0 (settledNew .rejected (.str "x") World.empty) = some .rejected ∧
      (finally_ 0 (noop 9) (settledNew .rejected (.str "x") World.empty)).2.log = [] ∧
      stateOf 1 (finally_ 0 (noop 9) (settledNew .rejected (.str "x") World.empty)).2 =
        some .pending) ∧
    (∃ w2, call (n + 5) (.resolve 0) [.num 7] (finally_ 0 (noop 9) (alloc World.empty).2).2 =
        some (.ret .undefined, w2) ∧
      w2.log = [(9, [])] ∧ stateOf 0 w2 = some .resolved ∧ stateOf 1 w2 = some .pending) ∧
    (∃ w3, call (n + 5) (.reject 0) [.str "x"] (finally_ 0 (noop 9) (alloc World.empty).2).2 =
        some (.ret .undefined, w3) ∧
      w3.log = [(9, [])] ∧ stateOf 0 w3 = some .rejected ∧ stateOf 1 w3 = some .pending) :=
  ⟨⟨rfl, rfl, rfl, rfl⟩, ⟨rfl, rfl, rfl⟩, ⟨_, rfl, rfl, rfl, rfl⟩, ⟨_, rfl, rfl, rfl, rfl⟩⟩

/-! ## C5: a rejection met by the default failure continuation -/

theorem settle_pending (c : Fn → List Val → World → Option (Res × World)) (st : St) (p : PId)
    (v : Val) (w : World) (pr : Promise) (hp : w.heap[p]? = some pr)
    (hs : pr.state = .pending) :
    settle c st p v w =
      forEachFn c p (if st = .resolved then pr.resolveFns else pr.rejectFns)
        (assign p pr st v w) := by
  unfold settle
  rw [hp]
  simp [hs]

theorem valueOf_assign (p : PId) (pr : Promise) (st : St) (v : Val) (w : World)
    (hp : w.heap[p]? = some pr) : valueOf p (assign p pr st v w) = v := by
  simp [valueOf, get_assign p pr st v w hp]

theorem stateOf_assign (p : PId) (pr : Promise) (st : St) (v : Val) (w : World)
    (hp : w.heap[p]? = some pr) : stateOf p (assign p pr st v w) = some st := by
  simp [stateOf, get_assign p pr st v w hp]

theorem stateOf_assign_ne (i p : PId) (pr : Promise) (st : St) (v : Val) (w : World)
    (hp : w.heap[p]? = some pr) (hne : i ≠ p) :
    stateOf i (assign p pr st v w) = stateOf i w := by
  simp [stateOf, get_assign p pr st v w hp, hne]

theorem valueOf_assign_ne (i p : PId) (pr : Promise) (st : St) (v : Val) (w : World)
    (hp : w.heap[p]? = some pr) (hne : i ≠ p) :
    valueOf i (assign p pr st v w) = valueOf i w := by
  simp [valueOf, get_assign p pr st v w hp, hne]

theorem get_then_self (f g : Fn) (w : World) :
    (then_ w.heap.length f g (alloc w).2).2.heap[w.heap.length]? =
      some ⟨.pending, .undefined, [.onResolve (orIdent f) (w.heap.length + 1)],
        [.onReject (orIdent g) (w.heap.length + 1)]⟩ := by
  rw [get_then]
  have h1 : (alloc (alloc w).2).2.heap[w.heap.length]? = some Promise.fresh :=
    get_alloc_old _ _ _ (get_alloc_new w)
  have h2 : (alloc w).2.heap.length = w.heap.length + 1 := by simp [heap_alloc]
  simp [h1, h2, Promise.fresh]

theorem get_then_succ (f g : Fn) (w : World) :
    (then_ w.heap.length f g (alloc w).2).2.heap[w.heap.length + 1]? = some Promise.fresh := by
  rw [get_then]
  have h2 : (alloc w).2.heap.length = w.heap.length + 1 := by simp [heap_alloc]
  have h1 : (alloc (alloc w).2).2.heap[w.heap.length + 1]? = some Promise.fresh := by
    rw [← h2]; exact get_alloc_new _
  simp [h1]

/-- C5 (rejection passthrough), what the code does instead.  For every world,
every `onSuccess` and every reason `e` that is not an instance: on a newly
constructed pending instance, `then(onSuccess)` with no failure continuation,
followed by a call of the instance's `reject` with `e`, leaves the successor
resolved with value `e`, not rejected (the default of lines 66-68 returns the
reason and line 109 resolves with it); the call returns normally and the trace
is unchanged, so `onSuccess` is not called.  And on `MyPromise.reject(e)` in the
empty world, which is rejected already, `then(onSuccess)` calls nothing and
leaves its successor (instance 1) pending. -/
theorem C5_default_failure_resolves_successor (w0 : World) (onSuccess : Fn) (e : Val)
    (he : e.asPromise = none) (n : Nat) :
    (∃ w2, call (n + 4) (.reject w0.heap.length) [e]
        (then_ w0.heap.length onSuccess .notFn (alloc w0).2).2 = some (.ret .undefined, w2) ∧
      (then_ w0.heap.length onSuccess .notFn (alloc w0).2).1 = w0.heap.length + 1 ∧
      stateOf w0.heap.length w2 = some .rejected ∧ valueOf w0.heap.length w2 = e ∧
      stateOf (w0.heap.length + 1) w2 = some .resolved ∧
      valueOf (w0.heap.length + 1) w2 = e ∧ w2.log = w0.log) ∧
    (∃ w1, staticReject (n + 1) e World.empty = some (.ok 0, w1) ∧
      stateOf 0 w1 = some .rejected ∧ valueOf 0 w1 = e ∧
      (then_ 0 onSuccess .notFn w1).1 = 1 ∧
      (then_ 0 onSuccess .notFn w1).2.log = [] ∧
      stateOf 1 (then_ 0 onSuccess .notFn w1).2 = some .pending) := by
  refine ⟨?_, settledNew .rejected e World.empty,
    staticSettle_fresh n .rejected (by decide) e _, rfl, rfl, rfl, rfl, rfl⟩
  have hp := get_then_self onSuccess .notFn w0
  have hq := get_then_succ onSuccess .notFn w0
  generalize hw1 : (then_ w0.heap.length onSuccess .notFn (alloc w0).2).2 = w1 at hp hq
  have hlog1 : w1.log = w0.log := by rw [← hw1, log_then]; rfl
  have hfst : (then_ w0.heap.length onSuccess .notFn (alloc w0).2).1 = w0.heap.length + 1 := by
    rw [then_fst]; simp [heap_alloc]
  -- the world after `this.state = 'rejected'; this.value = e`
  generalize hwa : assign w0.heap.length _ .rejected e w1 = wa
  have hne : ¬ w0.heap.length + 1 = w0.heap.length := by omega
  have hqa : wa.heap[w0.heap.length + 1]? = some Promise.fresh := by
    rw [← hwa, get_assign _ _ _ _ _ hp]; simp [hq]
  have hva : valueOf w0.heap.length wa = e := by rw [← hwa]; exact valueOf_assign _ _ _ _ _ hp
  have hcall : call (n + 4) (.reject w0.heap.length) [e] w1 =
      some (.ret .undefined, assign (w0.heap.length + 1) Promise.fresh .resolved e wa) := by
    show settle (call (n + 3)) .rejected w0.heap.length e w1 = _
    rw [settle_pending _ _ _ _ _ _ hp rfl]
    simp only [reduceCtorEq, if_false]
    rw [hwa]
    simp only [forEachFn, Fn.isFunction, if_true, hva]
    have hh : handler (call (n + 2)) (orIdent .notFn) (w0.heap.length + 1) e wa =
        some (.ret .undefined, assign (w0.heap.length + 1) Promise.fresh .resolved e wa) := by
      unfold handler
      have h1 : call (n + 2) (orIdent .notFn) [e] wa = some (.ret e, wa) := rfl
      have h2 : call (n + 2) (.resolve (w0.heap.length + 1)) [e] wa =
          some (.ret .undefined, assign (w0.heap.length + 1) Promise.fresh .resolved e wa) := by
        show settle (call (n + 1)) .resolved (w0.heap.length + 1) e wa = _
        rw [settle_pending _ _ _ _ _ _ hqa rfl]
        simp [Promise.fresh, forEachFn]
      rw [h1]
      simp only [he]
      rw [h2]
    show (match call (n + 3) (.onReject (orIdent .notFn) (w0.heap.length + 1)) [e] wa with
      | none => none
      | some (Res.throw e1, w1) => some (Res.throw e1, w1)
      | some (Res.ret _, w1) => some (Res.ret .undefined, w1)) = _
    have h3 : call (n + 3) (.onReject (orIdent .notFn) (w0.heap.length + 1)) [e] wa =
        handler (call (n + 2)) (orIdent .notFn) (w0.heap.length + 1) e wa := rfl
    rw [h3, hh]
  have hsa : stateOf w0.heap.length wa = some .rejected := by
    rw [← hwa]; exact stateOf_assign _ _ _ _ _ hp
  refine ⟨_, hcall, hfst, ?_, ?_, ?_, ?_, ?_⟩
  · rw [stateOf_assign_ne _ _ _ _ _ _ hqa (Nat.ne_of_lt (Nat.lt_succ_self _))]; exact hsa
  · rw [valueOf_assign_ne _ _ _ _ _ _ hqa (Nat.ne_of_lt (Nat.lt_succ_self _))]; exact hva
  · exact stateOf_assign _ _ _ _ _ hqa
  · exact valueOf_assign _ _ _ _ _ hqa
  · rw [← hlog1, ← hwa]; rfl

/-- C5 at `e = "e"` and `onSuccess` a function that returns `undefined`, in the
empty world. -/
theorem C5_default_failure_resolves_successor_witness :
    (Val.str "e").asPromise = none ∧
    (∃ w2, call (0 + 4) (.reject World.empty.heap.length) [.str "e"]
        (then_ World.empty.heap.length (noop 7) .notFn (alloc World.empty).2).2 =
          some (.ret .undefined, w2) ∧
      (then_ World.empty.heap.length (noop 7) .notFn (alloc World.empty).2).1 =
        World.empty.heap.length + 1 ∧
      stateOf World.empty.heap.length w2 = some .rejected ∧
      valueOf World.empty.heap.length w2 = .str "e" ∧
      stateOf (World.empty.heap.length + 1) w2 = some .resolved ∧
      valueOf (World.empty.heap.length + 1) w2 = .str "e" ∧ w2.log = World.empty.log) ∧
    (∃ w1, staticReject (0 + 1) (.str "e") World.empty = some (.ok 0, w1) ∧
      stateOf 0 w1 = some .rejected ∧ valueOf 0 w1 = .str "e" ∧
      (then_ 0 (noop 7) .notFn w1).1 = 1 ∧
      (then_ 0 (noop 7) .notFn w1).2.log = [] ∧
      stateOf 1 (then_ 0 (noop 7) .notFn w1).2 = some .pending) :=
  ⟨rfl, C5_default_failure_resolves_successor World.empty (noop 7) (.str "e") rfl 0⟩

/-! ## C3: the queue of a pending instance is drained in registration order -/

theorem quiet_then_self (p : PId) (f g : Fn) (w : World) (h : Quiet p w) :
    Quiet p (then_ p f g w).2 := by
  refine ⟨by rw [length_then]; exact Nat.lt_succ_of_lt h.1, ?_⟩
  intro i pi hb hi
  rw [get_then] at hi
  cases ha : (alloc w).2.heap[i]? with
  | none => simp [ha] at hi
  | some pa =>
    rw [ha] at hi
    have hne : ¬ i = p := Nat.ne_of_gt hb
    simp only [Option.map_some', hne, if_false, Option.some.injEq] at hi
    subst hi
    exact (quiet_alloc p w h).2 i pa hb ha

theorem userCall_quiet (p : PId) (m : Nat) (id : Nat) (body : List Val → Outcome)
    (args : List Val) (w : World) (rr : Res) (wu : World) (hQ : Quiet p w)
    (h : userCall (call m) id body args w = some (rr, wu)) :
    Quiet p wu ∧ wu.log = w.log ++ [(id, args)] := by
  have hQt : Quiet p (trace id args w) := hQ
  unfold userCall at h
  cases hb : body args with
  | ret x =>
    rw [hb] at h
    simp only [Option.some.injEq, Prod.mk.injEq] at h
    rw [← h.2]; exact ⟨hQt, rfl⟩
  | raise x =>
    rw [hb] at h
    simp only [Option.some.injEq, Prod.mk.injEq] at h
    rw [← h.2]; exact ⟨hQt, rfl⟩
  | retResolve x =>
    rw [hb] at h
    simp only at h
    cases hs : staticSettle (call m) .resolved x (trace id args w) with
    | none => simp [hs] at h
    | some z =>
      rw [hs] at h
      obtain ⟨ex, w3⟩ := z
      obtain ⟨hI3, hR3⟩ := staticSettle_sound (rule_quiet p) (call_sound (rule_quiet p) m)
        _ _ _ hQt _ _ hs
      cases ex <;>
      · simp only [Option.some.injEq, Prod.mk.injEq] at h
        rw [← h.2]; exact ⟨hI3, hR3⟩
  | retReject x =>
    rw [hb] at h
    simp only at h
    cases hs : staticSettle (call m) .rejected x (trace id args w) with
    | none => simp [hs] at h
    | some z =>
      rw [hs] at h
      obtain ⟨ex, w3⟩ := z
      obtain ⟨hI3, hR3⟩ := staticSettle_sound (rule_quiet p) (call_sound (rule_quiet p) m)
        _ _ _ hQt _ _ hs
      cases ex <;>
      · simp only [Option.some.injEq, Prod.mk.injEq] at h
        rw [← h.2]; exact ⟨hI3, hR3⟩

theorem call_mkHandler (n : Nat) (k : Bool) (cb : Fn) (q : PId) (a : List Val) (w : World) :
    call (n + 1) (mkHandler k cb q) a w = handler (call n) cb q (arg0 a) w := by
  cases k <;> rfl

theorem handler_traced (p q : PId) (hpq : p < q) (k : Bool) (id : Nat)
    (body : List Val → Outcome) (v : Val) (n : Nat) (w : World) (r : Res) (w1 : World)
    (hQ : Quiet p w) (h : call n (mkHandler k (.user id body) q) [v] w = some (r, w1)) :
    (∃ x, r = .ret x) ∧ w1.log = w.log ++ [(id, [v])] ∧ Quiet p w1 := by
  have hres : (Fn.resolve q).above p = true := by simp [Fn.above, hpq]
  have hrej : (Fn.reject q).above p = true := by simp [Fn.above, hpq]
  cases n with
  | zero => simp [call] at h
  | succ m =>
    rw [call_mkHandler] at h
    unfold handler at h
    cases hc : call m (.user id body) [arg0 [v]] w with
    | none => simp [hc] at h
    | some y =>
      rw [hc] at h
      obtain ⟨rr, wu⟩ := y
      cases m with
      | zero => simp [call] at hc
      | succ m1 =>
        obtain ⟨hQu, hlu⟩ := userCall_quiet p m1 id body _ w rr wu hQ hc
        have hlu2 : wu.log = w.log ++ [(id, [v])] := hlu
        cases rr with
        | throw e =>
          simp only at h
          obtain ⟨hI, hR, hN⟩ := call_sound (rule_quiet p) _ _ _ _ _ _ hrej hQu h
          exact ⟨hN rfl, by rw [hR, hlu2], hI⟩
        | ret x =>
          simp only at h
          cases hx : x.asPromise with
          | some xp =>
            rw [hx] at h
            simp only [Option.some.injEq, Prod.mk.injEq] at h
            rw [← h.1, ← h.2]
            refine ⟨⟨_, rfl⟩, by rw [log_then, hlu2], ?_⟩
            exact quiet_then p xp _ _ wu hQu (by simpa [orIdent, Fn.isFunction] using hres)
              (by simpa [orIdent, Fn.isFunction] using hrej)
          | none =>
            rw [hx] at h
            simp only at h
            cases hc2 : call (m1 + 1) (.resolve q) [x] wu with
            | none => simp [hc2] at h
            | some z =>
              rw [hc2] at h
              obtain ⟨rr2, w3⟩ := z
              obtain ⟨hI, hR, hN⟩ := call_sound (rule_quiet p) _ _ _ _ _ _ hres hQu hc2
              obtain ⟨x2, hx2⟩ := hN rfl
              subst hx2
              simp only [Option.some.injEq, Prod.mk.injEq] at h
              rw [← h.1, ← h.2]
              exact ⟨⟨_, rfl⟩, by rw [hR, hlu2], hI⟩

theorem drain_traced (p : PId) (k : Bool) (v : Val) (n : Nat)
    (regs : List (Nat × (List Val → Outcome) × Fn)) (hs : List Fn)
    (hF : List.Forall₂ (fun r h => ∃ q, p < q ∧ h = mkHandler k (.user r.1 r.2.1) q) regs hs)
    (w : World) (r : Res) (w2 : World) (hQ : Quiet p w)
    (hv : ∃ prp, w.heap[p]? = some prp ∧ prp.state ≠ .pending ∧ prp.value = v)
    (h : forEachFn (call n) p hs w = some (r, w2)) :
    r = .ret .undefined ∧ w2.log = w.log ++ regs.map (fun r => (r.1, [v])) ∧ Quiet p w2 := by
  induction hF generalizing w with
  | nil =>
    simp only [forEachFn, Option.some.injEq, Prod.mk.injEq] at h
    rw [← h.1, ← h.2]
    exact ⟨rfl, by simp, hQ⟩
  | @cons reg hd regs tl hhd _ ih =>
    obtain ⟨q, hpq, rfl⟩ := hhd
    obtain ⟨prp, hprp, hsp, hvp⟩ := hv
    have hval : valueOf p w = v := by simp [valueOf, hprp, hvp]
    have hfun : (mkHandler k (.user reg.1 reg.2.1) q).isFunction = true := by
      cases k <;> rfl
    simp only [forEachFn, hfun, if_true, hval] at h
    cases hc : call n (mkHandler k (.user reg.1 reg.2.1) q) [v] w with
    | none => simp [hc] at h
    | some y =>
      rw [hc] at h
      obtain ⟨rr, w1⟩ := y
      obtain ⟨⟨x, hx⟩, hl1, hQ1⟩ := handler_traced p q hpq k _ _ v n w rr w1 hQ hc
      subst hx
      simp only at h
      obtain ⟨pr1, hp1, hst1, -⟩ := (call_grows _ _ _ _ _ _ hc).2.1 p prp hprp
      have hv1 : ∃ prp, w1.heap[p]? = some prp ∧ prp.state ≠ .pending ∧ prp.value = v :=
        ⟨pr1, hp1, by rw [(hst1 hsp).1]; exact hsp, by rw [(hst1 hsp).2]; exact hvp⟩
      obtain ⟨hr, hl2, hQ2⟩ := ih w1 hQ1 hv1 h
      refine ⟨hr, ?_, hQ2⟩
      rw [hl2, hl1]
      simp

theorem thenEach_queue (p : PId) (k : Bool) (regs : List (Nat × (List Val → Outcome) × Fn))
    (w : World) (pr : Promise) (hp : w.heap[p]? = some pr) (hQ : Quiet p w) :
    ∃ pr1 hs, (thenEach p (regs.map (regArgs k)) w).heap[p]? = some pr1 ∧
      pr1.state = pr.state ∧ queueOf k pr1 = queueOf k pr ++ hs ∧
      List.Forall₂ (fun r h => ∃ q, p < q ∧ h = mkHandler k (.user r.1 r.2.1) q) regs hs ∧
      Quiet p (thenEach p (regs.map (regArgs k)) w) ∧
      (thenEach p (regs.map (regArgs k)) w).log = w.log := by
  induction regs generalizing w pr with
  | nil => exact ⟨pr, [], hp, rfl, by simp, List.Forall₂.nil, hQ, rfl⟩
  | cons reg regs ih =>
    simp only [List.map_cons, thenEach]
    have hget : (then_ p (regArgs k reg).1 (regArgs k reg).2 w).2.heap[p]? =
        some { pr with
          resolveFns := pr.resolveFns ++ [.onResolve (orIdent (regArgs k reg).1) w.heap.length],
          rejectFns := pr.rejectFns ++ [.onReject (orIdent (regArgs k reg).2) w.heap.length] } := by
      rw [get_then, get_alloc_old w p pr hp]
      simp
    obtain ⟨pr1, hs, h1, h2, h3, h4, h5, h6⟩ := ih _ _ hget (quiet_then_self p _ _ w hQ)
    refine ⟨pr1, mkHandler k (.user reg.1 reg.2.1) w.heap.length :: hs, h1, h2, ?_,
      List.Forall₂.cons ⟨_, hQ.1, rfl⟩ h4, h5, h6.trans (log_then _ _ _ _)⟩
    rw [h3]
    cases k <;> simp [queueOf, regArgs, mkHandler, orIdent, Fn.isFunction]

/-- C3 (pre-settlement callback ordering): on a newly constructed pending
instance `p`, after one `then` call for each of the caller-supplied functions
`regs` (for outcome `k`: `true` for success, `false` for failure; whatever the
functions do, a throw included, and whatever is given for the opposite
outcome), the first call of the capability of kind `k` with `v` returns
normally and extends the trace by exactly one call of each function, in
registration order, each with the single argument `v`: no continuation of the
opposite outcome is called. -/
theorem C3_queue_drained_in_order (w0 : World) (k : Bool) (v : Val)
    (regs : List (Nat × (List Val → Outcome) × Fn)) :
    ∃ n w2, call n (cap k w0.heap.length) [v]
        (thenEach w0.heap.length (regs.map (regArgs k)) (alloc w0).2) =
          some (.ret .undefined, w2) ∧
      w2.log = w0.log ++ regs.map (fun r => (r.1, [v])) ∧
      stateOf w0.heap.length w2 = some (kindSt k) ∧ valueOf w0.heap.length w2 = v := by
  have hQ0 : Quiet w0.heap.length (alloc w0).2 := by
    refine ⟨by simp [heap_alloc], ?_⟩
    intro i pi hi hget
    rcases get_alloc w0 i pi hget with h1 | ⟨h1, -⟩
    · exact absurd (lt_of_get _ _ _ h1) (Nat.not_lt.mpr (Nat.le_of_lt hi))
    · exact absurd hi (by rw [h1]; exact Nat.lt_irrefl _)
  obtain ⟨pr1, hs, hp1, hst1, hq1, hF, hQ1, hlog1⟩ :=
    thenEach_queue w0.heap.length k regs (alloc w0).2 _ (get_alloc_new w0) hQ0
  have hq2 : queueOf k pr1 = hs := by rw [hq1]; cases k <;> simp [queueOf, Promise.fresh]
  obtain ⟨n, r, w2, hcall⟩ := call_terminates (cap k w0.heap.length) [v]
    (thenEach w0.heap.length (regs.map (regArgs k)) (alloc w0).2)
  cases n with
  | zero => simp [call] at hcall
  | succ n =>
    have hset := hcall
    rw [call_cap, settle_pending _ _ _ _ _ _ hp1 hst1] at hset
    have hqueue : (if kindSt k = .resolved then pr1.resolveFns else pr1.rejectFns) = hs := by
      rw [← hq2]; cases k <;> simp [kindSt, queueOf]
    rw [hqueue] at hset
    have hQa := quiet_assign w0.heap.length w0.heap.length pr1 (kindSt k) (arg0 [v]) _ hp1 hQ1
    have hva : ∃ prp, (assign w0.heap.length pr1 (kindSt k) (arg0 [v])
        (thenEach w0.heap.length (regs.map (regArgs k)) (alloc w0).2)).heap[w0.heap.length]? =
          some prp ∧ prp.state ≠ .pending ∧ prp.value = v := by
      exact ⟨{ pr1 with state := kindSt k, value := arg0 [v] },
        by rw [get_assign _ _ _ _ _ hp1]; simp, kindSt_ne k, rfl⟩
    obtain ⟨hr, hl, -⟩ := drain_traced w0.heap.length k v n regs hs hF _ r w2 hQa hva hset
    subst hr
    obtain ⟨prp, hprp, hsp, hvp⟩ := hva
    obtain ⟨pr2, hp2, hst2, -⟩ :=
      (forEachFn_sound rule_grows (call_sound rule_grows n) False w0.heap.length hs
        (fun _ _ _ => ⟨trivial, fun hf => hf.elim⟩) _ trivial _ w2 hset).2.1.2.1 _ prp hprp
    refine ⟨n + 1, w2, hcall, ?_, ?_, ?_⟩
    · rw [hl]
      show (thenEach w0.heap.length (regs.map (regArgs k)) (alloc w0).2).log ++ _ = _
      rw [hlog1]; rfl
    · have hps : prp.state = kindSt k := by
        rw [get_assign _ _ _ _ _ hp1] at hprp
        simp at hprp
        rw [← hprp]
      simp [stateOf, hp2, (hst2 hsp).1, hps]
    · simp [valueOf, hp2, (hst2 hsp).2, hvp]

/-! ## C9, C10: the handler pushed by `then` is reached with its successor pending -/

theorem avoids_of_below (n : Nat) (f : Fn) (h : f.capturesBelow n = true) :
    f.avoids n = true := by
  induction f with
  | notFn => rfl
  | user id body => rfl
  | resolve p =>
    simp only [Fn.capturesBelow, decide_eq_true_eq] at h
    simp only [Fn.avoids, decide_eq_true_eq]
    exact Nat.ne_of_lt h
  | reject p =>
    simp only [Fn.capturesBelow, decide_eq_true_eq] at h
    simp only [Fn.avoids, decide_eq_true_eq]
    exact Nat.ne_of_lt h
  | ident => rfl
  | onResolve cb q ih =>
    simp only [Fn.capturesBelow, Bool.and_eq_true, decide_eq_true_eq] at h
    simp only [Fn.avoids, Bool.and_eq_true, decide_eq_true_eq]
    exact ⟨ih h.1, Nat.ne_of_lt h.2⟩
  | onReject cb q ih =>
    simp only [Fn.capturesBelow, Bool.and_eq_true, decide_eq_true_eq] at h
    simp only [Fn.avoids, Bool.and_eq_true, decide_eq_true_eq]
    exact ⟨ih h.1, Nat.ne_of_lt h.2⟩
  | finThen fin ih => exact ih h
  | finCatch fin ih => exact ih h
  | konst v => rfl
  | allThen i len agg cnt =>
    simp only [Fn.capturesBelow, decide_eq_true_eq] at h
    simp only [Fn.avoids, decide_eq_true_eq]
    exact Nat.ne_of_lt h
  | allCatch agg =>
    simp only [Fn.capturesBelow, decide_eq_true_eq] at h
    simp only [Fn.avoids, decide_eq_true_eq]
    exact Nat.ne_of_lt h

theorem forEachFn_append (c : Fn → List Val → World → Option (Res × World)) (p : PId)
    (xs ys : List Fn) (w : World) :
    forEachFn c p (xs ++ ys) w =
      match forEachFn c p xs w with
      | none => none
      | some (.throw e, w1) => some (.throw e, w1)
      | some (.ret _, w1) => forEachFn c p ys w1 := by
  induction xs generalizing w with
  | nil => simp [forEachFn]
  | cons x xs ih =>
    simp only [List.cons_append, forEachFn]
    by_cases hx : x.isFunction = true
    · simp only [hx, if_true]
      cases hc : c x [valueOf p w] w with
      | none => rfl
      | some y =>
        obtain ⟨rr, w1⟩ := y
        cases rr with
        | throw e => rfl
        | ret v => exact ih w1
    · simp only [hx]
      exact ih w

theorem get_then_other (x i : PId) (f g : Fn) (w : World) (pi : Promise) (hne : i ≠ x)
    (h : (then_ x f g w).2.heap[i]? = some pi) :
    w.heap[i]? = some pi ∨ (i = w.heap.length ∧ pi = Promise.fresh) := by
  rw [get_then] at h
  cases ha : (alloc w).2.heap[i]? with
  | none => simp [ha] at h
  | some pa =>
    rw [ha] at h
    simp only [Option.map_some', hne, if_false, Option.some.injEq] at h
    subst h
    exact get_alloc w i pa ha

/-- After `then(f, g)` on a pending instance `p` of a safe, well-formed world,
a call of a settle capability of `p` returns normally, and on its way it calls
the handler that `then` pushed, in a world where the successor is pending; the
world that call leaves is the final one. -/
theorem then_settle_reaches (w : World) (p : PId) (pr : Promise) (hp : w.heap[p]? = some pr)
    (hs : pr.state = .pending) (hsafe : Safe w) (hwf : WellFormed w) (f g : Fn) (k : Bool)
    (v : Val) :
    ∃ n w2 m r wb, call n (cap k p) [v] (then_ p f g w).2 = some (.ret .undefined, w2) ∧
      call m (mkHandler k (contOf k f g) w.heap.length) [v] wb = some (r, w2) ∧
      ∃ prq, wb.heap[w.heap.length]? = some prq ∧ prq.state = .pending := by
  have hpl : p < w.heap.length := lt_of_get _ _ _ hp
  have hqp : w.heap.length ≠ p := Nat.ne_of_gt hpl
  have hp1 : (then_ p f g w).2.heap[p]? =
      some { pr with
        resolveFns := pr.resolveFns ++ [.onResolve (orIdent f) w.heap.length],
        rejectFns := pr.rejectFns ++ [.onReject (orIdent g) w.heap.length] } := by
    rw [get_then, get_alloc_old w p pr hp]; simp
  have hq1 : (then_ p f g w).2.heap[w.heap.length]? = some Promise.fresh := by
    rw [get_then, get_alloc_new]; simp [hqp]
  obtain ⟨n, r, w2, hcall⟩ := call_terminates (cap k p) [v] (then_ p f g w).2
  cases n with
  | zero => simp [call] at hcall
  | succ n =>
    have hset := hcall
    rw [call_cap, settle_pending _ _ _ _ _ _ hp1 hs] at hset
    have hqueue : (if kindSt k = .resolved
        then pr.resolveFns ++ [Fn.onResolve (orIdent f) w.heap.length]
        else pr.rejectFns ++ [Fn.onReject (orIdent g) w.heap.length]) =
        queueOf k pr ++ [mkHandler k (contOf k f g) w.heap.length] := by
      cases k <;> simp [kindSt, queueOf, mkHandler, contOf]
    simp only [hqueue] at hset
    generalize hwa : assign p _ (kindSt k) (arg0 [v]) (then_ p f g w).2 = wa at hset
    have hpa : wa.heap[p]? = some
        { state := kindSt k, value := v,
          resolveFns := pr.resolveFns ++ [.onResolve (orIdent f) w.heap.length],
          rejectFns := pr.rejectFns ++ [.onReject (orIdent g) w.heap.length] } := by
      rw [← hwa, get_assign _ _ _ _ _ hp1]; simp [arg0]
    have hqa : wa.heap[w.heap.length]? = some Promise.fresh := by
      rw [← hwa, get_assign _ _ _ _ _ hp1]; simp [hqp, hq1]
    have hsafea : Safe wa := by
      rw [← hwa]; exact safe_assign _ _ _ _ _ hp1 (safe_then p f g w hsafe)
    have hunr : Unreached w.heap.length wa := by
      refine ⟨by rw [← hwa, length_assign, length_then]; exact Nat.lt_succ_self _, ?_⟩
      intro i pi hi hsi h hh
      by_cases hip : i = p
      · subst hip
        rw [hpa] at hi
        cases hi
        exact absurd hsi (kindSt_ne k)
      · rw [← hwa, get_assign _ _ _ _ _ hp1] at hi
        simp only [hip, if_false] at hi
        rcases get_then_other p i f g w pi hip hi with h1 | ⟨-, h2⟩
        · exact avoids_of_below _ _ (hwf i pi h1 h hh)
        · subst h2; simp [Promise.fresh] at hh
    have hmemq : ∀ h ∈ queueOf k pr, h ∈ pr.resolveFns ++ pr.rejectFns := by
      intro h hh
      cases k
      · exact List.mem_append_right _ hh
      · exact List.mem_append_left _ hh
    rw [forEachFn_append] at hset
    cases hpre : forEachFn (call n) p (queueOf k pr) wa with
    | none => simp [hpre] at hset
    | some y =>
      rw [hpre] at hset
      obtain ⟨rb, wb⟩ := y
      obtain ⟨hsafeb, -, hretb⟩ := forEachFn_sound rule_safe (call_sound rule_safe n) True p
        (queueOf k pr) (fun h hh _ => ⟨trivial, fun _ => hsafe p pr hp h (hmemq h hh)⟩)
        wa hsafea rb wb hpre
      obtain ⟨-, hsame, -⟩ := forEachFn_sound (rule_unreached w.heap.length)
        (call_sound (rule_unreached w.heap.length) n) False p (queueOf k pr)
        (fun h hh _ => ⟨avoids_of_below _ _ (hwf p pr hp h (hmemq h hh)), fun hf => hf.elim⟩)
        wa hunr rb wb hpre
      have hgrow := (forEachFn_sound rule_grows (call_sound rule_grows n) False p (queueOf k pr)
        (fun _ _ _ => ⟨trivial, fun hf => hf.elim⟩) wa trivial rb wb hpre).2.1
      obtain ⟨xb, hxb⟩ := hretb trivial
      subst hxb
      simp only at hset
      -- the instance `p` still holds the value `v`
      obtain ⟨prb, hpb, hstb, -⟩ := hgrow.2.1 p _ hpa
      have hvalb : valueOf p wb = v := by
        simp [valueOf, hpb, (hstb (kindSt_ne k)).2]
      -- the successor is still pending
      have hqb : ∃ prq, wb.heap[w.heap.length]? = some prq ∧ prq.state = .pending := by
        have h1 := hsame.1
        simp only [stateOf, hqa, Option.map_some'] at h1
        cases hq : wb.heap[w.heap.length]? with
        | none => simp [hq] at h1
        | some prq =>
          rw [hq] at h1
          simp only [Option.map_some', Option.some.injEq] at h1
          exact ⟨prq, rfl, h1⟩
      have hfun : (mkHandler k (contOf k f g) w.heap.length).isFunction = true := by
        cases k <;> rfl
      simp only [forEachFn, hfun, if_true, hvalb] at hset
      cases hc : call n (mkHandler k (contOf k f g) w.heap.length) [v] wb with
      | none => simp [hc] at hset
      | some z =>
        rw [hc] at hset
        obtain ⟨r1, w3⟩ := z
        have hg : (mkHandler k (contOf k f g) w.heap.length).isGuarded = true := by
          cases k <;> rfl
        obtain ⟨x1, hx1⟩ := (call_safe n _ _ wb r1 w3 hsafeb hc).2 hg
        subst hx1
        simp only [Option.some.injEq, Prod.mk.injEq] at hset
        obtain ⟨hr, hw⟩ := hset
        subst hr
        subst hw
        exact ⟨n + 1, w3, n, _, wb, hcall, hc, hqb⟩

theorem status_of_grows (q : PId) (st : St) (x : Val) (hst : st ≠ .pending) (w w1 : World)
    (hg : Grows w w1) (pr : Promise) (hq : w.heap[q]? = some pr) (h1 : pr.state = st)
    (h2 : pr.value = x) : stateOf q w1 = some st ∧ valueOf q w1 = x := by
  obtain ⟨pr1, hp1, hs1, -⟩ := hg.2.1 q pr hq
  have := hs1 (by rw [h1]; exact hst)
  simp [stateOf, valueOf, hp1, this.1, this.2, h1, h2]

/-- A handler pushed by `then`, called while its successor `q` is pending, with
a continuation that returns `x`, not an instance: `q` ends resolved with `x`. -/
theorem handler_plain (k : Bool) (cb : Fn) (q : PId) (v x : Val) (m : Nat) (wb : World)
    (r : Res) (w2 : World)
    (hq : ∃ prq, wb.heap[q]? = some prq ∧ prq.state = .pending)
    (hcb : ∀ m wx, ∃ wy, call (m + 1) cb [v] wx = some (.ret x, wy) ∧ wy.heap = wx.heap)
    (hx : x.asPromise = none)
    (h : call m (mkHandler k cb q) [v] wb = some (r, w2)) :
    stateOf q w2 = some .resolved ∧ valueOf q w2 = x := by
  obtain ⟨prq, hprq, hsq⟩ := hq
  cases m with
  | zero => simp [call] at h
  | succ m1 =>
    rw [call_mkHandler] at h
    cases m1 with
    | zero => simp [handler, call] at h
    | succ m2 =>
      obtain ⟨wy, hy, hheap⟩ := hcb m2 wb
      unfold handler at h
      have harg : arg0 [v] = v := rfl
      rw [harg, hy] at h
      simp only [hx] at h
      have hqy : wy.heap[q]? = some prq := by rw [hheap]; exact hprq
      cases hc : call (m2 + 1) (.resolve q) [x] wy with
      | none => simp [hc] at h
      | some z =>
        rw [hc] at h
        obtain ⟨r3, w3⟩ := z
        obtain ⟨pr3, hp3, hs3, hv3⟩ :=
          settle_effect m2 .resolved (by decide) q x wy prq hqy hsq r3 w3 hc
        cases r3 with
        | ret y =>
          simp only [Option.some.injEq, Prod.mk.injEq] at h
          rw [← h.2]
          simp [stateOf, valueOf, hp3, hs3, hv3]
        | throw e =>
          simp only at h
          exact status_of_grows q .resolved x (by decide) w3 w2 (call_grows _ _ _ _ _ _ h)
            pr3 hp3 hs3 hv3

/-- A handler pushed by `then`, called while its successor `q` is pending, with
a continuation that throws `b`: `q` ends rejected with `b`. -/
theorem handler_raise (k : Bool) (cb : Fn) (q : PId) (v b : Val) (m : Nat) (wb : World)
    (r : Res) (w2 : World)
    (hq : ∃ prq, wb.heap[q]? = some prq ∧ prq.state = .pending)
    (hcb : ∀ m wx, ∃ wy, call (m + 1) cb [v] wx = some (.throw b, wy) ∧ wy.heap = wx.heap)
    (h : call m (mkHandler k cb q) [v] wb = some (r, w2)) :
    stateOf q w2 = some .rejected ∧ valueOf q w2 = b := by
  obtain ⟨prq, hprq, hsq⟩ := hq
  cases m with
  | zero => simp [call] at h
  | succ m1 =>
    rw [call_mkHandler] at h
    cases m1 with
    | zero => simp [handler, call] at h
    | succ m2 =>
      obtain ⟨wy, hy, hheap⟩ := hcb m2 wb
      unfold handler at h
      have harg : arg0 [v] = v := rfl
      rw [harg, hy] at h
      simp only at h
      have hqy : wy.heap[q]? = some prq := by rw [hheap]; exact hprq
      obtain ⟨pr3, hp3, hs3, hv3⟩ :=
        settle_effect m2 .rejected (by decide) q b wy prq hqy hsq r w2 h
      simp [stateOf, valueOf, hp3, hs3, hv3]

/-- C9 (continuation returning a plain value): in a safe, well-formed world,
for an instance `p` that is pending when `then(f, g)` is called and on which a
settle capability of kind `k` is called with `v` afterwards: if the
continuation stored for that outcome (the argument, or the identity default)
returns `x` without throwing and `x` is not an instance, the call of the
capability returns normally and the successor is resolved with `x`. -/
theorem C9_plain_value_resolves_successor (w : World) (p : PId) (pr : Promise)
    (hp : w.heap[p]? = some pr) (hs : pr.state = .pending) (hsafe : Safe w)
    (hwf : WellFormed w) (f g : Fn) (k : Bool) (v x : Val)
    (hcb : ∀ m wx, ∃ wy, call (m + 1) (contOf k f g) [v] wx = some (.ret x, wy) ∧
      wy.heap = wx.heap)
    (hx : x.asPromise = none) :
    ∃ n w2, call n (cap k p) [v] (then_ p f g w).2 = some (.ret .undefined, w2) ∧
      stateOf (then_ p f g w).1 w2 = some .resolved ∧ valueOf (then_ p f g w).1 w2 = x := by
  obtain ⟨n, w2, m, r, wb, hcall, hh, hq⟩ := then_settle_reaches w p pr hp hs hsafe hwf f g k v
  exact ⟨n, w2, hcall, handler_plain k _ _ v x m wb r w2 hq hcb hx hh⟩

/-- C10 (continuation that raises): in a safe, well-formed world, for an
instance `p` that is pending when `then(f, g)` is called and on which a settle
capability of kind `k` is called with `v` afterwards: if the continuation
stored for that outcome throws `b`, the call of the capability returns
normally, so the throw does not reach its caller, and the successor is
rejected with `b`. -/
theorem C10_raise_rejects_successor (w : World) (p : PId) (pr : Promise)
    (hp : w.heap[p]? = some pr) (hs : pr.state = .pending) (hsafe : Safe w)
    (hwf : WellFormed w) (f g : Fn) (k : Bool) (v b : Val)
    (hcb : ∀ m wx, ∃ wy, call (m + 1) (contOf k f g) [v] wx = some (.throw b, wy) ∧
      wy.heap = wx.heap) :
    ∃ n w2, call n (cap k p) [v] (then_ p f g w).2 = some (.ret .undefined, w2) ∧
      stateOf (then_ p f g w).1 w2 = some .rejected ∧ valueOf (then_ p f g w).1 w2 = b := by
  obtain ⟨n, w2, m, r, wb, hcall, hh, hq⟩ := then_settle_reaches w p pr hp hs hsafe hwf f g k v
  exact ⟨n, w2, hcall, handler_raise k _ _ v b m wb r w2 hq hcb hh⟩

theorem safe_worldChained : Safe worldChained :=
  safe_then _ _ _ _ (safe_alloc _ (fun p pr hp => by simp [World.empty] at hp))

theorem heap_worldChained : worldChained.heap =
    [⟨.pending, .undefined, [.onResolve (noop 3) 1], [.onReject .ident 1]⟩, Promise.fresh] :=
  rfl

theorem wellFormed_worldChained : WellFormed worldChained := by
  intro p pr hp h hh
  rw [heap_worldChained] at hp ⊢
  match p with
  | 0 =>
    simp only [List.getElem?_cons_zero, Option.some.injEq] at hp
    subst hp
    simp only [List.mem_append, List.mem_singleton] at hh
    rcases hh with hh | hh <;> subst hh <;> rfl
  | 1 =>
    simp only [List.getElem?_cons_succ, List.getElem?_cons_zero, Option.some.injEq] at hp
    subst hp
    simp [Promise.fresh] at hh
  | n + 2 => simp at hp

/-- C9 at a concrete input: instance 0 of `worldChained`, `then(f)` with
`f = () => 10`, then `resolve(5)`. -/
theorem C9_plain_value_resolves_successor_witness :
    Safe worldChained ∧ WellFormed worldChained ∧
    ∃ n w2, call n (cap true 0) [.num 5]
        (then_ 0 (.user 7 (fun _ => .ret (.num 10))) .notFn worldChained).2 =
          some (.ret .undefined, w2) ∧
      stateOf (then_ 0 (.user 7 (fun _ => .ret (.num 10))) .notFn worldChained).1 w2 =
        some .resolved ∧
      valueOf (then_ 0 (.user 7 (fun _ => .ret (.num 10))) .notFn worldChained).1 w2 =
        .num 10 :=
  ⟨safe_worldChained, wellFormed_worldChained,
    C9_plain_value_resolves_successor worldChained 0 _ rfl rfl safe_worldChained
      wellFormed_worldChained (.user 7 (fun _ => .ret (.num 10))) .notFn true (.num 5) (.num 10)
      (fun _ wx => ⟨trace 7 [.num 5] wx, rfl, rfl⟩) rfl⟩

/-- C10 at a concrete input: instance 0 of `worldChained`, `then(f)` with
`f = () => { throw "boom" }`, then `resolve(5)`. -/
theorem C10_raise_rejects_successor_witness :
    Safe worldChained ∧ WellFormed worldChained ∧
    ∃ n w2, call n (cap true 0) [.num 5]
        (then_ 0 (.user 7 (fun _ => .raise (.str "boom"))) .notFn worldChained).2 =
          some (.ret .undefined, w2) ∧
      stateOf (then_ 0 (.user 7 (fun _ => .raise (.str "boom"))) .notFn worldChained).1 w2 =
        some .rejected ∧
      valueOf (then_ 0 (.user 7 (fun _ => .raise (.str "boom"))) .notFn worldChained).1 w2 =
        .str "boom" :=
  ⟨safe_worldChained, wellFormed_worldChained,
    C10_raise_rejects_successor worldChained 0 _ rfl rfl safe_worldChained
      wellFormed_worldChained (.user 7 (fun _ => .raise (.str "boom"))) .notFn true (.num 5)
      (.str "boom") (fun _ wx => ⟨trace 7 [.num 5] wx, rfl, rfl⟩)⟩

/-! ## C15, C12: the static constructors and a setup routine that throws -/

theorem stateOf_settledNew (st : St) (v : Val) (w : World) :
    stateOf w.heap.length (settledNew st v w) = some st :=
  stateOf_assign _ _ _ _ _ (get_alloc_new w)

theorem valueOf_settledNew (st : St) (v : Val) (w : World) :
    valueOf w.heap.length (settledNew st v w) = v :=
  valueOf_assign _ _ _ _ _ (get_alloc_new w)

/-- C15 (static constructors): in every world and for every value `v`, an
instance included, `MyPromise.resolve(v)` returns normally a new instance whose
state is `'resolved'` and whose value is `v` itself; for every `e`,
`MyPromise.reject(e)` returns normally a new instance whose state is
`'rejected'` and whose value is `e`. -/
theorem C15_static_constructors (n : Nat) (v e : Val) (w : World) :
    (∃ w1, staticResolve (n + 1) v w = some (.ok w.heap.length, w1) ∧
      stateOf w.heap.length w1 = some .resolved ∧ valueOf w.heap.length w1 = v) ∧
    (∃ w2, staticReject (n + 1) e w = some (.ok w.heap.length, w2) ∧
      stateOf w.heap.length w2 = some .rejected ∧ valueOf w.heap.length w2 = e) :=
  ⟨⟨_, staticSettle_fresh n .resolved (by decide) v w, stateOf_settledNew _ _ _,
      valueOf_settledNew _ _ _⟩,
    ⟨_, staticSettle_fresh n .rejected (by decide) e w, stateOf_settledNew _ _ _,
      valueOf_settledNew _ _ _⟩⟩

theorem construct_thenExecutor (c : Fn → List Val → World → Option (Res × World))
    (self : PId) (f g : Fn) (w : World) :
    construct c (thenExecutor self f g) w =
      some (.ok (then_ self f g w).1, (then_ self f g w).2) := rfl

theorem construct_allExecutor (c : Fn → List Val → World → Option (Res × World))
    (items : List Val) (w : World) :
    construct c (allExecutor items) w = some (.ok (all items w).1, (all items w).2) := rfl

theorem construct_static (c : Fn → List Val → World → Option (Res × World)) (st : St)
    (v : Val) (w : World) :
    construct c (fun q w1 => c (capOf st q) [v] w1) w = staticSettle c st v w := rfl

theorem call_reject_fresh (n : Nat) (b : Val) (w : World) :
    call (n + 1) (.reject w.heap.length) [b] (alloc w).2 =
      some (.ret .undefined, settledNew .rejected b w) :=
  settle_fresh (call n) .rejected b w

/-- C12 (exception in setup): in every world and for every value `b`,
constructing an instance with a setup routine that throws `b` before calling a
capability returns the new instance normally, and that instance is rejected
with `b`. -/
theorem C12_setup_throw_rejects (n : Nat) (b : Val) (w : World) :
    ∃ w1, construct (call (n + 1)) (runExecutor (call (n + 1)) ⟨[], some b⟩) w =
        some (.ok w.heap.length, w1) ∧
      stateOf w.heap.length w1 = some .rejected ∧ valueOf w.heap.length w1 = b := by
  refine ⟨settledNew .rejected b w, ?_, stateOf_settledNew _ _ _, valueOf_settledNew _ _ _⟩
  unfold construct
  simp only [runExecutor, runCapCalls, alloc_fst]
  rw [call_reject_fresh]

/-! ## C20, C13, C18: the aggregate -/

theorem reg_run_eq (r : Reg) (w : World) : ∃ x f g, r.run w = (then_ x f g w).2 := by
  cases r with
  | then_ self f g => exact ⟨self, f, g, rfl⟩
  | catch_ self g => exact ⟨self, .notFn, g, rfl⟩
  | finally_ self fin => exact ⟨self, .finThen fin, .finCatch fin, rfl⟩

theorem runRegs_keeps (q : PId) (regs : List Reg) (w : World) (hq : q < w.heap.length) :
    stateOf q (runRegs regs w) = stateOf q w ∧ valueOf q (runRegs regs w) = valueOf q w ∧
      (runRegs regs w).log = w.log := by
  induction regs generalizing w with
  | nil => exact ⟨rfl, rfl, rfl⟩
  | cons r rs ih =>
    obtain ⟨x, f, g, hr⟩ := reg_run_eq r w
    have hlen : q < (r.run w).heap.length := by
      rw [hr, length_then]; exact Nat.lt_succ_of_lt hq
    obtain ⟨h1, h2, h3⟩ := ih (r.run w) hlen
    have hs := sameStatus_then q x f g w hq
    simp only [runRegs]
    rw [h1, h2, h3, hr]
    exact ⟨hs.1, hs.2, log_then x f g w⟩

theorem allEach_plain (len agg cnt : Nat) (items : List Val)
    (h : ∀ x ∈ items, x.asPromise = none) (i : Nat) (w : World) :
    allEach len agg cnt i items w = w := by
  induction items generalizing i with
  | nil => rfl
  | cons x xs ih =>
    simp only [allEach, h x (List.mem_cons_self _ _)]
    exact ih (fun y hy => h y (List.mem_cons_of_mem _ hy)) (i + 1)

/-- C20 (aggregation over an empty sequence): in every world `all([])` returns
a new instance that is pending, and after any sequence of `then`, `catch` and
`finally` registrations, on it or on any other instance, it is still pending
and no caller-supplied function has been called. -/
theorem C20_all_empty_stays_pending (w : World) (regs : List Reg) :
    (all [] w).1 = w.heap.length ∧
    stateOf w.heap.length (all [] w).2 = some .pending ∧
    stateOf w.heap.length (runRegs regs (all [] w).2) = some .pending ∧
    (runRegs regs (all [] w).2).log = w.log := by
  have h0 : stateOf w.heap.length (all [] w).2 = some .pending := by
    show stateOf w.heap.length (alloc w).2 = _
    simp [stateOf, get_alloc_new, Promise.fresh]
  have hlen : w.heap.length < (all [] w).2.heap.length := by
    show w.heap.length < (alloc w).2.heap.length
    rw [heap_alloc, List.length_append]; exact Nat.lt_succ_self _
  obtain ⟨h1, -, h3⟩ := runRegs_keeps w.heap.length regs (all [] w).2 hlen
  exact ⟨rfl, h0, h1.trans h0, h3⟩

/-- C13 (aggregation over plain entries), evaluated on any sequence of entries
none of which is an instance: `all` returns a new instance that is pending; the
heap holds nothing but that new instance in addition, so no handler was
registered anywhere, and after any sequence of `then`, `catch` and `finally`
registrations the aggregate is still pending.  Also on `all([p0, 5])` with `p0`
pending: after `p0` is resolved with an object the counter is 1, the length is
2, and the aggregate (instance 3) is still pending. -/
theorem C13_all_of_plain_stays_pending (w : World) (items : List Val)
    (h : ∀ x ∈ items, x.asPromise = none) (regs : List Reg) (n : Nat) :
    ((all items w).1 = w.heap.length ∧
      (all items w).2.heap = w.heap ++ [Promise.fresh] ∧
      stateOf w.heap.length (all items w).2 = some .pending ∧
      stateOf w.heap.length (runRegs regs (all items w).2) = some .pending) ∧
    (∃ w2, call (n + 8) (.resolve 0) [.obj 10] (all [.promise 0, .num 5] worldPending3).2 =
        some (.ret .undefined, w2) ∧
      w2.counts = [1] ∧ stateOf 3 w2 = some .pending) := by
  have heq : (all items w).2 = { (alloc w).2 with counts := (alloc w).2.counts ++ [0] } := by
    show allEach _ _ _ _ _ _ = _
    exact allEach_plain _ _ _ items h 0 _
  have h0 : stateOf w.heap.length (all items w).2 = some .pending := by
    rw [heq]
    show stateOf w.heap.length (alloc w).2 = _
    simp [stateOf, get_alloc_new, Promise.fresh]
  have hlen : w.heap.length < (all items w).2.heap.length := by
    rw [heq]
    show w.heap.length < (alloc w).2.heap.length
    rw [heap_alloc, List.length_append]; exact Nat.lt_succ_self _
  refine ⟨⟨rfl, by rw [heq]; rfl, h0, ?_⟩, ⟨_, rfl, rfl, rfl⟩⟩
  exact (runRegs_keeps w.heap.length regs _ hlen).1.trans h0

/-- C13 at the entries `[1, 2, 3]` in the empty world. -/
theorem C13_all_of_plain_stays_pending_witness :
    ((all [.num 1, .num 2, .num 3] World.empty).1 = World.empty.heap.length ∧
      (all [.num 1, .num 2, .num 3] World.empty).2.heap =
        World.empty.heap ++ [Promise.fresh] ∧
      stateOf World.empty.heap.length (all [.num 1, .num 2, .num 3] World.empty).2 =
        some .pending ∧
      stateOf World.empty.heap.length
        (runRegs [.then_ 0 (noop 7) (noop 8)] (all [.num 1, .num 2, .num 3] World.empty).2) =
          some .pending) ∧
    (∃ w2, call (0 + 8) (.resolve 0) [.obj 10] (all [.promise 0, .num 5] worldPending3).2 =
        some (.ret .undefined, w2) ∧
      w2.counts = [1] ∧ stateOf 3 w2 = some .pending) :=
  C13_all_of_plain_stays_pending World.empty [.num 1, .num 2, .num 3]
    (by intro x hx; simp at hx; rcases hx with h | h | h <;> subst h <;> rfl)
    [.then_ 0 (noop 7) (noop 8)] 0

/-- C18 (aggregation over entries that settle later), evaluated on
`all([p0, p1, p2])` with three pending entries (aggregate: instance 3).
Resolving `p0` with the number 1 returns normally and leaves the aggregate
rejected with a TypeError.  With objects `o10`, `o11`, `o12` instead: after
`p0` and `p1` the aggregate is pending, after `p2` it is resolved with `o12`,
the value of the entry that completed last; completing in the order `p2`, `p0`,
`p1` leaves it resolved with `o11`. -/
theorem C18_all_of_pending_entries (n : Nat) :
    (∃ w1, call (n + 8) (.resolve 0) [.num 1]
        (all [.promise 0, .promise 1, .promise 2] worldPending3).2 =
          some (.ret .undefined, w1) ∧
      stateOf 3 w1 = some .rejected ∧ valueOf 3 w1 = .typeError) ∧
    (∃ w1 w2 w3, call (n + 8) (.resolve 0) [.obj 10]
        (all [.promise 0, .promise 1, .promise 2] worldPending3).2 =
          some (.ret .undefined, w1) ∧
      call (n + 8) (.resolve 1) [.obj 11] w1 = some (.ret .undefined, w2) ∧
      stateOf 3 w2 = some .pending ∧
      call (n + 8) (.resolve 2) [.obj 12] w2 = some (.ret .undefined, w3) ∧
      stateOf 3 w3 = some .resolved ∧ valueOf 3 w3 = .obj 12) ∧
    (∃ w1 w2 w3, call (n + 8) (.resolve 2) [.obj 12]
        (all [.promise 0, .promise 1, .promise 2] worldPending3).2 =
          some (.ret .undefined, w1) ∧
      call (n + 8) (.resolve 0) [.obj 10] w1 = some (.ret .undefined, w2) ∧
      call (n + 8) (.resolve 1) [.obj 11] w2 = some (.ret .undefined, w3) ∧
      stateOf 3 w3 = some .resolved ∧ valueOf 3 w3 = .obj 11) :=
  ⟨⟨_, rfl, rfl, rfl⟩, ⟨_, _, _, rfl, rfl, rfl, rfl, rfl, rfl⟩,
    ⟨_, _, _, rfl, rfl, rfl, rfl, rfl⟩⟩

/-! ## C17: `catch` -/

/-- C17 (`catch` is `then` with only a failure continuation): for every
receiver, argument and world, `catch(g)` and `then(undefined, g)` return the
same successor and leave the same world; on an existing receiver both push the
identity on the success queue and `g` (the identity when `g` is not a function)
on the failure queue; hence every later sequence of calls of settle
capabilities of any instance has the same result after either. -/
theorem C17_catch_is_then (self : PId) (g : Fn) (w : World) :
    catch_ self g w = catchSpec self g w ∧
    (catch_ self g w).1 = w.heap.length ∧
    (∀ pr, w.heap[self]? = some pr →
      (catch_ self g w).2.heap[self]? = some
        { pr with resolveFns := pr.resolveFns ++ [.onResolve .ident w.heap.length],
                  rejectFns := pr.rejectFns ++ [.onReject (orIdent g) w.heap.length] } ∧
      (catchSpec self g w).2.heap[self]? = some
        { pr with resolveFns := pr.resolveFns ++ [.onResolve .ident w.heap.length],
                  rejectFns := pr.rejectFns ++ [.onReject (orIdent g) w.heap.length] }) ∧
    (∀ n p cs, runCalls n p cs (catch_ self g w).2 = runCalls n p cs (catchSpec self g w).2) := by
  refine ⟨rfl, rfl, ?_, fun _ _ _ => rfl⟩
  intro pr hp
  have h : (then_ self .notFn g w).2.heap[self]? = some
      { pr with resolveFns := pr.resolveFns ++ [.onResolve .ident w.heap.length],
                rejectFns := pr.rejectFns ++ [.onReject (orIdent g) w.heap.length] } := by
    rw [get_then, get_alloc_old w self pr hp]
    simp [orIdent, Fn.isFunction]
  exact ⟨h, h⟩

/-! ## C14: a `finally` function that throws -/

/-- A handler pushed by `then`, called while its successor `q` is pending, with
a continuation that throws `b` once it has fuel: `q` ends rejected with `b`. -/
theorem handler_raise_gen (k : Bool) (cb : Fn) (q : PId) (v b : Val) (m : Nat) (wb : World)
    (r : Res) (w2 : World)
    (hq : ∃ prq, wb.heap[q]? = some prq ∧ prq.state = .pending)
    (hcb : ∀ wx, ∃ c wy, call c cb [v] wx = some (.throw b, wy) ∧ wy.heap = wx.heap)
    (h : call m (mkHandler k cb q) [v] wb = some (r, w2)) :
    stateOf q w2 = some .rejected ∧ valueOf q w2 = b := by
  obtain ⟨prq, hprq, hsq⟩ := hq
  cases m with
  | zero => simp [call] at h
  | succ m1 =>
    rw [call_mkHandler] at h
    unfold handler at h
    have harg : arg0 [v] = v := rfl
    rw [harg] at h
    cases hc : call m1 cb [v] wb with
    | none => simp [hc] at h
    | some y =>
      obtain ⟨c, wy, hy, hheap⟩ := hcb wb
      have h1 := call_mono (le_max_left m1 c) _ _ _ _ hc
      have h2 := call_mono (le_max_right m1 c) _ _ _ _ hy
      rw [h1] at h2
      simp only [Option.some.injEq] at h2
      subst h2
      rw [hc] at h
      simp only at h
      cases m1 with
      | zero => simp [call] at hc
      | succ m2 =>
        have hqy : wy.heap[q]? = some prq := by rw [hheap]; exact hprq
        obtain ⟨pr3, hp3, hs3, hv3⟩ :=
          settle_effect m2 .rejected (by decide) q b wy prq hqy hsq r w2 h
        simp [stateOf, valueOf, hp3, hs3, hv3]

/-- C14 (`finally` override): in a safe, well-formed world, for an instance `p`
that is pending when `finally(f)` is called and on which a settle capability of
either kind is called with `v` afterwards: if `f`, called with no arguments,
throws `b`, the call of the capability returns normally and the successor
returned by `finally` is rejected with `b`. -/
theorem C14_finally_override (w : World) (p : PId) (pr : Promise)
    (hp : w.heap[p]? = some pr) (hs : pr.state = .pending) (hsafe : Safe w)
    (hwf : WellFormed w) (fin : Fn) (k : Bool) (v b : Val)
    (hfin : ∀ wx, ∃ c wy, call c fin [] wx = some (.throw b, wy) ∧ wy.heap = wx.heap) :
    ∃ n w2, call n (cap k p) [v] (finally_ p fin w).2 = some (.ret .undefined, w2) ∧
      stateOf (finally_ p fin w).1 w2 = some .rejected ∧
      valueOf (finally_ p fin w).1 w2 = b := by
  obtain ⟨n, w2, m, r, wb, hcall, hh, hq⟩ :=
    then_settle_reaches w p pr hp hs hsafe hwf (.finThen fin) (.finCatch fin) k v
  refine ⟨n, w2, hcall, handler_raise_gen k _ _ v b m wb r w2 hq ?_ hh⟩
  intro wx
  obtain ⟨c, wy, hy, hheap⟩ := hfin wx
  refine ⟨c + 1, wy, ?_, hheap⟩
  cases k
  · show finArrow (call c) .rejected fin (arg0 [v]) wx = _
    unfold finArrow
    rw [hy]
  · show finArrow (call c) .resolved fin (arg0 [v]) wx = _
    unfold finArrow
    rw [hy]

/-- C14 at a concrete input: instance 0 of `worldChained`, `finally(f)` with
`f = () => { throw "boom" }`, then `resolve(7)`. -/
theorem C14_finally_override_witness :
    Safe worldChained ∧ WellFormed worldChained ∧
    ∃ n w2, call n (cap true 0) [.num 7]
        (finally_ 0 (.user 9 (fun _ => .raise (.str "boom"))) worldChained).2 =
          some (.ret .undefined, w2) ∧
      stateOf (finally_ 0 (.user 9 (fun _ => .raise (.str "boom"))) worldChained).1 w2 =
        some .rejected ∧
      valueOf (finally_ 0 (.user 9 (fun _ => .raise (.str "boom"))) worldChained).1 w2 =
        .str "boom" :=
  ⟨safe_worldChained, wellFormed_worldChained,
    C14_finally_override worldChained 0 _ rfl rfl safe_worldChained wellFormed_worldChained
      (.user 9 (fun _ => .raise (.str "boom"))) true (.num 7) (.str "boom")
      (fun wx => ⟨1, trace 9 [] wx, rfl, rfl⟩)⟩

/-! ## Draining a queue up to a given handler -/

theorem queueOf_mem (k : Bool) (pr : Promise) (g : Fn) (h : g ∈ queueOf k pr) :
    g ∈ pr.resolveFns ++ pr.rejectFns := by
  cases k
  · exact List.mem_append_right _ h
  · exact List.mem_append_left _ h

theorem queue_eq_queueOf (k : Bool) (pr : Promise) :
    (if kindSt k = .resolved then pr.resolveFns else pr.rejectFns) = queueOf k pr := by
  cases k <;> simp [kindSt, queueOf]

/-- Draining a queue whose last function is `h`, the functions before it
avoiding instance `q`, as do those queued on the other pending instances: the
call of the capability returns normally, and on its way it calls `h` in a
world that is safe, where `q` is still unreached and has the status it had;
the world that call leaves is the final one. -/
theorem settle_reaches_last (w : World) (x q : PId) (prx : Promise)
    (hx : w.heap[x]? = some prx) (hsx : prx.state = .pending) (hsafe : Safe w)
    (hql : q < w.heap.length) (hqx : q ≠ x) (k : Bool) (y : Val) (old : List Fn) (h : Fn)
    (hqueue : queueOf k prx = old ++ [h]) (hold : ∀ g ∈ old, g.avoids q = true)
    (hothers : ∀ (i : PId) (pi : Promise), w.heap[i]? = some pi → pi.state = .pending →
      i ≠ x → ∀ g ∈ pi.resolveFns ++ pi.rejectFns, g.avoids q = true)
    (hfun : h.isFunction = true) :
    ∃ n w3 r wb, call (n + 1) (cap k x) [y] w = some (.ret .undefined, w3) ∧
      call n h [y] wb = some (r, w3) ∧ Safe wb ∧ Unreached q wb ∧ SameStatus q w wb := by
  obtain ⟨n, r, w3, hcall⟩ := call_terminates (cap k x) [y] w
  cases n with
  | zero => simp [call] at hcall
  | succ n =>
    have hset := hcall
    rw [call_cap, settle_pending _ _ _ _ _ _ hx hsx, queue_eq_queueOf, hqueue] at hset
    generalize hwa : assign x prx (kindSt k) (arg0 [y]) w = wa at hset
    have hxa : wa.heap[x]? = some { prx with state := kindSt k, value := y } := by
      rw [← hwa, get_assign _ _ _ _ _ hx]; simp [arg0]
    have hsafea : Safe wa := by rw [← hwa]; exact safe_assign _ _ _ _ _ hx hsafe
    have hsamea : SameStatus q w wa := by
      rw [← hwa]; exact sameStatus_assign q x prx _ _ w hx (fun e => hqx e.symm)
    have hunr : Unreached q wa := by
      refine ⟨by rw [← hwa, length_assign]; exact hql, ?_⟩
      intro i pi hi hsi g hg
      by_cases hix : i = x
      · subst hix
        rw [hxa] at hi
        cases hi
        exact absurd hsi (kindSt_ne k)
      · rw [← hwa, get_assign _ _ _ _ _ hx] at hi
        simp only [hix, if_false] at hi
        exact hothers i pi hi hsi hix g hg
    have hgold : ∀ g ∈ old, g.isGuarded = true := fun g hg =>
      hsafe x prx hx g (queueOf_mem k prx g (by rw [hqueue]; exact List.mem_append_left _ hg))
    have hgh : h.isGuarded = true :=
      hsafe x prx hx h (queueOf_mem k prx h (by rw [hqueue]; simp))
    rw [forEachFn_append] at hset
    cases hpre : forEachFn (call n) x old wa with
    | none => simp [hpre] at hset
    | some z =>
      rw [hpre] at hset
      obtain ⟨rb, wb⟩ := z
      obtain ⟨hsafeb, -, hretb⟩ := forEachFn_sound rule_safe (call_sound rule_safe n) True x
        old (fun g hg _ => ⟨trivial, fun _ => hgold g hg⟩) wa hsafea rb wb hpre
      obtain ⟨hunrb, hsame, -⟩ := forEachFn_sound (rule_unreached q)
        (call_sound (rule_unreached q) n) False x old
        (fun g hg _ => ⟨hold g hg, fun hf => hf.elim⟩) wa hunr rb wb hpre
      have hgrow := (forEachFn_sound rule_grows (call_sound rule_grows n) False x old
        (fun _ _ _ => ⟨trivial, fun hf => hf.elim⟩) wa trivial rb wb hpre).2.1
      obtain ⟨xb, hxb⟩ := hretb trivial
      subst hxb
      simp only at hset
      obtain ⟨prb, hpb, hstb, -⟩ := hgrow.2.1 x _ hxa
      have hvalb : valueOf x wb = y := by
        simp [valueOf, hpb, (hstb (kindSt_ne k)).2]
      simp only [forEachFn, hfun, if_true, hvalb] at hset
      cases hc : call n h [y] wb with
      | none => simp [hc] at hset
      | some z1 =>
        rw [hc] at hset
        obtain ⟨r1, w4⟩ := z1
        obtain ⟨x1, hx1⟩ := (call_safe n _ _ wb r1 w4 hsafeb hc).2 hgh
        subst hx1
        simp only [Option.some.injEq, Prod.mk.injEq] at hset
        obtain ⟨hr, hw⟩ := hset
        subst hr
        subst hw
        exact ⟨n, w4, _, wb, hcall, hc, hsafeb, hunrb,
          ⟨hsame.1.trans hsamea.1, hsame.2.trans hsamea.2⟩⟩

/-- The handler that flattening pushes on a returned instance, called while the
successor `q` it captures is pending: `q` takes the state of the handler's
kind and the value passed. -/
theorem handler_link (k : Bool) (q q1 : PId) (y : Val) (m : Nat) (wb : World) (r : Res)
    (w2 : World) (hq : ∃ prq, wb.heap[q]? = some prq ∧ prq.state = .pending)
    (h : call m (mkHandler k (cap k q) q1) [y] wb = some (r, w2)) :
    stateOf q w2 = some (kindSt k) ∧ valueOf q w2 = y := by
  obtain ⟨prq, hprq, hsq⟩ := hq
  cases m with
  | zero => simp [call] at h
  | succ m1 =>
    rw [call_mkHandler] at h
    unfold handler at h
    have harg : arg0 [y] = y := rfl
    rw [harg] at h
    cases hc : call m1 (cap k q) [y] wb with
    | none => simp [hc] at h
    | some z =>
      rw [hc] at h
      obtain ⟨r1, w1⟩ := z
      cases m1 with
      | zero => simp [call] at hc
      | succ m2 =>
        have hset := hc
        rw [call_cap, harg] at hset
        obtain ⟨pr3, hp3, hs3, hv3⟩ :=
          settle_effect m2 (kindSt k) (kindSt_ne k) q y wb prq hprq hsq r1 w1 hset
        have key : ∀ w', Grows w1 w' → stateOf q w' = some (kindSt k) ∧ valueOf q w' = y :=
          fun w' hg => status_of_grows q (kindSt k) y (kindSt_ne k) w1 w' hg pr3 hp3 hs3 hv3
        cases r1 with
        | throw e =>
          simp only at h
          exact key w2 (call_grows _ _ _ _ _ _ h)
        | ret x0 =>
          have hx0 : x0 = .undefined := settle_ret _ _ _ _ _ _ hset
          subst hx0
          simp only [Val.asPromise] at h
          cases hc2 : call (m2 + 1) (.resolve q1) [.undefined] w1 with
          | none => simp [hc2] at h
          | some z2 =>
            rw [hc2] at h
            obtain ⟨r2, w4⟩ := z2
            have hg2 := call_grows _ _ _ _ _ _ hc2
            cases r2 with
            | ret v2 =>
              simp only [Option.some.injEq, Prod.mk.injEq] at h
              rw [← h.2]
              exact key w4 hg2
            | throw e =>
              simp only at h
              exact key w2 (Grows.trans _ _ _ hg2 (call_grows _ _ _ _ _ _ h))

theorem safe_of_heap_eq (w w1 : World) (h : w1.heap = w.heap) (hs : Safe w) : Safe w1 := by
  intro p pr hp
  rw [h] at hp
  exact hs p pr hp

theorem unreached_of_heap_eq (q : PId) (w w1 : World) (h : w1.heap = w.heap)
    (hu : Unreached q w) : Unreached q w1 := by
  refine ⟨by rw [h]; exact hu.1, ?_⟩
  intro p pr hp
  rw [h] at hp
  exact hu.2 p pr hp

theorem pending_of_stateOf (q : PId) (w : World) (h : stateOf q w = some .pending) :
    ∃ prq, w.heap[q]? = some prq ∧ prq.state = .pending := by
  unfold stateOf at h
  cases hq : w.heap[q]? with
  | none => simp [hq] at h
  | some prq =>
    rw [hq] at h
    simp only [Option.map_some', Option.some.injEq] at h
    exact ⟨prq, rfl, h⟩

theorem safe_worldThree : Safe worldThree := safe_alloc _ safe_worldChained

theorem heap_worldThree : worldThree.heap =
    [⟨.pending, .undefined, [.onResolve (noop 3) 1], [.onReject .ident 1]⟩, Promise.fresh,
      Promise.fresh] :=
  rfl

theorem wellFormed_worldThree : WellFormed worldThree := by
  intro p pr hp h hh
  rw [heap_worldThree] at hp ⊢
  match p with
  | 0 =>
    simp only [List.getElem?_cons_zero, Option.some.injEq] at hp
    subst hp
    simp only [List.mem_append, List.mem_singleton] at hh
    rcases hh with hh | hh <;> subst hh <;> rfl
  | 1 =>
    simp only [List.getElem?_cons_succ, List.getElem?_cons_zero, Option.some.injEq] at hp
    subst hp
    simp [Promise.fresh] at hh
  | 2 =>
    simp only [List.getElem?_cons_succ, List.getElem?_cons_zero, Option.some.injEq] at hp
    subst hp
    simp [Promise.fresh] at hh
  | n + 3 => simp at hp

/-! ## C16: nothing is thrown to the caller -/

theorem call_cap_noqueue (n : Nat) (k : Bool) (q : PId) (v : Val) (w : World) (pr : Promise)
    (hq : w.heap[q]? = some pr) (h1 : pr.resolveFns = []) (h2 : pr.rejectFns = []) :
    ∃ w1 pr1, call (n + 1) (cap k q) [v] w = some (.ret .undefined, w1) ∧
      w1.heap[q]? = some pr1 ∧ pr1.resolveFns = [] ∧ pr1.rejectFns = [] := by
  rw [call_cap]
  by_cases hs : pr.state = .pending
  · rw [settle_pending _ _ _ _ _ _ hq hs, queue_eq_queueOf]
    have hqe : queueOf k pr = [] := by cases k <;> simp [queueOf, h1, h2]
    rw [hqe]
    refine ⟨_, { pr with state := kindSt k, value := arg0 [v] }, rfl, ?_, h1, h2⟩
    rw [get_assign _ _ _ _ _ hq]
    simp
  · rw [settle_noop _ _ q _ w (by intro pr' hq'; rw [hq] at hq'; cases hq'; exact hs)]
    exact ⟨w, pr, rfl, hq, h1, h2⟩

theorem runCapCalls_noqueue (n : Nat) (q : PId) (cs : List (Bool × Val)) (w : World)
    (pr : Promise) (hq : w.heap[q]? = some pr) (h1 : pr.resolveFns = [])
    (h2 : pr.rejectFns = []) :
    ∃ w1 pr1, runCapCalls (call (n + 1)) q cs w = some (.ret .undefined, w1) ∧
      w1.heap[q]? = some pr1 ∧ pr1.resolveFns = [] ∧ pr1.rejectFns = [] := by
  induction cs generalizing w pr with
  | nil => exact ⟨w, pr, rfl, hq, h1, h2⟩
  | cons kv cs ih =>
    obtain ⟨w1, pr1, hc, hq1, h11, h12⟩ := call_cap_noqueue n kv.1 q kv.2 w pr hq h1 h2
    obtain ⟨w2, pr2, hc2, hq2, h21, h22⟩ := ih w1 pr1 hq1 h11 h12
    refine ⟨w2, pr2, ?_, hq2, h21, h22⟩
    simp only [runCapCalls, hc]
    exact hc2

/-- Constructing an instance with any caller-supplied setup routine returns
the new instance normally. -/
theorem construct_returns (n : Nat) (ex : Executor) (w : World) :
    ∃ w1, construct (call (n + 1)) (runExecutor (call (n + 1)) ex) w =
      some (.ok w.heap.length, w1) := by
  obtain ⟨w1, pr1, hc, hq1, h11, h12⟩ :=
    runCapCalls_noqueue n w.heap.length ex.calls (alloc w).2 _ (get_alloc_new w) rfl rfl
  unfold construct
  simp only [runExecutor, alloc_fst, hc]
  cases hr : ex.raises with
  | none => exact ⟨w1, rfl⟩
  | some b =>
    obtain ⟨w2, pr2, hc2, -, -, -⟩ := call_cap_noqueue n false w.heap.length b w1 pr1 hq1 h11 h12
    have hc3 : call (n + 1) (.reject w.heap.length) [b] w1 = some (.ret .undefined, w2) := hc2
    simp only [hc3]
    exact ⟨w2, rfl⟩

/-- C16 (no synchronous escape): in every world, constructing an instance with
any caller-supplied setup routine (whatever capabilities it calls, and also
when it throws) returns the new instance normally; `then` with any arguments on
any receiver, and `all` with any entries, are constructions whose setup routine
returns normally, so they return their new instance normally; and in a world
whose queues hold only what `then` pushes, every call of a settle capability
returns normally. -/
theorem C16_no_synchronous_escape (w : World) (hsafe : Safe w) (n : Nat) (ex : Executor)
    (self : PId) (f g : Fn) (items : List Val) (k : Bool) (p : PId) (v : Val) :
    (∃ w1, construct (call (n + 1)) (runExecutor (call (n + 1)) ex) w =
      some (.ok w.heap.length, w1)) ∧
    construct (call n) (thenExecutor self f g) w =
      some (.ok (then_ self f g w).1, (then_ self f g w).2) ∧
    construct (call n) (allExecutor items) w = some (.ok (all items w).1, (all items w).2) ∧
    (∃ m w1, call m (cap k p) [v] w = some (.ret .undefined, w1)) := by
  refine ⟨construct_returns n ex w, rfl, rfl, ?_⟩
  obtain ⟨m, r, w1, hc⟩ := call_terminates (cap k p) [v] w
  have hg : (cap k p).isGuarded = true := by cases k <;> rfl
  obtain ⟨x, hx⟩ := (call_safe m _ _ w r w1 hsafe hc).2 hg
  subst hx
  cases m with
  | zero => simp [call] at hc
  | succ m1 =>
    have hset := hc
    rw [call_cap] at hset
    have := settle_ret _ _ _ _ _ _ hset
    subst this
    exact ⟨m1 + 1, w1, hc⟩

/-- C16 at a concrete input: the world `worldChained`, a setup routine that
calls `resolve(1)` and then throws `"boom"`, `then` with a function that
throws and a non-function, `all([p0, 5])`, and `resolve(5)` on instance 0. -/
theorem C16_no_synchronous_escape_witness :
    Safe worldChained ∧
    (∃ w1, construct (call (0 + 1))
        (runExecutor (call (0 + 1)) ⟨[(true, .num 1)], some (.str "boom")⟩) worldChained =
      some (.ok worldChained.heap.length, w1)) ∧
    construct (call 0) (thenExecutor 0 (.user 7 (fun _ => .raise (.str "boom"))) .notFn)
        worldChained =
      some (.ok (then_ 0 (.user 7 (fun _ => .raise (.str "boom"))) .notFn worldChained).1,
        (then_ 0 (.user 7 (fun _ => .raise (.str "boom"))) .notFn worldChained).2) ∧
    construct (call 0) (allExecutor [.promise 0, .num 5]) worldChained =
      some (.ok (all [.promise 0, .num 5] worldChained).1,
        (all [.promise 0, .num 5] worldChained).2) ∧
    (∃ m w1, call m (cap true 0) [.num 5] worldChained = some (.ret .undefined, w1)) :=
  ⟨safe_worldChained,
    C16_no_synchronous_escape worldChained safe_worldChained 0
      ⟨[(true, .num 1)], some (.str "boom")⟩ 0 (.user 7 (fun _ => .raise (.str "boom")))
      .notFn [.promise 0, .num 5] true 0 (.num 5)⟩

/-! ## Measures of the calls a world can still cause -/

theorem budget_trace (T : Nat → Bool) (id : Nat) (args : List Val) (w : World) :
    budget T (trace id args w) = budget T w + (Fn.user id (fun _ => .ret .undefined)).uses T := by
  simp only [budget, hits, owed, trace, Fn.uses, List.filter_append, List.length_append]
  by_cases h : T id = true
  · simp [h, List.filter]; omega
  · simp [h, List.filter]

theorem owed_alloc (W : Fn → Nat) (w : World) : owed W (alloc w).2 = owed W w := by
  simp [owed, heap_alloc, Promise.owed, Promise.fresh]

theorem budget_alloc (T : Nat → Bool) (w : World) : budget T (alloc w).2 = budget T w := by
  simp only [budget, owed_alloc]
  rfl

/-- What `then` adds to the weight owed by its receiver, exactly. -/
theorem owed_then_eq (W : Fn → Nat) (x : Nat) (f g : Fn) (w : World) (pr : Promise)
    (hx : (alloc w).2.heap[x]? = some pr) :
    owed W (then_ x f g w).2 + Promise.owed W pr = owed W w + Promise.owed W
      { pr with resolveFns := pr.resolveFns ++ [.onResolve (orIdent f) w.heap.length],
                rejectFns := pr.rejectFns ++ [.onReject (orIdent g) w.heap.length] } := by
  have ha := owed_alloc W w
  rw [then_snd]
  have h1 : (pushResolveFn x (.onResolve (orIdent f) w.heap.length) (alloc w).2).heap =
      (alloc w).2.heap.set x
        { pr with resolveFns := pr.resolveFns ++ [.onResolve (orIdent f) w.heap.length] } := by
    unfold pushResolveFn; rw [hx]
  have hx1 : (pushResolveFn x (.onResolve (orIdent f) w.heap.length) (alloc w).2).heap[x]? =
      some { pr with resolveFns := pr.resolveFns ++ [.onResolve (orIdent f) w.heap.length] } := by
    rw [get_pushResolveFn, hx]; simp
  have h2 : (pushRejectFn x (.onReject (orIdent g) w.heap.length)
      (pushResolveFn x (.onResolve (orIdent f) w.heap.length) (alloc w).2)).heap =
      (pushResolveFn x (.onResolve (orIdent f) w.heap.length) (alloc w).2).heap.set x
        { pr with resolveFns := pr.resolveFns ++ [.onResolve (orIdent f) w.heap.length],
                  rejectFns := pr.rejectFns ++ [.onReject (orIdent g) w.heap.length] } := by
    unfold pushRejectFn; rw [hx1]
  have e1 := sum_map_set (Promise.owed W) _ x _
    { pr with resolveFns := pr.resolveFns ++ [.onResolve (orIdent f) w.heap.length] } hx
  have e2 := sum_map_set (Promise.owed W) _ x _
    { pr with resolveFns := pr.resolveFns ++ [.onResolve (orIdent f) w.heap.length],
              rejectFns := pr.rejectFns ++ [.onReject (orIdent g) w.heap.length] } hx1
  simp only [owed] at ha ⊢
  rw [h2]
  rw [← h1] at e1
  omega

theorem then_of_absent (x : Nat) (f g : Fn) (w : World) (hx : (alloc w).2.heap[x]? = none) :
    (then_ x f g w).2 = (alloc w).2 := by
  rw [then_snd]
  have h1 : pushResolveFn x (.onResolve (orIdent f) w.heap.length) (alloc w).2 = (alloc w).2 := by
    unfold pushResolveFn; rw [hx]
  rw [h1]
  unfold pushRejectFn; rw [hx]

/-- What `then` adds to the owed weight, at most: the heavier of the two
handlers it pushes. -/
theorem owed_then (W : Fn → Nat) (x : PId) (f g : Fn) (w : World) :
    owed W (then_ x f g w).2 ≤ owed W w +
      max (W (.onResolve (orIdent f) w.heap.length)) (W (.onReject (orIdent g) w.heap.length)) := by
  cases hx : (alloc w).2.heap[x]? with
  | none =>
    rw [then_of_absent x f g w hx, owed_alloc]
    omega
  | some pr =>
    have he := owed_then_eq W x f g w pr hx
    have hle : Promise.owed W
        { pr with resolveFns := pr.resolveFns ++ [.onResolve (orIdent f) w.heap.length],
                  rejectFns := pr.rejectFns ++ [.onReject (orIdent g) w.heap.length] } ≤
        Promise.owed W pr + max (W (.onResolve (orIdent f) w.heap.length))
          (W (.onReject (orIdent g) w.heap.length)) := by
      simp only [Promise.owed]
      split
      · simp only [List.map_append, List.sum_append, List.map_cons, List.map_nil, List.sum_cons,
          List.sum_nil, Nat.add_zero]
        omega
      · omega
    omega

theorem budget_then (T : Nat → Bool) (x : PId) (f g : Fn) (w : World) :
    budget T (then_ x f g w).2 ≤
      budget T w + max ((orIdent f).uses T) ((orIdent g).uses T) := by
  have h := owed_then (Fn.uses T) x f g w
  simp only [Fn.uses] at h
  simp only [budget, hits, log_then]
  omega

theorem owed_assign (W : Fn → Nat) (p : PId) (pr : Promise) (st : St) (v : Val) (w : World)
    (hp : w.heap[p]? = some pr) (hst : st ≠ .pending) :
    owed W (assign p pr st v w) + Promise.owed W pr = owed W w := by
  have := sum_map_set (Promise.owed W) w.heap p pr { pr with state := st, value := v } hp
  have h1 : Promise.owed W { pr with state := st, value := v } = 0 := by
    simp [Promise.owed, hst]
  simp only [owed, assign]
  omega

theorem owed_get (W : Fn → Nat) (w : World) (p : Nat) (pr : Promise)
    (hp : w.heap[p]? = some pr) : Promise.owed W pr ≤ owed W w := by
  have := sum_map_set (Promise.owed W) w.heap p pr ⟨.resolved, .undefined, [], []⟩ hp
  have h0 : Promise.owed W ⟨.resolved, .undefined, [], []⟩ = 0 := rfl
  unfold owed
  omega

theorem sum_queueOf_le_owed (W : Fn → Nat) (k : Bool) (pr : Promise)
    (hs : pr.state = .pending) :
    ((queueOf k pr).map W).sum ≤ Promise.owed W pr := by
  simp only [Promise.owed, hs, if_true]
  cases k
  · exact le_max_right _ _
  · exact le_max_left _ _

section metered
variable {W : Fn → Nat} {Φ : World → Nat} {c : Fn → List Val → World → Option (Res × World)}

theorem forEachFn_meter (hc : Metered W Φ c) (p : PId) (fs : List Fn) (w : World) (r : Res)
    (w1 : World) (h : forEachFn c p fs w = some (r, w1)) :
    Φ w1 ≤ Φ w + (fs.map W).sum := by
  induction fs generalizing w with
  | nil =>
    simp only [forEachFn, Option.some.injEq, Prod.mk.injEq] at h
    rw [← h.2]; simp
  | cons f fs ih =>
    simp only [forEachFn] at h
    simp only [List.map_cons, List.sum_cons]
    by_cases hf : f.isFunction = true
    · simp only [hf, if_true] at h
      cases hcall : c f [valueOf p w] w with
      | none => simp [hcall] at h
      | some z =>
        rw [hcall] at h
        obtain ⟨rr, w2⟩ := z
        have h2 := hc _ _ _ _ _ hcall
        cases rr with
        | throw e =>
          simp only [Option.some.injEq, Prod.mk.injEq] at h
          rw [← h.2]; omega
        | ret v =>
          simp only at h
          have h3 := ih w2 h
          omega
    · simp only [hf] at h
      have h3 := ih w h
      omega

theorem settle_meter (M : Meter W Φ) (hc : Metered W Φ c) (k : Bool) (p : PId)
    (v : Val) (w : World) (r : Res) (w1 : World)
    (h : settle c (kindSt k) p v w = some (r, w1)) : Φ w1 ≤ Φ w + W (cap k p) := by
  cases hp : w.heap[p]? with
  | none =>
    rw [settle_noop _ _ p v w (by simp [hp])] at h
    simp only [Option.some.injEq, Prod.mk.injEq] at h
    rw [← h.2]; omega
  | some pr =>
    by_cases hs : pr.state = .pending
    · rw [settle_pending _ _ _ _ _ _ hp hs, queue_eq_queueOf] at h
      have h1 := forEachFn_meter hc p _ _ r w1 h
      have h2 := M.step_assign k p v w pr hp hs
      omega
    · rw [settle_noop _ _ p v w (by intro q hq; rw [hp] at hq; cases hq; exact hs)] at h
      simp only [Option.some.injEq, Prod.mk.injEq] at h
      rw [← h.2]; omega

theorem capOf_kindSt (k : Bool) (p : PId) : capOf (kindSt k) p = cap k p := by
  cases k <;> rfl

theorem cap_le (W : Fn → Nat) (k : Bool) (p : PId) :
    W (cap k p) ≤ max (W (.resolve p)) (W (.reject p)) := by
  cases k
  · exact le_max_right _ _
  · exact le_max_left _ _

theorem staticSettle_meter (M : Meter W Φ) (hc : Metered W Φ c) (k : Bool) (v : Val)
    (w : World) (x : Except Val PId) (w1 : World)
    (h : staticSettle c (kindSt k) v w = some (x, w1)) : Φ w1 ≤ Φ w := by
  unfold staticSettle at h
  have h0 := M.step_alloc w
  rw [capOf_kindSt] at h
  have hl : (alloc w).1 = w.heap.length := rfl
  rw [hl] at h
  cases hcall : c (cap k w.heap.length) [v] (alloc w).2 with
  | none => simp [hcall] at h
  | some z =>
    rw [hcall] at h
    obtain ⟨rr, w2⟩ := z
    have h2 := hc _ _ _ _ _ hcall
    cases rr with
    | ret v1 =>
      simp only [Option.some.injEq, Prod.mk.injEq] at h
      rw [← h.2]
      have := cap_le W k w.heap.length
      omega
    | throw e =>
      simp only at h
      cases hcall2 : c (.reject w.heap.length) [e] w2 with
      | none => simp [hcall2] at h
      | some z2 =>
        rw [hcall2] at h
        obtain ⟨rr2, w3⟩ := z2
        have h3 := hc _ _ _ _ _ hcall2
        cases rr2 <;>
        · simp only [Option.some.injEq, Prod.mk.injEq] at h
          rw [← h.2]
          have := cap_le W k w.heap.length
          have := cap_le W false w.heap.length
          simp only [cap, Bool.false_eq_true, if_false] at this
          omega

theorem handler_meter (M : Meter W Φ) (hc : Metered W Φ c) (cb : Fn) (q : PId) (x0 : Val)
    (w : World) (r : Res) (w1 : World) (h : handler c cb q x0 w = some (r, w1)) :
    Φ w1 ≤ Φ w + (W cb + W (.resolve q) + W (.reject q)) := by
  unfold handler at h
  cases hcall : c cb [x0] w with
  | none => simp [hcall] at h
  | some z =>
    rw [hcall] at h
    obtain ⟨rr, w2⟩ := z
    have h2 := hc _ _ _ _ _ hcall
    cases rr with
    | throw e =>
      simp only at h
      have h3 := hc _ _ _ _ _ h
      omega
    | ret x =>
      simp only at h
      cases hx : x.asPromise with
      | some xp =>
        rw [hx] at h
        simp only [Option.some.injEq, Prod.mk.injEq] at h
        rw [← h.2]
        have h3 := M.step_then xp (.resolve q) (.reject q) w2
        simp only [orIdent, Fn.isFunction, if_true] at h3
        omega
      | none =>
        rw [hx] at h
        simp only at h
        cases hcall2 : c (.resolve q) [x] w2 with
        | none => simp [hcall2] at h
        | some z2 =>
          rw [hcall2] at h
          obtain ⟨rr2, w3⟩ := z2
          have h3 := hc _ _ _ _ _ hcall2
          cases rr2 with
          | ret v2 =>
            simp only [Option.some.injEq, Prod.mk.injEq] at h
            rw [← h.2]; omega
          | throw e =>
            simp only at h
            have h4 := hc _ _ _ _ _ h
            omega

theorem finArrow_meter (M : Meter W Φ) (hc : Metered W Φ c) (k : Bool) (fin : Fn)
    (value : Val) (w : World) (r : Res) (w1 : World)
    (h : finArrow c (kindSt k) fin value w = some (r, w1)) : Φ w1 ≤ Φ w + W fin := by
  unfold finArrow at h
  cases hcall : c fin [] w with
  | none => simp [hcall] at h
  | some z =>
    rw [hcall] at h
    obtain ⟨rr, w2⟩ := z
    have h2 := hc _ _ _ _ _ hcall
    cases rr with
    | throw e =>
      simp only [Option.some.injEq, Prod.mk.injEq] at h
      rw [← h.2]; exact h2
    | ret x =>
      simp only at h
      cases hs : staticSettle c (kindSt k) x w2 with
      | none => simp [hs] at h
      | some z2 =>
        rw [hs] at h
        obtain ⟨ex, w3⟩ := z2
        have h3 := staticSettle_meter M hc _ _ _ _ _ hs
        cases ex with
        | error e =>
          simp only [Option.some.injEq, Prod.mk.injEq] at h
          rw [← h.2]; omega
        | ok xp =>
          simp only [Option.some.injEq, Prod.mk.injEq] at h
          rw [← h.2]
          have h4 := M.step_then xp (.konst value) .notFn w3
          simp only [orIdent, Fn.isFunction, if_true, Bool.false_eq_true, if_false, M.w_konst,
            M.w_ident, max_self] at h4
          omega

theorem allArrow_meter (M : Meter W Φ) (hc : Metered W Φ c) (len agg cnt : Nat)
    (result : Val) (w : World) (r : Res) (w1 : World)
    (h : allArrow c len agg cnt result w = some (r, w1)) : Φ w1 ≤ Φ w + W (.resolve agg) := by
  unfold allArrow at h
  have h0 := M.step_bump cnt w
  by_cases ho : result.isObject = true
  · simp only [ho, if_true] at h
    by_cases hl : (bump cnt w).counts.getD cnt 0 = len
    · simp only [hl, if_true] at h
      cases hcall : c (.resolve agg) [result] (bump cnt w) with
      | none => simp [hcall] at h
      | some z =>
        rw [hcall] at h
        obtain ⟨rr, w2⟩ := z
        have h2 := hc _ _ _ _ _ hcall
        cases rr <;>
        · simp only [Option.some.injEq, Prod.mk.injEq] at h
          rw [← h.2]; omega
    · simp only [hl, if_false, Option.some.injEq, Prod.mk.injEq] at h
      rw [← h.2]; omega
  · simp only [ho, Bool.false_eq_true, if_false, Option.some.injEq, Prod.mk.injEq] at h
    rw [← h.2]; omega

theorem allCatchArrow_meter (hc : Metered W Φ c) (agg : PId) (e : Val) (w : World)
    (r : Res) (w1 : World) (h : allCatchArrow c agg e w = some (r, w1)) :
    Φ w1 ≤ Φ w + W (.reject agg) := by
  unfold allCatchArrow at h
  cases hcall : c (.reject agg) [e] w with
  | none => simp [hcall] at h
  | some z =>
    rw [hcall] at h
    obtain ⟨rr, w2⟩ := z
    have h2 := hc _ _ _ _ _ hcall
    cases rr <;>
    · simp only [Option.some.injEq, Prod.mk.injEq] at h
      rw [← h.2]; omega

theorem userCall_meter (M : Meter W Φ) (hc : Metered W Φ c) (id : Nat)
    (body : List Val → Outcome) (args : List Val) (w : World) (r : Res) (w1 : World)
    (h : userCall c id body args w = some (r, w1)) :
    Φ w1 ≤ Φ w + W (Fn.user id body) := by
  unfold userCall at h
  have h0 : Φ (trace id args w) ≤ Φ w + W (Fn.user id body) := M.step_trace id body args w
  cases hb : body args with
  | ret v =>
    rw [hb] at h
    simp only [Option.some.injEq, Prod.mk.injEq] at h
    rw [← h.2]; exact h0
  | raise v =>
    rw [hb] at h
    simp only [Option.some.injEq, Prod.mk.injEq] at h
    rw [← h.2]; exact h0
  | retResolve v =>
    rw [hb] at h
    simp only at h
    cases hs : staticSettle c .resolved v (trace id args w) with
    | none => simp [hs] at h
    | some z =>
      rw [hs] at h
      obtain ⟨ex, w3⟩ := z
      have h3 := staticSettle_meter M hc true _ _ _ _ hs
      cases ex <;>
      · simp only [Option.some.injEq, Prod.mk.injEq] at h
        rw [← h.2]; omega
  | retReject v =>
    rw [hb] at h
    simp only at h
    cases hs : staticSettle c .rejected v (trace id args w) with
    | none => simp [hs] at h
    | some z =>
      rw [hs] at h
      obtain ⟨ex, w3⟩ := z
      have h3 := staticSettle_meter M hc false _ _ _ _ hs
      cases ex <;>
      · simp only [Option.some.injEq, Prod.mk.injEq] at h
        rw [← h.2]; omega

end metered

/-- Every call that returns adds to a metered measure at most the weight of
the function called. -/
theorem call_meter {W : Fn → Nat} {Φ : World → Nat} (M : Meter W Φ) (n : Nat) :
    Metered W Φ (call n) := by
  induction n with
  | zero => intro f a w r w1 h; simp [call] at h
  | succ n ih =>
    intro f a w r w1 h
    cases f with
    | notFn =>
      simp only [call, Option.some.injEq, Prod.mk.injEq] at h
      rw [← h.2]; omega
    | user id body => exact userCall_meter M ih _ _ _ _ _ _ h
    | resolve p => exact settle_meter M ih true p _ w r w1 h
    | reject p => exact settle_meter M ih false p _ w r w1 h
    | ident =>
      simp only [call, Option.some.injEq, Prod.mk.injEq] at h
      rw [← h.2]; omega
    | onResolve cb q =>
      have := handler_meter M ih cb q _ w r w1 h
      have := M.w_onResolve cb q
      omega
    | onReject cb q =>
      have := handler_meter M ih cb q _ w r w1 h
      have := M.w_onReject cb q
      omega
    | finThen fin =>
      have := finArrow_meter M ih true fin _ w r w1 h
      have := M.w_finThen fin
      omega
    | finCatch fin =>
      have := finArrow_meter M ih false fin _ w r w1 h
      have := M.w_finCatch fin
      omega
    | konst v =>
      simp only [call, Option.some.injEq, Prod.mk.injEq] at h
      rw [← h.2]; omega
    | allThen i len agg cnt =>
      have := allArrow_meter M ih len agg cnt _ w r w1 h
      have := M.w_allThen i len agg cnt
      omega
    | allCatch agg =>
      have := allCatchArrow_meter ih agg _ w r w1 h
      have := M.w_allCatch agg
      omega

theorem orIdent_uses_le (T : Nat → Bool) (f : Fn) : (orIdent f).uses T ≤ f.uses T := by
  unfold orIdent
  split
  · exact le_refl _
  · exact Nat.zero_le _

theorem cap_uses (T : Nat → Bool) (k : Bool) (p : PId) : (cap k p).uses T = 0 := by
  cases k <;> rfl

theorem meter_budget (T : Nat → Bool) : Meter (Fn.uses T) (budget T) where
  w_ident := rfl
  w_konst := fun _ => rfl
  w_onResolve := fun _ _ => le_refl _
  w_onReject := fun _ _ => le_refl _
  w_finThen := fun _ => le_refl _
  w_finCatch := fun _ => le_refl _
  w_allThen := fun _ _ _ _ => le_refl _
  w_allCatch := fun _ => le_refl _
  step_trace := fun id _ args w => le_of_eq (budget_trace T id args w)
  step_alloc := fun w => le_of_eq (budget_alloc T w)
  step_bump := fun _ _ => le_refl _
  step_counts := fun _ _ => le_refl _
  step_then := budget_then T
  step_assign := by
    intro k p v w pr hp hs
    have h1 := owed_assign (Fn.uses T) p pr (kindSt k) v w hp (kindSt_ne k)
    have h2 := sum_queueOf_le_owed (Fn.uses T) k pr hs
    have h3 : hits T (assign p pr (kindSt k) v w) = hits T w := rfl
    simp only [budget, cap_uses]
    omega

theorem bonus_le_one (T : Nat → Bool) (k : Bool) (p : PId) (w : World) :
    bonus T k p w ≤ 1 := by
  unfold bonus
  split
  · exact le_refl _
  · split
    · split <;> omega
    · split <;> omega

theorem bonus_alloc (T : Nat → Bool) (k : Bool) (p : PId) (w : World) :
    bonus T k p (alloc w).2 ≤ bonus T k p w := by
  cases hp : w.heap[p]? with
  | none =>
    have : bonus T k p w = 1 := by simp [bonus, hp]
    rw [this]; exact bonus_le_one _ _ _ _
  | some pr =>
    simp [bonus, hp, get_alloc_old w p pr hp]

/-- What `then` adds to the budget with the credit of `p`, at most. -/
theorem budgetFor_then_le (T : Nat → Bool) (k : Bool) (p x : PId) (f g : Fn) (w : World) :
    budgetFor T k p (then_ x f g w).2 ≤
      budgetFor T k p w + max ((orIdent f).uses T) ((orIdent g).uses T) := by
  have hb := budget_then T x f g w
  cases hp : w.heap[p]? with
  | none =>
    have h1 : bonus T k p w = 1 := by simp [bonus, hp]
    have h2 := bonus_le_one T k p (then_ x f g w).2
    simp only [budgetFor]
    omega
  | some pr =>
    have hpa := get_alloc_old w p pr hp
    have hget : (then_ x f g w).2.heap[p]? = some (if p = x then
        { pr with resolveFns := pr.resolveFns ++ [.onResolve (orIdent f) w.heap.length],
                  rejectFns := pr.rejectFns ++ [.onReject (orIdent g) w.heap.length] }
        else pr) := by
      rw [get_then, hpa]; rfl
    by_cases hpx : p = x
    · subst hpx
      simp only [if_true] at hget
      have he := owed_then_eq (Fn.uses T) p f g w pr hpa
      have hh : hits T (then_ p f g w).2 = hits T w := by simp only [hits, log_then]
      simp only [budgetFor, budget, hh, bonus, hget, hp]
      by_cases hs : pr.state = .pending
      · simp only [Promise.owed, hs, if_true, List.map_append, List.sum_append, List.map_cons,
          List.map_nil, List.sum_cons, List.sum_nil, Fn.uses, Nat.add_zero] at he ⊢
        cases k <;>
          simp only [queueOf, Bool.not_true, Bool.not_false, if_true, Bool.false_eq_true,
            if_false, List.map_append, List.sum_append, List.map_cons, List.map_nil,
            List.sum_cons, List.sum_nil, Fn.uses, Nat.add_zero] <;>
          split <;> split <;> omega
      · simp only [Promise.owed, hs, if_false] at he ⊢
        split <;> omega
    · simp only [hpx, if_false] at hget
      have : bonus T k p (then_ x f g w).2 = bonus T k p w := by
        simp only [bonus, hget, hp]
      simp only [budgetFor, this]
      omega

theorem meter_budgetFor (T : Nat → Bool) (k : Bool) (p : PId) :
    Meter (Fn.uses T) (budgetFor T k p) where
  w_ident := rfl
  w_konst := fun _ => rfl
  w_onResolve := fun _ _ => le_refl _
  w_onReject := fun _ _ => le_refl _
  w_finThen := fun _ => le_refl _
  w_finCatch := fun _ => le_refl _
  w_allThen := fun _ _ _ _ => le_refl _
  w_allCatch := fun _ => le_refl _
  step_trace := by
    intro id body args w
    have h1 := budget_trace T id args w
    have h2 : bonus T k p (trace id args w) = bonus T k p w := rfl
    simp only [budgetFor, h2, Fn.uses] at h1 ⊢
    omega
  step_alloc := by
    intro w
    have h1 := budget_alloc T w
    have h2 := bonus_alloc T k p w
    simp only [budgetFor, Fn.uses]
    omega
  step_bump := fun _ _ => le_refl _
  step_counts := fun _ _ => le_refl _
  step_then := budgetFor_then_le T k p
  step_assign := by
    intro k1 p1 v w pr hp hs
    have h1 := owed_assign (Fn.uses T) p1 pr (kindSt k1) v w hp (kindSt_ne k1)
    have h3 : hits T (assign p1 pr (kindSt k1) v w) = hits T w := rfl
    rw [cap_uses]
    by_cases hpp : p = p1
    · subst hpp
      have ho : Promise.owed (Fn.uses T) pr =
          max (pr.resolveFns.map (Fn.uses T)).sum (pr.rejectFns.map (Fn.uses T)).sum := by
        simp [Promise.owed, hs]
      rw [ho] at h1
      have hget := get_assign p pr (kindSt k1) v w hp p
      simp only [if_true] at hget
      simp only [budgetFor, budget, h3, bonus, hp, hget, hs, if_true, kindSt_ne k1, if_false]
      cases k <;> cases k1 <;>
        simp only [queueOf, kindSt, Bool.not_true, Bool.not_false, Bool.false_eq_true, if_false,
          if_true, reduceCtorEq] at h1 ⊢ <;>
        split <;> omega
    · have h2 := sum_queueOf_le_owed (Fn.uses T) k1 pr hs
      have hb : bonus T k p (assign p1 pr (kindSt k1) v w) = bonus T k p w := by
        simp [bonus, get_assign _ _ _ _ _ hp, hpp]
      simp only [budgetFor, budget, hb]
      omega

theorem allEach_meter {W : Fn → Nat} {Φ : World → Nat} (M : Meter W Φ) (len agg cnt : Nat)
    (hw : ∀ i, W (.allThen i len agg cnt) = 0 ∧ W (.allCatch agg) = 0)
    (items : List Val) (i : Nat) (w : World) : Φ (allEach len agg cnt i items w) ≤ Φ w := by
  induction items generalizing i w with
  | nil => exact le_refl _
  | cons x xs ih =>
    simp only [allEach]
    cases hx : x.asPromise with
    | none => exact ih (i + 1) w
    | some p =>
      simp only
      have h1 := M.step_then p (.allThen i len agg cnt) .notFn w
      have h2 := M.step_then (then_ p (.allThen i len agg cnt) .notFn w).1 .notFn (.allCatch agg)
        (then_ p (.allThen i len agg cnt) .notFn w).2
      have h3 := ih (i + 1) (catch_ (then_ p (.allThen i len agg cnt) .notFn w).1 (.allCatch agg)
        (then_ p (.allThen i len agg cnt) .notFn w).2).2
      simp only [orIdent, Fn.isFunction, if_true, Bool.false_eq_true, if_false, M.w_ident,
        (hw i).1, (hw i).2, max_self, Nat.add_zero] at h1 h2
      exact le_trans h3 (le_trans h2 h1)

theorem all_meter {W : Fn → Nat} {Φ : World → Nat} (M : Meter W Φ) (items : List Val)
    (w : World) (hw : Unborn W w.heap.length) : Φ (all items w).2 ≤ Φ w := by
  have h1 := allEach_meter M items.length (alloc w).1 (alloc w).2.counts.length
    (fun i => hw w.heap.length (le_refl _) i _ _) items 0
    { (alloc w).2 with counts := (alloc w).2.counts ++ [0] }
  have h2 : Φ { (alloc w).2 with counts := (alloc w).2.counts ++ [0] } ≤ Φ (alloc w).2 :=
    M.step_counts (alloc w).2 ((alloc w).2.counts ++ [0])
  have h3 := M.step_alloc w
  have h4 : Φ (all items w).2 ≤ Φ { (alloc w).2 with counts := (alloc w).2.counts ++ [0] } := h1
  exact le_trans h4 (le_trans h2 (le_trans (Nat.le_add_right _ _) h3))

theorem orIdent_le {W : Fn → Nat} {Φ : World → Nat} (M : Meter W Φ) (f : Fn) :
    W (orIdent f) ≤ W f := by
  unfold orIdent
  split
  · exact le_refl _
  · rw [M.w_ident]; exact Nat.zero_le _

theorem reg_meter {W : Fn → Nat} {Φ : World → Nat} (M : Meter W Φ) (r : Reg) (w : World) :
    Φ (r.run w) ≤ Φ w + r.weight W := by
  cases r with
  | then_ self f g =>
    have h := M.step_then self f g w
    have hf := orIdent_le M f
    have hg := orIdent_le M g
    simp only [Reg.weight, Reg.run]
    omega
  | catch_ self g =>
    have h := M.step_then self .notFn g w
    have hg := orIdent_le M g
    have hn : W (orIdent .notFn) = 0 := M.w_ident
    simp only [Reg.weight, Reg.run, catch_]
    omega
  | finally_ self fin =>
    have h := M.step_then self (.finThen fin) (.finCatch fin) w
    simp only [orIdent, Fn.isFunction, if_true] at h
    simp only [Reg.weight, Reg.run, finally_]
    omega

theorem op_meter {W : Fn → Nat} {Φ : World → Nat} (M : Meter W Φ) (n : Nat) (o : Op)
    (w w1 : World) (hw : Unborn W w.heap.length) (h : o.run n w = some w1) :
    Φ w1 ≤ Φ w + o.weight W := by
  cases o with
  | call f args =>
    simp only [Op.run, Option.map_eq_some', Prod.exists, exists_eq_right] at h
    obtain ⟨r, hr⟩ := h
    exact call_meter M n f args w r w1 hr
  | reg r =>
    simp only [Op.run, Option.some.injEq] at h
    rw [← h]; exact reg_meter M r w
  | all items =>
    simp only [Op.run, Option.some.injEq] at h
    rw [← h]; exact all_meter M items w hw
  | static k v =>
    simp only [Op.run, Option.map_eq_some', Prod.exists, exists_eq_right] at h
    obtain ⟨x, hx⟩ := h
    exact staticSettle_meter M (call_meter M n) k v w x w1 hx

theorem grows_allEach (len agg cnt : Nat) (items : List Val) (i : Nat) (w : World) :
    Grows w (allEach len agg cnt i items w) := by
  induction items generalizing i w with
  | nil => exact Grows.refl w
  | cons x xs ih =>
    simp only [allEach]
    cases hx : x.asPromise with
    | none => exact ih (i + 1) w
    | some p =>
      simp only
      exact Grows.trans _ _ _ (Grows.trans _ _ _ (grows_then _ _ _ _) (grows_then _ _ _ _))
        (ih _ _)

theorem grows_all (items : List Val) (w : World) : Grows w (all items w).2 :=
  Grows.trans _ _ _ (grows_alloc w)
    (Grows.trans _ _ _
      (show Grows (alloc w).2 { (alloc w).2 with counts := (alloc w).2.counts ++ [0] }
        from Grows.refl (alloc w).2) (grows_allEach _ _ _ _ _ _))

/-- Every operation extends the world. -/
theorem op_grows (n : Nat) (o : Op) (w w1 : World) (h : o.run n w = some w1) : Grows w w1 := by
  cases o with
  | call f args =>
    simp only [Op.run, Option.map_eq_some', Prod.exists, exists_eq_right] at h
    obtain ⟨r, hr⟩ := h
    exact call_grows _ _ _ _ _ _ hr
  | reg r =>
    simp only [Op.run, Option.some.injEq] at h
    obtain ⟨x, f, g, hr⟩ := reg_run_eq r w
    rw [← h, hr]
    exact grows_then x f g w
  | all items =>
    simp only [Op.run, Option.some.injEq] at h
    rw [← h]
    exact grows_all items w
  | static k v =>
    simp only [Op.run, Option.map_eq_some', Prod.exists, exists_eq_right] at h
    obtain ⟨x, hx⟩ := h
    exact (staticSettle_sound rule_grows (call_sound rule_grows n) _ _ _ trivial _ _ hx).2

theorem runOps_grows (n : Nat) (ops : List Op) (w w1 : World)
    (h : runOps n ops w = some w1) : Grows w w1 := by
  induction ops generalizing w with
  | nil =>
    simp only [runOps, Option.some.injEq] at h
    rw [← h]; exact Grows.refl w
  | cons o os ih =>
    simp only [runOps] at h
    cases ho : o.run n w with
    | none => simp [ho] at h
    | some w2 =>
      rw [ho] at h
      exact Grows.trans _ _ _ (op_grows n o w w2 ho) (ih w2 h)

theorem runOps_meter {W : Fn → Nat} {Φ : World → Nat} (M : Meter W Φ) (n : Nat)
    (ops : List Op) (w w1 : World) (hw : Unborn W w.heap.length)
    (hu : ∀ o ∈ ops, o.weight W = 0) (h : runOps n ops w = some w1) : Φ w1 ≤ Φ w := by
  induction ops generalizing w with
  | nil =>
    simp only [runOps, Option.some.injEq] at h
    rw [← h]
  | cons o os ih =>
    simp only [runOps] at h
    cases ho : o.run n w with
    | none => simp [ho] at h
    | some w2 =>
      rw [ho] at h
      have h1 := op_meter M n o w w2 hw ho
      have hlen := (op_grows n o w w2 ho).1
      have h2 := ih w2 (fun a ha => hw a (le_trans hlen ha))
        (fun o' ho' => hu o' (List.mem_cons_of_mem _ ho')) h
      have h3 := hu o (List.mem_cons_self _ _)
      omega

theorem hits_le_of_grows (T : Nat → Bool) (w w1 : World) (h : Grows w w1) :
    hits T w ≤ hits T w1 := by
  obtain ⟨l, hl⟩ := h.2.2
  simp [hits, hl]

theorem safe_allEach (len agg cnt : Nat) (items : List Val) (i : Nat) (w : World)
    (hs : Safe w) : Safe (allEach len agg cnt i items w) := by
  induction items generalizing i w with
  | nil => exact hs
  | cons x xs ih =>
    simp only [allEach]
    cases hx : x.asPromise with
    | none => exact ih (i + 1) w hs
    | some p =>
      simp only
      exact ih _ _ (safe_then _ _ _ _ (safe_then _ _ _ _ hs))

/-- Every operation keeps the queues safe. -/
theorem op_safe (n : Nat) (o : Op) (w w1 : World) (hs : Safe w) (h : o.run n w = some w1) :
    Safe w1 := by
  cases o with
  | call f args =>
    simp only [Op.run, Option.map_eq_some', Prod.exists, exists_eq_right] at h
    obtain ⟨r, hr⟩ := h
    exact (call_safe _ _ _ _ _ _ hs hr).1
  | reg r =>
    simp only [Op.run, Option.some.injEq] at h
    obtain ⟨x, f, g, hr⟩ := reg_run_eq r w
    rw [← h, hr]
    exact safe_then x f g w hs
  | all items =>
    simp only [Op.run, Option.some.injEq] at h
    rw [← h]
    exact safe_allEach _ _ _ _ _ _ (show Safe { (alloc w).2 with counts := _ } from safe_alloc w hs)
  | static k v =>
    simp only [Op.run, Option.map_eq_some', Prod.exists, exists_eq_right] at h
    obtain ⟨x, hx⟩ := h
    exact (staticSettle_sound rule_safe (call_sound rule_safe n) _ _ _ hs _ _ hx).1

theorem runOps_safe (n : Nat) (ops : List Op) (w w1 : World) (hs : Safe w)
    (h : runOps n ops w = some w1) : Safe w1 := by
  induction ops generalizing w with
  | nil =>
    simp only [runOps, Option.some.injEq] at h
    rw [← h]; exact hs
  | cons o os ih =>
    simp only [runOps] at h
    cases ho : o.run n w with
    | none => simp [ho] at h
    | some w2 =>
      rw [ho] at h
      exact ih w2 (op_safe n o w w2 hs ho) h

theorem op_run_mono (n m : Nat) (hnm : n ≤ m) (o : Op) (w w1 : World)
    (h : o.run n w = some w1) : o.run m w = some w1 := by
  cases o with
  | call f args =>
    simp only [Op.run, Option.map_eq_some', Prod.exists, exists_eq_right] at h ⊢
    obtain ⟨r, hr⟩ := h
    exact ⟨r, call_mono hnm _ _ _ _ hr⟩
  | reg r => exact h
  | all items => exact h
  | static k v =>
    simp only [Op.run, Option.map_eq_some', Prod.exists, exists_eq_right] at h ⊢
    obtain ⟨x, hx⟩ := h
    exact ⟨x, staticSettle_mono (call_mono hnm) _ _ _ _ hx⟩

theorem runOps_mono (n m : Nat) (hnm : n ≤ m) (ops : List Op) (w w1 : World)
    (h : runOps n ops w = some w1) : runOps m ops w = some w1 := by
  induction ops generalizing w with
  | nil => exact h
  | cons o os ih =>
    simp only [runOps] at h ⊢
    cases ho : o.run n w with
    | none => simp [ho] at h
    | some w2 =>
      rw [ho] at h
      rw [op_run_mono n m hnm o w w2 ho]
      exact ih w2 h

theorem op_terminates (o : Op) (w : World) : ∃ n w1, o.run n w = some w1 := by
  cases o with
  | call f args =>
    obtain ⟨n, r, w1, h⟩ := call_terminates f args w
    exact ⟨n, w1, by simp [Op.run, h]⟩
  | reg r => exact ⟨0, _, rfl⟩
  | all items => exact ⟨0, _, rfl⟩
  | static k v =>
    refine ⟨1, settledNew (kindSt k) v w, ?_⟩
    show (staticSettle (MyPromise.call (0 + 1)) (kindSt k) v w).map Prod.snd = _
    rw [staticSettle_fresh 0 (kindSt k) (kindSt_ne k) v w]
    rfl

/-- Every sequence of operations runs to its end, given enough fuel. -/
theorem runOps_terminates (ops : List Op) (w : World) : ∃ n w1, runOps n ops w = some w1 := by
  induction ops generalizing w with
  | nil => exact ⟨0, w, rfl⟩
  | cons o os ih =>
    obtain ⟨n1, w1, h1⟩ := op_terminates o w
    obtain ⟨n2, w2, h2⟩ := ih w1
    refine ⟨max n1 n2, w2, ?_⟩
    simp only [runOps, op_run_mono n1 _ (le_max_left n1 n2) o w w1 h1]
    exact runOps_mono n2 _ (le_max_right n1 n2) os w1 w2 h2

/-! ## C19: a registration is answered by at most one call -/

theorem unborn_uses (T : Nat → Bool) (n : Nat) : Unborn (Fn.uses T) n :=
  fun _ _ _ _ _ => ⟨rfl, rfl⟩

theorem uses_mono (T1 T2 : Nat → Bool) (h : ∀ i, T1 i = true → T2 i = true) (f : Fn) :
    f.uses T1 ≤ f.uses T2 := by
  induction f with
  | user id body =>
    simp only [Fn.uses]
    by_cases h1 : T1 id = true
    · simp [h1, h id h1]
    · simp only [h1, Bool.false_eq_true, if_false]; exact Nat.zero_le _
  | onResolve cb q ih => exact ih
  | onReject cb q ih => exact ih
  | finThen fin ih => exact ih
  | finCatch fin ih => exact ih
  | _ => exact le_refl _

theorem owed_mono (T1 T2 : Nat → Bool) (h : ∀ i, T1 i = true → T2 i = true) (w : World) :
    owed (Fn.uses T1) w ≤ owed (Fn.uses T2) w := by
  unfold owed
  apply List.sum_le_sum
  intro pr _
  unfold Promise.owed
  split
  · exact max_le_max (List.sum_le_sum (fun f _ => uses_mono T1 T2 h f))
      (List.sum_le_sum (fun f _ => uses_mono T1 T2 h f))
  · exact le_refl _

theorem op_weight_mono (T1 T2 : Nat → Bool) (h : ∀ i, T1 i = true → T2 i = true) (o : Op) :
    o.weight (Fn.uses T1) ≤ o.weight (Fn.uses T2) := by
  cases o with
  | call f args => exact uses_mono T1 T2 h f
  | reg r =>
    cases r with
    | then_ self f g => exact Nat.add_le_add (uses_mono T1 T2 h f) (uses_mono T1 T2 h g)
    | catch_ self g => exact uses_mono T1 T2 h g
    | finally_ self fin => exact Nat.add_le_add (uses_mono T1 T2 h fin) (uses_mono T1 T2 h fin)
  | all items => exact le_refl _
  | static k v => exact le_refl _

/-- Right after the registration the budget with the credit of the receiver is
one above the calls made so far, when the function of kind `k` is not
tracked. -/
theorem budgetFor_then (T : Nat → Bool) (k : Bool) (w : World) (p : Nat) (pr : Promise)
    (hp : w.heap[p]? = some pr) (a b : Nat) (fa fb : List Val → Outcome)
    (hw : owed (Fn.uses T) w = 0) (hk : T (if k then a else b) = false) :
    budgetFor T k p (then_ p (.user a fa) (.user b fb) w).2 ≤ hits T w + 1 := by
  have h0 := owed_get (Fn.uses T) w p pr hp
  have he := owed_then_eq (Fn.uses T) p (.user a fa) (.user b fb) w pr (get_alloc_old w p pr hp)
  have hget : (then_ p (.user a fa) (.user b fb) w).2.heap[p]? = some
      { pr with resolveFns := pr.resolveFns ++ [.onResolve (.user a fa) w.heap.length],
                rejectFns := pr.rejectFns ++ [.onReject (.user b fb) w.heap.length] } := by
    rw [get_then, get_alloc_old w p pr hp]; simp [orIdent, Fn.isFunction]
  have hh : hits T (then_ p (.user a fa) (.user b fb) w).2 = hits T w := by
    simp only [hits, log_then]
  simp only [orIdent, Fn.isFunction, if_true] at he
  simp only [budgetFor, budget, hh, bonus, hget]
  by_cases hs : pr.state = .pending
  · have h1 : max (pr.resolveFns.map (Fn.uses T)).sum (pr.rejectFns.map (Fn.uses T)).sum = 0 := by
      have : Promise.owed (Fn.uses T) pr = max (pr.resolveFns.map (Fn.uses T)).sum
          (pr.rejectFns.map (Fn.uses T)).sum := by simp [Promise.owed, hs]
      omega
    have hr : (pr.resolveFns.map (Fn.uses T)).sum = 0 := by omega
    have hj : (pr.rejectFns.map (Fn.uses T)).sum = 0 := by omega
    simp only [Promise.owed, hs, if_true, List.map_append, List.sum_append, List.map_cons,
      List.map_nil, List.sum_cons, List.sum_nil, Fn.uses, Nat.add_zero, hr, hj, Nat.zero_add,
      max_self, hw] at he ⊢
    cases k
    · simp only [Bool.false_eq_true, if_false] at hk
      simp only [queueOf, Bool.not_false, if_true, Bool.false_eq_true, if_false, hk,
        List.map_append, List.sum_append, List.map_cons, List.map_nil, List.sum_cons,
        List.sum_nil, Fn.uses, Nat.add_zero, hr, hj, Nat.zero_add] at he ⊢
      by_cases hta : T a = true
      · simp only [hta, if_true] at he ⊢
        simp at he ⊢; omega
      · simp only [hta, if_false] at he ⊢
        simp at he ⊢; omega
    · simp only [if_true] at hk
      simp only [queueOf, Bool.not_true, if_true, Bool.false_eq_true, if_false, hk,
        List.map_append, List.sum_append, List.map_cons, List.map_nil, List.sum_cons,
        List.sum_nil, Fn.uses, Nat.add_zero, hr, hj, Nat.zero_add] at he ⊢
      by_cases htb : T b = true
      · simp only [htb, if_true] at he ⊢
        simp at he ⊢; omega
      · simp only [htb, if_false] at he ⊢
        simp at he ⊢; omega
  · simp only [Promise.owed, hs, if_false] at he ⊢
    split <;> omega

/-- Right after the registration the budget is one above the calls made so
far. -/
theorem budget_then_user (T : Nat → Bool) (w : World) (p a b : Nat)
    (fa fb : List Val → Outcome) (hw : owed (Fn.uses T) w = 0) :
    budget T (then_ p (.user a fa) (.user b fb) w).2 ≤ hits T w + 1 := by
  have h := budget_then T p (.user a fa) (.user b fb) w
  simp only [orIdent, Fn.isFunction, if_true, Fn.uses, budget, hw] at h ⊢
  have : max (if T a = true then 1 else 0) (if T b = true then 1 else 0) ≤ 1 := by
    split <;> split <;> simp
  omega

theorem bonus_settled (T : Nat → Bool) (k : Bool) (p : Nat) (w : World)
    (h : stateOf p w = some (kindSt k)) : bonus T k p w = 1 := by
  unfold stateOf at h
  cases hp : w.heap[p]? with
  | none => rw [hp] at h; simp at h
  | some pr =>
    rw [hp] at h
    simp only [Option.map_some', Option.some.injEq] at h
    simp [bonus, hp, h, kindSt_ne k]

/-- The tracked functions are called at most once after a registration of two
of them in a world that owes no call, whatever untracked operations follow;
when the function of kind `k` is not tracked and the receiver ends settled with
kind `k`, no tracked function is called at all. -/
theorem hits_after_then (T : Nat → Bool) (w : World) (p : Nat) (pr : Promise)
    (hp : w.heap[p]? = some pr) (a b : Nat) (fa fb : List Val → Outcome)
    (hw : owed (Fn.uses T) w = 0) (ops : List Op)
    (hops : ∀ o ∈ ops, o.weight (Fn.uses T) = 0) (n : Nat) (w2 : World)
    (hrun : runOps n ops (then_ p (.user a fa) (.user b fb) w).2 = some w2) :
    hits T w ≤ hits T w2 ∧ hits T w2 ≤ hits T w + 1 ∧
      (∀ k, T (if k then a else b) = false → stateOf p w2 = some (kindSt k) →
        hits T w2 = hits T w) := by
  have hh : hits T (then_ p (.user a fa) (.user b fb) w).2 = hits T w := by
    simp only [hits, log_then]
  have hlo := hits_le_of_grows T _ w2 (runOps_grows n ops _ w2 hrun)
  rw [hh] at hlo
  have h1 := runOps_meter (meter_budget T) n ops _ w2 (unborn_uses T _) hops hrun
  have h2 := budget_then_user T w p a b fa fb hw
  refine ⟨hlo, ?_, ?_⟩
  · simp only [budget] at h1 h2; omega
  · intro k hk hst
    have h3 := runOps_meter (meter_budgetFor T k p) n ops _ w2 (unborn_uses T _) hops hrun
    have h4 := budgetFor_then T k w p pr hp a b fa fb hw hk
    have h5 := bonus_settled T k p w2 hst
    simp only [budgetFor, budget] at h3 h4
    omega

theorem hits_either (a b : Nat) (hab : a ≠ b) (w : World) :
    hits (tracksTwo a b) w = calls a w + calls b w := by
  unfold calls hits
  generalize w.log = l
  induction l with
  | nil => rfl
  | cons e es ih =>
    simp only [tracksTwo, tracksOne] at ih
    by_cases h1 : e.1 = a
    · have h2 : (e.1 == b) = false := beq_eq_false_iff_ne.mpr (fun h => hab (h1.symm.trans h))
      have h3 : (e.1 == a) = true := beq_iff_eq.mpr h1
      simp only [List.filter_cons, tracksTwo, tracksOne, h2, h3, Bool.or_false, if_true,
        Bool.false_eq_true, if_false, List.length_cons, ih]
      omega
    · have h3 : (e.1 == a) = false := beq_eq_false_iff_ne.mpr h1
      by_cases h2 : e.1 = b
      · have h4 : (e.1 == b) = true := beq_iff_eq.mpr h2
        simp only [List.filter_cons, tracksTwo, tracksOne, h3, h4, Bool.false_or, if_true,
          Bool.false_eq_true, if_false, List.length_cons, ih]
        omega
      · have h4 : (e.1 == b) = false := beq_eq_false_iff_ne.mpr h2
        simp only [List.filter_cons, tracksTwo, tracksOne, h3, h4, Bool.or_false,
          Bool.false_eq_true, if_false, ih]

/-- C19 (src/promise.js lines 9-44, 61-115). After `then(onSuccess, onFailure)`
on any instance `p`, with two distinct caller-supplied functions `a` and `b`
that no pending instance of the world has in a queue, every sequence of
operations that does not hand in `a` or `b` again (calls of capabilities and
of other functions, registrations, `all`, static constructions) runs to its
end, and in the world it ends in `a` and `b` have been called at most once
together; if `p` is then fulfilled `b` has not been called, and if `p` is then
rejected `a` has not been called. -/
theorem C19_at_most_one_branch (w : World) (p : PId) (pr : Promise)
    (hp : w.heap[p]? = some pr) (a b : Nat) (hab : a ≠ b) (fa fb : List Val → Outcome)
    (hw : owed (Fn.uses (tracksTwo a b)) w = 0) (ops : List Op)
    (hops : ∀ o ∈ ops, o.weight (Fn.uses (tracksTwo a b)) = 0) :
    ∃ n w2, runOps n ops (then_ p (.user a fa) (.user b fb) w).2 = some w2 ∧
      calls a w2 + calls b w2 ≤ calls a w + calls b w + 1 ∧
      (stateOf p w2 = some .resolved → calls b w2 = calls b w) ∧
      (stateOf p w2 = some .rejected → calls a w2 = calls a w) := by
  obtain ⟨n, w2, hrun⟩ := runOps_terminates ops (then_ p (.user a fa) (.user b fb) w).2
  have ha : ∀ i, tracksOne a i = true → tracksTwo a b i = true := by
    intro i hi; simp only [tracksOne, tracksTwo, Bool.or_eq_true] at hi ⊢; exact Or.inl hi
  have hb : ∀ i, tracksOne b i = true → tracksTwo a b i = true := by
    intro i hi; simp only [tracksOne, tracksTwo, Bool.or_eq_true] at hi ⊢; exact Or.inr hi
  have hwa : owed (Fn.uses (tracksOne a)) w = 0 := Nat.le_zero.mp (hw ▸ owed_mono _ _ ha w)
  have hwb : owed (Fn.uses (tracksOne b)) w = 0 := Nat.le_zero.mp (hw ▸ owed_mono _ _ hb w)
  have hopsa : ∀ o ∈ ops, o.weight (Fn.uses (tracksOne a)) = 0 :=
    fun o ho => Nat.le_zero.mp (hops o ho ▸ op_weight_mono _ _ ha o)
  have hopsb : ∀ o ∈ ops, o.weight (Fn.uses (tracksOne b)) = 0 :=
    fun o ho => Nat.le_zero.mp (hops o ho ▸ op_weight_mono _ _ hb o)
  have h1 := (hits_after_then (tracksTwo a b) w p pr hp a b fa fb hw ops hops n w2 hrun).2.1
  have h2 := (hits_after_then (tracksOne b) w p pr hp a b fa fb hwb ops hopsb n w2 hrun).2.2 true
    (by simp only [if_true, tracksOne, beq_eq_false_iff_ne]; exact hab)
  have h3 := (hits_after_then (tracksOne a) w p pr hp a b fa fb hwa ops hopsa n w2 hrun).2.2 false
    (by simp only [Bool.false_eq_true, if_false, tracksOne, beq_eq_false_iff_ne]; exact Ne.symm hab)
  rw [hits_either a b hab, hits_either a b hab] at h1
  exact ⟨n, w2, hrun, h1, h2, h3⟩

/-- C19 at a concrete input: `then(f7, f8)` on the pending instance 0 of a
world with one instance, followed by `resolve(5)`, `reject("e")`, a second
registration of other functions and `resolve(6)`; the run calls `f7` once and
`f8` never. -/
theorem C19_at_most_one_branch_witness :
    (alloc World.empty).2.heap[0]? = some Promise.fresh ∧ (7 : Nat) ≠ 8 ∧
    owed (Fn.uses (tracksTwo 7 8)) (alloc World.empty).2 = 0 ∧
    (∀ o ∈ [Op.call (cap true 0) [.num 5], .call (cap false 0) [.str "e"],
        .reg (.then_ 0 (noop 3) (noop 4)), .call (cap true 0) [.num 6]],
      o.weight (Fn.uses (tracksTwo 7 8)) = 0) ∧
    (∃ n w2, runOps n [Op.call (cap true 0) [.num 5], .call (cap false 0) [.str "e"],
        .reg (.then_ 0 (noop 3) (noop 4)), .call (cap true 0) [.num 6]]
        (then_ 0 (.user 7 (fun _ => .ret (.num 1))) (.user 8 (fun _ => .ret (.num 2)))
          (alloc World.empty).2).2 = some w2 ∧
      calls 7 w2 + calls 8 w2 ≤
        calls 7 (alloc World.empty).2 + calls 8 (alloc World.empty).2 + 1 ∧
      (stateOf 0 w2 = some .resolved → calls 8 w2 = calls 8 (alloc World.empty).2) ∧
      (stateOf 0 w2 = some .rejected → calls 7 w2 = calls 7 (alloc World.empty).2)) ∧
    (∃ w2, runOps 6 [Op.call (cap true 0) [.num 5], .call (cap false 0) [.str "e"],
        .reg (.then_ 0 (noop 3) (noop 4)), .call (cap true 0) [.num 6]]
        (then_ 0 (.user 7 (fun _ => .ret (.num 1))) (.user 8 (fun _ => .ret (.num 2)))
          (alloc World.empty).2).2 = some w2 ∧
      stateOf 0 w2 = some .resolved ∧ calls 7 w2 = 1 ∧ calls 8 w2 = 0 ∧
      calls 3 w2 = 0 ∧ calls 4 w2 = 0) :=
  ⟨rfl, by decide, rfl, by decide,
    C19_at_most_one_branch (alloc World.empty).2 0 Promise.fresh rfl 7 8 (by decide)
      (fun _ => .ret (.num 1)) (fun _ => .ret (.num 2)) rfl _ (by decide),
    ⟨_, rfl, rfl, rfl, rfl, rfl, rfl⟩⟩

/-! ## The capabilities of one instance held in the queues -/

theorem reach_eq_zero (q0 : Nat) (f : Fn) : f.reach q0 = 0 ↔ f.avoids q0 = true := by
  induction f with
  | resolve p => simp [Fn.reach, Fn.avoids]
  | reject p => simp [Fn.reach, Fn.avoids]
  | onResolve cb q ih =>
    simp only [Fn.reach, Fn.avoids, Bool.and_eq_true, decide_eq_true_eq, ← ih]
    by_cases h : q = q0 <;> simp [h]
  | onReject cb q ih =>
    simp only [Fn.reach, Fn.avoids, Bool.and_eq_true, decide_eq_true_eq, ← ih]
    by_cases h : q = q0 <;> simp [h]
  | finThen fin ih => exact ih
  | finCatch fin ih => exact ih
  | allThen i len agg cnt => simp [Fn.reach, Fn.avoids]
  | allCatch agg => simp [Fn.reach, Fn.avoids]
  | _ => simp [Fn.reach, Fn.avoids]

theorem mark_alloc (q0 : Nat) (w : World) :
    mark q0 (alloc w).2 + (if w.heap.length = q0 then 2 else 0) = mark q0 w := by
  cases hq : w.heap[q0]? with
  | some pr =>
    have hne : w.heap.length ≠ q0 := Nat.ne_of_gt (lt_of_get _ _ _ hq)
    simp [mark, hq, get_alloc_old w q0 pr hq, hne]
  | none =>
    by_cases he : w.heap.length = q0
    · subst he
      simp [mark, hq, get_alloc_new, Promise.fresh]
    · have : (alloc w).2.heap[q0]? = none := by
        cases ha : (alloc w).2.heap[q0]? with
        | none => rfl
        | some pa =>
          rcases get_alloc w q0 pa ha with h1 | ⟨h2, -⟩
          · rw [hq] at h1; cases h1
          · exact absurd h2.symm he
      simp [mark, hq, this, he]

theorem mark_then (q0 : Nat) (x : PId) (f g : Fn) (w : World) :
    mark q0 (then_ x f g w).2 = mark q0 (alloc w).2 := by
  simp only [mark, get_then]
  cases (alloc w).2.heap[q0]? with
  | none => rfl
  | some pa =>
    simp only [Option.map_some']
    split <;> rfl

theorem meter_exposure (q0 : Nat) : Meter (Fn.reach q0) (exposure q0) where
  w_ident := rfl
  w_konst := fun _ => rfl
  w_onResolve := by
    intro cb q
    simp only [Fn.reach]
    split <;> omega
  w_onReject := by
    intro cb q
    simp only [Fn.reach]
    split <;> omega
  w_finThen := fun _ => le_refl _
  w_finCatch := fun _ => le_refl _
  w_allThen := fun _ _ _ _ => le_refl _
  w_allCatch := fun _ => le_refl _
  step_trace := fun _ _ _ _ => Nat.le_add_right _ _
  step_alloc := by
    intro w
    have h1 := mark_alloc q0 w
    have h2 := owed_alloc (Fn.reach q0) w
    simp only [exposure, Fn.reach]
    by_cases he : w.heap.length = q0
    · simp only [he, if_true, max_self] at h1 ⊢; omega
    · simp only [he, if_false, max_self] at h1 ⊢; omega
  step_bump := fun _ _ => le_refl _
  step_counts := fun _ _ => le_refl _
  step_then := by
    intro x f g w
    have h1 := mark_alloc q0 w
    have h2 := mark_then q0 x f g w
    have h3 := owed_then (Fn.reach q0) x f g w
    simp only [exposure, Fn.reach] at h3 ⊢
    by_cases he : w.heap.length = q0
    · simp only [he, if_true] at h1 h3 ⊢; omega
    · simp only [he, if_false] at h1 h3 ⊢; omega
  step_assign := by
    intro k p v w pr hp hs
    have h1 := owed_assign (Fn.reach q0) p pr (kindSt k) v w hp (kindSt_ne k)
    have h2 := sum_queueOf_le_owed (Fn.reach q0) k pr hs
    have hget := get_assign p pr (kindSt k) v w hp q0
    simp only [exposure, mark, hget]
    by_cases hpq : q0 = p
    · subst hpq
      have hc : (cap k q0).reach q0 = 1 := by cases k <;> simp [cap, Fn.reach]
      simp only [if_true, hp, hs, kindSt_ne k, if_false, hc]
      omega
    · simp only [hpq, if_false]
      omega

theorem sum_map_get_le {α : Type} (g : α → Nat) (l : List α) (i : Nat) (a : α)
    (h : l[i]? = some a) : g a ≤ (l.map g).sum := by
  induction l generalizing i with
  | nil => simp at h
  | cons x xs ih =>
    cases i with
    | zero =>
      simp only [List.getElem?_cons_zero, Option.some.injEq] at h
      subst h
      simp
    | succ j =>
      simp only [List.getElem?_cons_succ] at h
      have := ih j h
      simp only [List.map_cons, List.sum_cons]
      omega

theorem sum_map_zero {α : Type} (g : α → Nat) (l : List α) (h : (l.map g).sum = 0) :
    ∀ a ∈ l, g a = 0 := by
  induction l with
  | nil => intro a ha; simp at ha
  | cons x xs ih =>
    simp only [List.map_cons, List.sum_cons] at h
    intro a ha
    rcases List.mem_cons.mp ha with h1 | h1
    · subst h1; omega
    · exact ih (by omega) a h1

theorem sum_map_zero_of {α : Type} (g : α → Nat) (l : List α) (h : ∀ a ∈ l, g a = 0) :
    (l.map g).sum = 0 := by
  induction l with
  | nil => rfl
  | cons x xs ih =>
    simp only [List.map_cons, List.sum_cons, h x (List.mem_cons_self _ _),
      ih (fun a ha => h a (List.mem_cons_of_mem _ ha))]

/-- Two different instances owe together at most what the heap owes. -/
theorem owed_two (W : Fn → Nat) (w : World) (i j : Nat) (pi pj : Promise) (hij : i ≠ j)
    (hi : w.heap[i]? = some pi) (hj : w.heap[j]? = some pj) :
    Promise.owed W pi + Promise.owed W pj ≤ owed W w := by
  have h1 := sum_map_set (Promise.owed W) w.heap j pj ⟨.resolved, .undefined, [], []⟩ hj
  have h0 : Promise.owed W ⟨.resolved, .undefined, [], []⟩ = 0 := rfl
  have h2 : (w.heap.set j ⟨.resolved, .undefined, [], []⟩)[i]? = some pi := by
    rw [List.getElem?_set_ne (fun h => hij h.symm)]; exact hi
  have h3 := sum_map_get_le (Promise.owed W) _ i pi h2
  unfold owed
  omega

theorem owed_zero_of_unreached (q : Nat) (w : World) (h : Unreached q w) :
    owed (Fn.reach q) w = 0 := by
  unfold owed
  apply sum_map_zero_of
  intro pr hpr
  obtain ⟨i, hi⟩ := List.mem_iff_getElem?.mp hpr
  unfold Promise.owed
  split
  · rename_i hs
    have hz : ∀ g ∈ pr.resolveFns ++ pr.rejectFns, Fn.reach q g = 0 :=
      fun g hg => (reach_eq_zero q g).mpr (h.2 i pr hi hs g hg)
    rw [sum_map_zero_of _ _ (fun g hg => hz g (List.mem_append_left _ hg)),
      sum_map_zero_of _ _ (fun g hg => hz g (List.mem_append_right _ hg))]
    rfl
  · rfl

theorem unborn_reach (q n : Nat) (h : q < n) : Unborn (Fn.reach q) n := by
  intro a ha i len cnt
  have hne : a ≠ q := Nat.ne_of_gt (Nat.lt_of_lt_of_le h ha)
  simp [Fn.reach, hne]

theorem mark_eq_zero (q : Nat) (w : World) (h : mark q w = 0) : stateOf q w = some .pending := by
  unfold mark at h
  cases hq : w.heap[q]? with
  | none => rw [hq] at h; simp at h
  | some pr =>
    rw [hq] at h
    simp only at h
    by_cases hs : pr.state = .pending
    · simp [stateOf, hq, hs]
    · simp [hs] at h

theorem mark_of_pending (q : Nat) (w : World) (h : stateOf q w = some .pending) :
    mark q w = 0 := by
  obtain ⟨pr, hq, hs⟩ := pending_of_stateOf q w h
  simp [mark, hq, hs]

/-- A settled instance has the same state and value in every later world. -/
theorem status_grows (q : Nat) (st : St) (y : Val) (hst : st ≠ .pending) (w w1 : World)
    (hg : Grows w w1) (h1 : stateOf q w = some st) (h2 : valueOf q w = y) :
    stateOf q w1 = some st ∧ valueOf q w1 = y := by
  unfold stateOf at h1
  cases hq : w.heap[q]? with
  | none => rw [hq] at h1; simp at h1
  | some pr =>
    rw [hq] at h1
    simp only [Option.map_some', Option.some.injEq] at h1
    have h3 : pr.value = y := by simpa [valueOf, hq] using h2
    exact status_of_grows q st y hst w w1 hg pr hq h1 h3

/-- Draining a queue that holds the function `h`, the functions before it
avoiding instance `q`, as do those queued on the other pending instances: the
call of the capability returns normally, and on its way it calls `h` in a
world that is safe, where `q` is still unreached and has the status it had;
the final world extends the one that call leaves. -/
theorem settle_reaches_mid (w : World) (x q : PId) (prx : Promise)
    (hx : w.heap[x]? = some prx) (hsx : prx.state = .pending) (hsafe : Safe w)
    (hql : q < w.heap.length) (hqx : q ≠ x) (k : Bool) (y : Val) (old : List Fn) (h : Fn)
    (more : List Fn)
    (hqueue : queueOf k prx = old ++ h :: more) (hold : ∀ g ∈ old, g.avoids q = true)
    (hothers : ∀ (i : PId) (pi : Promise), w.heap[i]? = some pi → pi.state = .pending →
      i ≠ x → ∀ g ∈ pi.resolveFns ++ pi.rejectFns, g.avoids q = true)
    (hfun : h.isFunction = true) :
    ∃ n w3 r wb wc, call (n + 1) (cap k x) [y] w = some (.ret .undefined, w3) ∧
      call n h [y] wb = some (r, wc) ∧ Safe wb ∧ Unreached q wb ∧ SameStatus q w wb ∧
      Grows wc w3 := by
  obtain ⟨n, r, w3, hcall⟩ := call_terminates (cap k x) [y] w
  have hgc : (cap k x).isGuarded = true := by cases k <;> rfl
  obtain ⟨x0, hx0⟩ := (call_safe n _ _ w r w3 hsafe hcall).2 hgc
  subst hx0
  cases n with
  | zero => simp [call] at hcall
  | succ n =>
    have hset := hcall
    rw [call_cap] at hset
    have hx0 : x0 = .undefined := settle_ret _ _ _ _ _ _ hset
    subst hx0
    rw [settle_pending _ _ _ _ _ _ hx hsx, queue_eq_queueOf, hqueue] at hset
    generalize hwa : assign x prx (kindSt k) (arg0 [y]) w = wa at hset
    have hxa : wa.heap[x]? = some { prx with state := kindSt k, value := y } := by
      rw [← hwa, get_assign _ _ _ _ _ hx]; simp [arg0]
    have hsafea : Safe wa := by rw [← hwa]; exact safe_assign _ _ _ _ _ hx hsafe
    have hsamea : SameStatus q w wa := by
      rw [← hwa]; exact sameStatus_assign q x prx _ _ w hx (fun e => hqx e.symm)
    have hunr : Unreached q wa := by
      refine ⟨by rw [← hwa, length_assign]; exact hql, ?_⟩
      intro i pi hi hsi g hg
      by_cases hix : i = x
      · subst hix
        rw [hxa] at hi
        cases hi
        exact absurd hsi (kindSt_ne k)
      · rw [← hwa, get_assign _ _ _ _ _ hx] at hi
        simp only [hix, if_false] at hi
        exact hothers i pi hi hsi hix g hg
    have hgold : ∀ g ∈ old, g.isGuarded = true := fun g hg =>
      hsafe x prx hx g (queueOf_mem k prx g (by rw [hqueue]; exact List.mem_append_left _ hg))
    have hgh : h.isGuarded = true :=
      hsafe x prx hx h (queueOf_mem k prx h (by rw [hqueue]; simp))
    rw [forEachFn_append] at hset
    cases hpre : forEachFn (call n) x old wa with
    | none => simp [hpre] at hset
    | some z =>
      rw [hpre] at hset
      obtain ⟨rb, wb⟩ := z
      obtain ⟨hsafeb, -, hretb⟩ := forEachFn_sound rule_safe (call_sound rule_safe n) True x
        old (fun g hg _ => ⟨trivial, fun _ => hgold g hg⟩) wa hsafea rb wb hpre
      obtain ⟨hunrb, hsame, -⟩ := forEachFn_sound (rule_unreached q)
        (call_sound (rule_unreached q) n) False x old
        (fun g hg _ => ⟨hold g hg, fun hf => hf.elim⟩) wa hunr rb wb hpre
      have hgrow := (forEachFn_sound rule_grows (call_sound rule_grows n) False x old
        (fun _ _ _ => ⟨trivial, fun hf => hf.elim⟩) wa trivial rb wb hpre).2.1
      obtain ⟨xb, hxb⟩ := hretb trivial
      subst hxb
      simp only at hset
      obtain ⟨prb, hpb, hstb, -⟩ := hgrow.2.1 x _ hxa
      have hvalb : valueOf x wb = y := by
        simp [valueOf, hpb, (hstb (kindSt_ne k)).2]
      simp only [forEachFn, hfun, if_true, hvalb] at hset
      cases hc : call n h [y] wb with
      | none => simp [hc] at hset
      | some z1 =>
        rw [hc] at hset
        obtain ⟨r1, wc⟩ := z1
        obtain ⟨x1, hx1⟩ := (call_safe n _ _ wb r1 wc hsafeb hc).2 hgh
        subst hx1
        simp only at hset
        have hgrow2 := (forEachFn_sound rule_grows (call_sound rule_grows n) False x more
          (fun _ _ _ => ⟨trivial, fun hf => hf.elim⟩) wc trivial _ w3 hset).2.1
        exact ⟨n, w3, _, wb, wc, hcall, hc, hsafeb, hunrb,
          ⟨hsame.1.trans hsamea.1, hsame.2.trans hsamea.2⟩, hgrow2⟩

/-- After flattening has linked the successor `q` to the returned instance
`x`: whatever operations follow that hand in no capability of `q`, as long as
`x` is pending so is `q`, and a call of a capability of `x` then returns
normally and leaves `q` with the state of that capability and the value
passed. -/
theorem mirror_after_ops (w2 : World) (x q q1 : Nat) (hsafe : Safe w2)
    (hexp : exposure q w2 ≤ 1) (hq : q < w2.heap.length) (hx : x < w2.heap.length)
    (hqx : q ≠ x) (hq1 : q1 ≠ q)
    (hlink : ∀ prx, w2.heap[x]? = some prx → prx.state = .pending →
      ∃ oldr oldj, prx.resolveFns = oldr ++ [.onResolve (.resolve q) q1] ∧
        prx.rejectFns = oldj ++ [.onReject (.reject q) q1])
    (ops : List Op) (hops : ∀ o ∈ ops, o.weight (Fn.reach q) = 0) (m : Nat) (w3 : World)
    (hrun : runOps m ops w2 = some w3) (prx3 : Promise) (hx3 : w3.heap[x]? = some prx3)
    (hs3 : prx3.state = .pending) :
    stateOf q w3 = some .pending ∧
    ∀ k2 y, ∃ n3 w4, call n3 (cap k2 x) [y] w3 = some (.ret .undefined, w4) ∧
      stateOf q w4 = some (kindSt k2) ∧ valueOf q w4 = y := by
  have hg := runOps_grows m ops w2 w3 hrun
  have hsafe3 := runOps_safe m ops w2 w3 hsafe hrun
  have hexp3 : exposure q w3 ≤ 1 :=
    le_trans (runOps_meter (meter_exposure q) m ops w2 w3 (unborn_reach q _ hq) hops hrun) hexp
  have hq3l : q < w3.heap.length := Nat.lt_of_lt_of_le hq hg.1
  obtain ⟨prx2, hprx2⟩ := get_of_lt w2 x hx
  obtain ⟨pr1, hp1, hst1, ⟨lr, hlr⟩, ⟨lj, hlj⟩⟩ := hg.2.1 x prx2 hprx2
  rw [hx3] at hp1
  simp only [Option.some.injEq] at hp1
  subst hp1
  have hs2 : prx2.state = .pending := by
    by_contra hne
    rw [(hst1 hne).1] at hs3
    exact hne hs3
  obtain ⟨oldr, oldj, hr, hj⟩ := hlink prx2 hprx2 hs2
  have hqr : prx3.resolveFns = oldr ++ .onResolve (.resolve q) q1 :: lr := by
    rw [hlr, hr]; simp
  have hqj : prx3.rejectFns = oldj ++ .onReject (.reject q) q1 :: lj := by
    rw [hlj, hj]; simp
  have hown := owed_get (Fn.reach q) w3 x prx3 hx3
  have hw1 : Fn.reach q (.onResolve (.resolve q) q1) = 1 := by simp [Fn.reach, hq1]
  have hw2 : Fn.reach q (.onReject (.reject q) q1) = 1 := by simp [Fn.reach, hq1]
  have hpo : Promise.owed (Fn.reach q) prx3 =
      max ((oldr.map (Fn.reach q)).sum + (1 + (lr.map (Fn.reach q)).sum))
        ((oldj.map (Fn.reach q)).sum + (1 + (lj.map (Fn.reach q)).sum)) := by
    simp only [Promise.owed, hs3, if_true, hqr, hqj, List.map_append, List.sum_append,
      List.map_cons, List.sum_cons, hw1, hw2]
  have hmark : mark q w3 = 0 := by
    simp only [exposure] at hexp3
    omega
  have hq3 : stateOf q w3 = some .pending := mark_eq_zero q w3 hmark
  have howed : owed (Fn.reach q) w3 ≤ 1 := by
    simp only [exposure] at hexp3
    omega
  have hothers : ∀ (i : PId) (pi : Promise), w3.heap[i]? = some pi → pi.state = .pending →
      i ≠ x → ∀ g ∈ pi.resolveFns ++ pi.rejectFns, g.avoids q = true := by
    intro i pi hi hsi hix g hg
    have h2 := owed_two (Fn.reach q) w3 i x pi prx3 hix hi hx3
    have hz : max ((pi.resolveFns.map (Fn.reach q)).sum) ((pi.rejectFns.map (Fn.reach q)).sum)
        = 0 := by
      have : Promise.owed (Fn.reach q) pi = max ((pi.resolveFns.map (Fn.reach q)).sum)
          ((pi.rejectFns.map (Fn.reach q)).sum) := by simp [Promise.owed, hsi]
      omega
    apply (reach_eq_zero q g).mp
    rcases List.mem_append.mp hg with h3 | h3
    · exact sum_map_zero _ _ (by omega) g h3
    · exact sum_map_zero _ _ (by omega) g h3
  refine ⟨hq3, ?_⟩
  intro k2 y
  have hfinish : ∀ (old more : List Fn),
      queueOf k2 prx3 = old ++ mkHandler k2 (cap k2 q) q1 :: more →
      (old.map (Fn.reach q)).sum = 0 →
      ∃ n3 w4, call n3 (cap k2 x) [y] w3 = some (.ret .undefined, w4) ∧
        stateOf q w4 = some (kindSt k2) ∧ valueOf q w4 = y := by
    intro old more hqueue hold
    obtain ⟨n3, w4, r, wb, wc, hcall, hh, -, -, hsameb, hgrow⟩ :=
      settle_reaches_mid w3 x q prx3 hx3 hs3 hsafe3 hq3l hqx k2 y old
        (mkHandler k2 (cap k2 q) q1) more hqueue
        (fun g hg => (reach_eq_zero q g).mp (sum_map_zero _ _ hold g hg)) hothers
        (by cases k2 <;> rfl)
    have hqb : stateOf q wb = some .pending := hsameb.1.trans hq3
    obtain ⟨hs, hv⟩ := handler_link k2 q q1 y n3 wb r wc (pending_of_stateOf _ _ hqb) hh
    exact ⟨n3 + 1, w4, hcall, status_grows q (kindSt k2) y (kindSt_ne k2) wc w4 hgrow hs hv⟩
  cases k2
  · exact hfinish oldj lj (by simp [queueOf, mkHandler, cap, hqj]) (by omega)
  · exact hfinish oldr lr (by simp [queueOf, mkHandler, cap, hqr]) (by omega)

/-! ## C11: the successor follows the returned instance -/

/-- C11 (mirroring a returned instance): in a safe, well-formed world, for an
instance `p` that is pending when `then(f, g)` is called and on which a settle
capability of kind `k` is called with `v` afterwards: if the continuation
stored for that outcome returns the existing instance `x`, the call returns
normally and leaves the successor pending.  Whatever operations follow that
hand in no capability of the successor (calls of any other capability or
function, registrations, `all`, static constructions), they run to their end,
and if `x` is still pending after them then so is the successor, and a call
of either capability of `x` with `y` then returns normally and leaves the
successor with the state of that capability and the value `y`. -/
theorem C11_mirrors_returned_instance (w : World) (p : PId) (pr : Promise)
    (hp : w.heap[p]? = some pr) (hs : pr.state = .pending) (hsafe : Safe w)
    (hwf : WellFormed w) (f g : Fn) (k : Bool) (v : Val) (x : PId) (hx : x < w.heap.length)
    (hcb : ∀ wx, ∃ c wy, call c (contOf k f g) [v] wx = some (.ret (.promise x), wy) ∧
      wy.heap = wx.heap) :
    ∃ n w2, call n (cap k p) [v] (then_ p f g w).2 = some (.ret .undefined, w2) ∧
      stateOf (then_ p f g w).1 w2 = some .pending ∧
      ∀ ops : List Op, (∀ o ∈ ops, o.weight (Fn.reach (then_ p f g w).1) = 0) →
        ∃ m w3, runOps m ops w2 = some w3 ∧
          ((∃ prx, w3.heap[x]? = some prx ∧ prx.state = .pending) →
            stateOf (then_ p f g w).1 w3 = some .pending ∧
            ∀ k2 y, ∃ n3 w4, call n3 (cap k2 x) [y] w3 = some (.ret .undefined, w4) ∧
              stateOf (then_ p f g w).1 w4 = some (kindSt k2) ∧
              valueOf (then_ p f g w).1 w4 = y) := by
  have hpl : p < w.heap.length := lt_of_get _ _ _ hp
  have hqp : w.heap.length ≠ p := Nat.ne_of_gt hpl
  have hqx : w.heap.length ≠ x := Nat.ne_of_gt hx
  have hp1 : (then_ p f g w).2.heap[p]? =
      some { pr with
        resolveFns := pr.resolveFns ++ [.onResolve (orIdent f) w.heap.length],
        rejectFns := pr.rejectFns ++ [.onReject (orIdent g) w.heap.length] } := by
    rw [get_then, get_alloc_old w p pr hp]; simp
  have hq1 : stateOf w.heap.length (then_ p f g w).2 = some .pending := by
    simp [stateOf, get_then, get_alloc_new, hqp, Promise.fresh]
  obtain ⟨n, w2, r, wb, hcall, hh, hsafeb, hunrb, hsameb⟩ :=
    settle_reaches_last (then_ p f g w).2 p w.heap.length _ hp1 hs (safe_then p f g w hsafe)
      (by rw [length_then]; exact Nat.lt_succ_self _) hqp k v (queueOf k pr)
      (mkHandler k (contOf k f g) w.heap.length)
      (by cases k <;> simp [queueOf, mkHandler, contOf])
      (fun h hh => avoids_of_below _ _ (hwf p pr hp h (queueOf_mem k pr h hh)))
      (by
        intro i pi hi _ hip h hh
        rcases get_then_other p i f g w pi hip hi with h1 | ⟨-, h2⟩
        · exact avoids_of_below _ _ (hwf i pi h1 h hh)
        · subst h2; simp [Promise.fresh] at hh)
      (by cases k <;> rfl)
  have hqb : stateOf w.heap.length wb = some .pending := hsameb.1.trans hq1
  cases n with
  | zero => simp [call] at hh
  | succ m1 =>
    rw [call_mkHandler] at hh
    unfold handler at hh
    have harg : arg0 [v] = v := rfl
    rw [harg] at hh
    cases hc : call m1 (contOf k f g) [v] wb with
    | none => simp [hc] at hh
    | some z =>
      obtain ⟨c, wy, hy, hheap⟩ := hcb wb
      have h1 := call_mono (le_max_left m1 c) _ _ _ _ hc
      have h2 := call_mono (le_max_right m1 c) _ _ _ _ hy
      rw [h1] at h2
      simp only [Option.some.injEq] at h2
      subst h2
      rw [hc] at hh
      simp only [Val.asPromise, Option.some.injEq, Prod.mk.injEq] at hh
      obtain ⟨-, hw2⟩ := hh
      have hsafey : Safe wy := safe_of_heap_eq wb wy hheap hsafeb
      have hunry : Unreached w.heap.length wy :=
        unreached_of_heap_eq _ wb wy hheap hunrb
      have hqy : stateOf w.heap.length wy = some .pending := by
        rw [← hqb]; simp [stateOf, hheap]
      have hq2 : stateOf w.heap.length w2 = some .pending := by
        rw [← hw2, (sameStatus_then _ x _ _ wy hunry.1).1]; exact hqy
      refine ⟨m1 + 1 + 1, w2, hcall, hq2, ?_⟩
      have hxy : x < wy.heap.length := Nat.lt_trans hx hunry.1
      have hsafe2 : Safe w2 := by rw [← hw2]; exact safe_then x _ _ wy hsafey
      have hlen2 : w2.heap.length = wy.heap.length + 1 := by rw [← hw2, length_then]
      have hne1 : wy.heap.length ≠ w.heap.length := Nat.ne_of_gt hunry.1
      have hexp : exposure w.heap.length w2 ≤ 1 := by
        have h3 := owed_then (Fn.reach w.heap.length) x (.resolve w.heap.length)
          (.reject w.heap.length) wy
        have h4 := owed_zero_of_unreached _ wy hunry
        have h5 := mark_of_pending _ w2 hq2
        rw [hw2] at h3
        simp only [orIdent, Fn.isFunction, if_true, Fn.reach, hne1, if_false, max_self] at h3
        simp only [exposure]
        omega
      have hlink : ∀ prx, w2.heap[x]? = some prx → prx.state = .pending →
          ∃ oldr oldj,
            prx.resolveFns = oldr ++ [.onResolve (.resolve w.heap.length) wy.heap.length] ∧
            prx.rejectFns = oldj ++ [.onReject (.reject w.heap.length) wy.heap.length] := by
        intro prx hprx _
        obtain ⟨pry, hpry⟩ := get_of_lt wy x hxy
        rw [← hw2, get_then, get_alloc_old wy x pry hpry] at hprx
        simp only [Option.map_some', if_true, Option.some.injEq, orIdent, Fn.isFunction] at hprx
        subst hprx
        exact ⟨_, _, rfl, rfl⟩
      intro ops hops
      obtain ⟨m, w3, hrun⟩ := runOps_terminates ops w2
      refine ⟨m, w3, hrun, ?_⟩
      rintro ⟨prx3, hx3, hs3⟩
      exact mirror_after_ops w2 x w.heap.length wy.heap.length hsafe2 hexp
        (by rw [hlen2]; exact Nat.lt_succ_of_lt hunry.1)
        (by rw [hlen2]; exact Nat.lt_succ_of_lt hxy) hqx hne1 hlink ops hops m w3 hrun prx3
        hx3 hs3

/-- C11 at a concrete input: instance 0 of `worldThree`, `then(f)` with
`f = () => x` for the pending instance `x = 2` (successor: instance 3), then
`resolve(5)` on instance 0; evaluated besides: after that call, a registration
on `x`, a call of `resolve(0)` on instance 1 and `MyPromise.resolve(1)`, the
successor and `x` are pending, and `resolve(4)` on `x` leaves the successor
resolved with 4, `reject("e")` on `x` leaves it rejected with `"e"`. -/
theorem C11_mirrors_returned_instance_witness :
    Safe worldThree ∧ WellFormed worldThree ∧
    (∃ n w2, call n (cap true 0) [.num 5]
        (then_ 0 (.user 7 (fun _ => .ret (.promise 2))) .notFn worldThree).2 =
          some (.ret .undefined, w2) ∧
      stateOf (then_ 0 (.user 7 (fun _ => .ret (.promise 2))) .notFn worldThree).1 w2 =
        some .pending ∧
      ∀ ops : List Op,
        (∀ o ∈ ops, o.weight (Fn.reach
          (then_ 0 (.user 7 (fun _ => .ret (.promise 2))) .notFn worldThree).1) = 0) →
        ∃ m w3, runOps m ops w2 = some w3 ∧
          ((∃ prx, w3.heap[2]? = some prx ∧ prx.state = .pending) →
            stateOf (then_ 0 (.user 7 (fun _ => .ret (.promise 2))) .notFn worldThree).1 w3 =
              some .pending ∧
            ∀ k2 y, ∃ n3 w4, call n3 (cap k2 2) [y] w3 = some (.ret .undefined, w4) ∧
              stateOf (then_ 0 (.user 7 (fun _ => .ret (.promise 2))) .notFn worldThree).1 w4 =
                some (kindSt k2) ∧
              valueOf (then_ 0 (.user 7 (fun _ => .ret (.promise 2))) .notFn worldThree).1 w4 =
                y)) ∧
    (∀ o ∈ [Op.reg (.then_ 2 (noop 9) .notFn), .call (cap true 1) [.num 0],
        .static true (.num 1)], o.weight (Fn.reach 3) = 0) ∧
    (∃ w2 w3 w4 w5, call 6 (cap true 0) [.num 5]
        (then_ 0 (.user 7 (fun _ => .ret (.promise 2))) .notFn worldThree).2 =
          some (.ret .undefined, w2) ∧
      runOps 6 [Op.reg (.then_ 2 (noop 9) .notFn), .call (cap true 1) [.num 0],
        .static true (.num 1)] w2 = some w3 ∧
      stateOf 2 w3 = some .pending ∧ stateOf 3 w3 = some .pending ∧
      call 6 (cap true 2) [.num 4] w3 = some (.ret .undefined, w4) ∧
      stateOf 3 w4 = some .resolved ∧ valueOf 3 w4 = .num 4 ∧
      call 6 (cap false 2) [.str "e"] w3 = some (.ret .undefined, w5) ∧
      stateOf 3 w5 = some .rejected ∧ valueOf 3 w5 = .str "e") :=
  ⟨safe_worldThree, wellFormed_worldThree,
    C11_mirrors_returned_instance worldThree 0 _ rfl rfl safe_worldThree wellFormed_worldThree
      (.user 7 (fun _ => .ret (.promise 2))) .notFn true (.num 5) 2 (by decide)
      (fun wx => ⟨1, trace 7 [.num 5] wx, rfl, rfl⟩),
    by decide,
    ⟨_, _, _, _, rfl, rfl, rfl, rfl, rfl, rfl, rfl, rfl, rfl, rfl⟩⟩

end MyPromise
